import Mathlib

/-!
# Qt-gobang: board state, shape scoring, frontier generator and search

A shallow embedding of `gobang.cpp` (class `Gobang`) and `movesgenerator.cpp`
(class `MovesGenerator`), followed by theorems about the embedded code.

Conventions of the embedding

* `QPoint` is a pair of integers; `QSet<QPoint>` is a `Finset QPoint`;
  `QStack<T>` is a `List T` whose head is the top of the stack.
* `std::array<std::array<stone, 15>, 15>` is a total function `Int → Int → Stone`
  and `std::array<int, 72>` a total function `Int → Int`.  The code reads and
  writes these arrays only at indices it has checked with `isLegal` or that come
  from a legal point, so the values of the functions outside the array bounds
  are never observed.
* `std::string` is a `List Char`.
* `int` is `Int`.  In reachable states every score slot lies between 0 and
  `918000` and every total between 0 and `66096000`, below `2 ^ 31`
  (`scores_bounded`), so the machine arithmetic of `updateScore` does not overflow.
-/

namespace QtGobang

/-! ## Basic types -/

/-- A point of the grid, `QPoint` in the source. `QPoint()` is `(0, 0)`. -/
structure QPoint where
  x : Int
  y : Int
deriving DecidableEq, Repr

/-- Default constructed point `QPoint()`. -/
def QPoint.null : QPoint := ⟨0, 0⟩

/-- Method `QPoint::isNull`: both coordinates are zero. -/
def QPoint.isNull (p : QPoint) : Bool := p.x == 0 && p.y == 0

/-- Operator `+` of `QPoint`. -/
def QPoint.add (p q : QPoint) : QPoint := ⟨p.x + q.x, p.y + q.y⟩

/-- The three values of a cell.  `gobang.cpp` takes the enum `stone` (enumerators
`black`, `empty`, `white`) from `gobang.h`, which is not among the sources; `types.h`
and `movesgenerator.h` declare the same three values as `Stone`. -/
inductive Stone where
  | black
  | empty
  | white
deriving DecidableEq, Repr

/-- Modelled from the spec: the expression `static_cast<stone>(!stone)` of the search.
Its value depends on the numeric values of the enumerators of `stone`, which are
declared in `gobang.h`, not among the sources.  The spec describes the recursive call
as made for the other colour, so `!` is taken to map each colour to its opponent.  The
search applies it only to a colour; on `empty` it is taken to give `black`. -/
def Stone.flip : Stone → Stone
  | .black => .white
  | .white => .black
  | .empty => .black

/-- The enum `State` of `types.h`. -/
inductive State where
  | draw
  | undecided
  | win
deriving DecidableEq, Repr

/-! ## Score constants

`gobang.cpp` uses the names `one` to `five`, `maxScore` and `minScore`; their values
are those of the enum `Score` of `types.h`. -/

/-- Enumerator `One` of `Score`. -/
def one : Int := 20

/-- Enumerator `Two` of `Score`. -/
def two : Int := 120

/-- Enumerator `Three` of `Score`. -/
def three : Int := 720

/-- Enumerator `Four` of `Score`. -/
def four : Int := 720

/-- Enumerator `OpenFours` of `Score`. -/
def livingFour : Int := 4320

/-- Enumerator `Five` of `Score`. -/
def five : Int := 50000

/-- Enumerator `Max` of `Score`. -/
def maxScore : Int := 10000000

/-- Enumerator `Min` of `Score`, defined as `-Max`. -/
def minScore : Int := -maxScore

/-! ## Shape table and line scoring -/

/-- The table `Gobang::shapeScoreMap`, in source order. -/
def shapeScoreMap : List (List Char × Int) :=
  [ ("001000".toList, one), ("000100".toList, one),
    ("010100".toList, two), ("001010".toList, two), ("001100".toList, two),
    ("011100".toList, three), ("001110".toList, three), ("010110".toList, three),
    ("011010".toList, three),
    ("11110".toList, four), ("01111".toList, four), ("10111".toList, four),
    ("11011".toList, four), ("11101".toList, four),
    ("011110".toList, livingFour),
    ("11111".toList, five) ]

/-- Lookup `shapeScoreMap.at(keyword)`; `none` stands for the `std::out_of_range`
exception of `at`. -/
def shapeScoreMap_at (keyword : List Char) : Option Int :=
  (shapeScoreMap.find? (fun e => e.1 == keyword)).map Prod.snd

/-- Modelled from the spec: `aho_corasick::trie::parse_text` on the trie that the
constructor fills with the keys of `shapeScoreMap`.  The library is not among the
sources; the spec says that every occurrence of every pattern is reported,
overlapping or not.  The result lists the keyword of each occurrence, by start
position. -/
def parse_text : List Char → List (List Char)
  | [] => []
  | c :: cs =>
    ((shapeScoreMap.map Prod.fst).filter (fun k => k.isPrefixOf (c :: cs))) ++ parse_text cs

/-- The accumulation loop shared by `updateScore` and `dScore`:
`for (shape : trie.parse_text(line)) score += shapeScoreMap.at(shape.get_keyword())`.
Every keyword reported by the trie is a key of the table, so `at` never throws;
the `getD` default is never used. -/
def lineScore (line : List Char) : Int :=
  ((parse_text line).map (fun k => (shapeScoreMap_at k).getD 0)).sum

/-! ## Zobrist fingerprint and transposition table -/

/-- Bound kind of a transposition entry, `zobrist::type` in the source. -/
inductive BoundType where
  | empty
  | exact
  | lowerBound
  | upperBound
deriving DecidableEq, Repr

/-- A transposition entry: the fields read by `alphaBetaPrune` (`type`, `score`) and
the depth it was stored with. -/
structure Entry where
  type : BoundType
  depth : Int
  score : Int
deriving DecidableEq, Repr

/-- Modelled from the spec: the class `zobrist::Zobrist` is not among the sources.
It holds the fixed pseudorandom key of every (point, stone) pair, the current
fingerprint, and the table of entries keyed by fingerprint. -/
structure Zobrist where
  key : QPoint → Stone → Nat
  hashValue : Nat
  table : Nat → Option Entry

/-- Modelled from the spec: `Zobrist::hash`, the current fingerprint. -/
def Zobrist.hash (z : Zobrist) : Nat := z.hashValue

/-- Modelled from the spec: `Zobrist::translate` toggles the fingerprint with the key
for (point, stone). -/
def Zobrist.translate (z : Zobrist) (point : QPoint) (stone : Stone) : Zobrist :=
  { z with hashValue := z.hashValue ^^^ z.key point stone }

/-- Modelled from the spec: `Zobrist::contains`; an entry exists for the fingerprint
at this depth. -/
def Zobrist.contains (z : Zobrist) (h : Nat) (depth : Int) : Bool :=
  match z.table h with
  | some e => e.depth == depth
  | none => false

/-- Modelled from the spec: `Zobrist::at`; the entry stored for the fingerprint
(an entry of kind `empty` when there is none). -/
def Zobrist.at (z : Zobrist) (h : Nat) : Entry :=
  (z.table h).getD ⟨.empty, 0, 0⟩

/-- Modelled from the spec: `Zobrist::insert` stores or overwrites the entry of the
fingerprint. -/
def Zobrist.insert (z : Zobrist) (h : Nat) (type : BoundType) (depth : Int) (score : Int) :
    Zobrist :=
  { z with table := fun k => if k = h then some ⟨type, depth, score⟩ else z.table k }

/-! ## The engine state -/

/-- The data members of class `Gobang`.  The member `trie` is filled once by the
constructor with the keys of `shapeScoreMap` and never changes; it is represented by
`parse_text`. -/
structure Gobang where
  vacancies : Finset QPoint
  record : List QPoint
  bestPoint : QPoint
  zobrist : Zobrist
  board : Int → Int → Stone
  blackScores : Int → Int
  whiteScores : Int → Int
  blackTotalScore : Int
  whiteTotalScore : Int

/-- The 225 points `QPoint(i, j)` in the order of the constructor's double loop. -/
def allPoints : List QPoint :=
  (List.range 15).flatMap fun (i : Nat) =>
    (List.range 15).map fun (j : Nat) => (⟨(i : Int), (j : Int)⟩ : QPoint)

/-- The set `vacancies` after the constructor's double loop has inserted every
`QPoint(i, j)`. -/
def initialVacancies : Finset QPoint :=
  allPoints.foldl (fun v p => insert p v) ∅

/-- Constructor `Gobang::Gobang`; `z` is the freshly constructed `zobrist::Zobrist()`. -/
def Gobang.init (z : Zobrist) : Gobang :=
  { vacancies := initialVacancies
    record := []
    bestPoint := QPoint.null
    zobrist := z
    board := fun _ _ => Stone.empty
    blackScores := fun _ => 0
    whiteScores := fun _ => 0
    blackTotalScore := 0
    whiteTotalScore := 0 }

/-- Function `Gobang::isLegal`. -/
def isLegal (point : QPoint) : Bool :=
  decide (point.x ≥ 0 ∧ point.x < 15 ∧ point.y ≥ 0 ∧ point.y < 15)

/-- Function `Gobang::checkStone`. -/
def Gobang.checkStone (s : Gobang) (point : QPoint) : Stone :=
  s.board point.x point.y

/-- Assignment `board[x][y] = stone`. -/
def setCell (board : Int → Int → Stone) (point : QPoint) (stone : Stone) : Int → Int → Stone :=
  fun i j => if i = point.x ∧ j = point.y then stone else board i j

/-- Function `Gobang::evaluate`. -/
def Gobang.evaluate (s : Gobang) (stone : Stone) : Int :=
  if stone = Stone.black then s.blackTotalScore else s.whiteTotalScore

/-! ## Incremental scoring: `updateScore` -/

/-- The symbol that the lambda `insertToLine` appends to a black line. -/
def blackSymbol : Stone → Char
  | .empty => '0'
  | .black => '1'
  | .white => Char.ofNat 32

/-- The symbol that the lambda `insertToLine` appends to a white line. -/
def whiteSymbol : Stone → Char
  | .empty => '0'
  | .black => Char.ofNat 32
  | .white => '1'

/-- Points visited by `for (int i = 0; i < 15; ++i) insertToLine(0, QPoint(i, y))`. -/
def rowPoints (y : Int) : List QPoint :=
  (List.range 15).map fun (i : Nat) => (⟨(i : Int), y⟩ : QPoint)

/-- Points visited by `for (int i = 0; i < 15; ++i) insertToLine(1, QPoint(x, i))`. -/
def colPoints (x : Int) : List QPoint :=
  (List.range 15).map fun (i : Nat) => (⟨x, (i : Int)⟩ : QPoint)

/-- The loop `for (i, j; i < 15 && j < 15; ++i, ++j)`, run for at most `fuel`
iterations. -/
def diagLoop : Nat → Int → Int → List QPoint
  | 0, _, _ => []
  | fuel + 1, i, j =>
    if i < 15 ∧ j < 15 then ⟨i, j⟩ :: diagLoop fuel (i + 1) (j + 1) else []

/-- The loop `for (i, j; i < 15 && j >= 0; ++i, --j)`, run for at most `fuel`
iterations. -/
def antiLoop : Nat → Int → Int → List QPoint
  | 0, _, _ => []
  | fuel + 1, i, j =>
    if i < 15 ∧ j ≥ 0 then ⟨i, j⟩ :: antiLoop fuel (i + 1) (j - 1) else []

/-- Points of the diagonal through `(x, y)`: `base = min(x, y)` and the loop from
`(x - base, y - base)`.  The loop index `i` starts at `x - base` and the loop stops
once `i` reaches 15, so `15 - (x - base)` iterations always suffice. -/
def diagPoints (x y : Int) : List QPoint :=
  let base := min x y
  diagLoop (15 - (x - base)).toNat (x - base) (y - base)

/-- Points of the anti-diagonal through `(x, y)`: `base = min(x, 14 - y)` and the
loop from `(x - base, y + base)`. -/
def antiPoints (x y : Int) : List QPoint :=
  let base := min x (14 - y)
  antiLoop (15 - (x - base)).toNat (x - base) (y + base)

/-- The string `blackLines[i]` built by `insertToLine` over a point sequence. -/
def blackLine (board : Int → Int → Stone) (pts : List QPoint) : List Char :=
  pts.map fun p => blackSymbol (board p.x p.y)

/-- The string `whiteLines[i]` built by `insertToLine` over a point sequence. -/
def whiteLine (board : Int → Int → Stone) (pts : List QPoint) : List Char :=
  pts.map fun p => whiteSymbol (board p.x p.y)

/-- The lambda `update` of `updateScore`. -/
def Gobang.update (s : Gobang) (index : Int) (blackLineScore whiteLineScore : Int) : Gobang :=
  let blackTotal1 := s.blackTotalScore - s.blackScores index
  let whiteTotal1 := s.whiteTotalScore - s.whiteScores index
  let blackScores1 := fun k => if k = index then blackLineScore else s.blackScores k
  let whiteScores1 := fun k => if k = index then whiteLineScore else s.whiteScores k
  { s with
    blackScores := blackScores1
    whiteScores := whiteScores1
    blackTotalScore := blackTotal1 + blackScores1 index
    whiteTotalScore := whiteTotal1 + whiteScores1 index }

/-- Function `Gobang::updateScore`. -/
def Gobang.updateScore (s : Gobang) (point : QPoint) : Gobang :=
  let x := point.x
  let y := point.y
  let l0 := rowPoints y
  let l1 := colPoints x
  let l2 := diagPoints x y
  let l3 := antiPoints x y
  let s1 := s.update y (lineScore (blackLine s.board l0)) (lineScore (whiteLine s.board l0))
  let s2 := s1.update (x + 15) (lineScore (blackLine s.board l1)) (lineScore (whiteLine s.board l1))
  let s3 :=
    if |x - y| ≤ 10 then
      s2.update (x - y + 40) (lineScore (blackLine s.board l2)) (lineScore (whiteLine s.board l2))
    else s2
  if x + y ≥ 4 ∧ x + y ≤ 24 then
    s3.update (x + y + 47) (lineScore (blackLine s.board l3)) (lineScore (whiteLine s.board l3))
  else s3

/-! ## Reversible moves: `play` and `back` -/

/-- Function `Gobang::play`. -/
def Gobang.play (s : Gobang) (point : QPoint) (stone : Stone) : Gobang :=
  let s1 : Gobang :=
    { s with
      vacancies := s.vacancies.erase point
      record := point :: s.record
      zobrist := s.zobrist.translate point stone
      board := setCell s.board point stone }
  s1.updateScore point

/-- One iteration of the loop of `Gobang::back`.  `record.top()` on an empty stack is
undefined in the source; the model leaves the state unchanged there. -/
def Gobang.back1 (s : Gobang) : Gobang :=
  match s.record with
  | [] => s
  | point :: rest =>
    let s1 : Gobang :=
      { s with
        record := rest
        vacancies := insert point s.vacancies
        zobrist := s.zobrist.translate point (s.checkStone point)
        board := setCell s.board point Stone.empty }
    s1.updateScore point

/-- The loop of `Gobang::back`, as a number of iterations of its body. -/
def Gobang.backLoop (s : Gobang) : Nat → Gobang
  | 0 => s
  | n + 1 => (s.back1).backLoop n

/-- Function `Gobang::back`: the loop `for (int i = 0; i < step; ++i)` runs its body
`step` times, and not at all when `step` is negative. -/
def Gobang.back (s : Gobang) (step : Int) : Gobang :=
  s.backLoop step.toNat

/-- Function `Gobang::isInitial`. -/
def Gobang.isInitial (s : Gobang) (type : Bool) (stone : Stone) : Bool :=
  if !type then
    match s.record with
    | [] => true
    | [top] => s.checkStone top != stone
    | _ => s.record.isEmpty
  else s.record.isEmpty

/-- Function `Gobang::lastStone`. -/
def Gobang.lastStone (s : Gobang) : QPoint :=
  match s.record with
  | [] => QPoint.null
  | top :: _ => top

/-! ## Game state -/

/-- The four line directions `(dx[i], dy[i])` of `gameState`, `calculateScore` and
`MovesGenerator::move`: row, column, diagonal, anti-diagonal. -/
def directions : List (Int × Int) := [(1, 0), (0, 1), (1, 1), (1, -1)]

/-- The inner loop of `gameState`,
`while (isLegal(QPoint(x, y)) && checkStone(QPoint(x, y)) == stone) { ++count; x += sx; y += sy; }`
with step `(sx, sy) = (d[j] * dx[i], d[j] * dy[i])`.  It returns the final `count`,
or `none` when `fuel` iterations did not reach the end of the loop. -/
def countLoop (s : Gobang) (stone : Stone) (sx sy : Int) : Nat → Int → Int → Int → Option Int
  | 0, _, _, _ => none
  | fuel + 1, x, y, count =>
    if isLegal ⟨x, y⟩ && s.checkStone ⟨x, y⟩ == stone then
      countLoop s stone sx sy fuel (x + sx) (y + sy) (count + 1)
    else some count

/-- The body of the outer loop of `gameState` for one direction: `count` after both
inner loops (`d[0] = -1`, then `d[1] = 1`). -/
def countLine (fuel : Nat) (s : Gobang) (point : QPoint) (stone : Stone) (dir : Int × Int) :
    Option Int :=
  (countLoop s stone (-1 * dir.1) (-1 * dir.2) fuel
      (point.x + -1 * dir.1) (point.y + -1 * dir.2) 1).bind fun count =>
    countLoop s stone (1 * dir.1) (1 * dir.2) fuel (point.x + 1 * dir.1) (point.y + 1 * dir.2) count

/-- The outer loop `for (int i = 0; i < 4; ++i)` of `gameState` over the directions
still to visit: `some true` when some direction reaches `count >= 5` (the function
returns `win`), `some false` when the loop ends without. -/
def winLoop (fuel : Nat) (s : Gobang) (point : QPoint) (stone : Stone) :
    List (Int × Int) → Option Bool
  | [] => some false
  | dir :: rest =>
    (countLine fuel s point stone dir).bind fun count =>
      if count ≥ 5 then some true else winLoop fuel s point stone rest

/-- The second loop of `gameState`: some row of the board has an `empty` cell. -/
def hasEmpty (s : Gobang) : Bool :=
  (List.range 15).any fun (i : Nat) =>
    (List.range 15).any fun (j : Nat) => s.board (i : Int) (j : Int) == Stone.empty

/-- Function `Gobang::gameState`; `fuel` bounds the iterations of each inner `while`
loop, and the result is `none` when a loop needs more. -/
def Gobang.gameState (fuel : Nat) (s : Gobang) (point : QPoint) (stone : Stone) :
    Option State :=
  (winLoop fuel s point stone directions).map fun won =>
    if won then State.win else if hasEmpty s then State.undecided else State.draw

/-! ## Candidate scoring -/

/-- The offsets `(i, j)` of the double loop of `isIsolated`, in loop order. -/
def neighbourOffsets : List QPoint :=
  [⟨-1, -1⟩, ⟨-1, 0⟩, ⟨-1, 1⟩, ⟨0, -1⟩, ⟨0, 0⟩, ⟨0, 1⟩, ⟨1, -1⟩, ⟨1, 0⟩, ⟨1, 1⟩]

/-- Function `Gobang::isIsolated`. -/
def Gobang.isIsolated (s : Gobang) (point : QPoint) : Bool :=
  !(neighbourOffsets.any fun o =>
      isLegal (point.add o) && s.checkStone (point.add o) != Stone.empty)

/-- The legal points `QPoint(x + dx * i, y + dy * i)` for `i` from -5 to 5, in the
order the loop of `dScore` visits them. -/
def windowPoints (point : QPoint) (dx dy : Int) : List QPoint :=
  (([-5, -4, -3, -2, -1, 0, 1, 2, 3, 4, 5] : List Int).map
    fun i => (⟨point.x + dx * i, point.y + dy * i⟩ : QPoint)).filter isLegal

/-- Function `Gobang::dScore`. -/
def Gobang.dScore (s : Gobang) (point : QPoint) (dx dy : Int) : Int :=
  let pts := windowPoints point dx dy
  let blackLine : List Char :=
    pts.map fun q => if q = point then '1' else blackSymbol (s.checkStone q)
  let whiteLine : List Char :=
    pts.map fun q => if q = point then '1' else whiteSymbol (s.checkStone q)
  lineScore blackLine + lineScore whiteLine

/-- Function `Gobang::calculateScore`. -/
def Gobang.calculateScore (s : Gobang) (point : QPoint) : Int :=
  directions.foldl (fun score d => score + s.dScore point d.1 d.2) 0

/-! ## Search -/

/-- The comparator `scoreGreater` of `alphaBetaPrune`. -/
def scoreGreater (a b : QPoint × Int) : Bool :=
  if a.2 ≠ b.2 then decide (a.2 > b.2)
  else if a.1.x ≠ b.1.x then decide (a.1.x < b.1.x)
  else decide (a.1.y < b.1.y)

/-- Member `emplace` of `std::set` with comparator `scoreGreater`, on the ordered
sequence of its elements: the new element is placed before the first element it
precedes, and is dropped when an equivalent element is present. -/
def emplace (e : QPoint × Int) : List (QPoint × Int) → List (QPoint × Int)
  | [] => [e]
  | h :: t =>
    if scoreGreater e h then e :: h :: t
    else if scoreGreater h e then h :: emplace e t
    else h :: t

/-- Lexicographic order on points, used to fix an iteration order for `QSet`. -/
def pointLE (a b : QPoint) : Prop := a.x < b.x ∨ (a.x = b.x ∧ a.y ≤ b.y)

instance pointLE_decidable : DecidableRel pointLE :=
  fun a b => inferInstanceAs (Decidable (a.x < b.x ∨ (a.x = b.x ∧ a.y ≤ b.y)))

instance pointLE_total : IsTotal QPoint pointLE :=
  ⟨fun a b => by unfold pointLE; omega⟩

instance pointLE_trans : IsTrans QPoint pointLE :=
  ⟨fun a b c => by unfold pointLE; omega⟩

instance pointLE_antisymm : IsAntisymm QPoint pointLE :=
  ⟨fun a b h1 h2 => by
    unfold pointLE at h1 h2
    cases a; cases b; simp only [QPoint.mk.injEq] at *; omega⟩

/-- The elements of a `QSet<QPoint>` in the order a range-for visits them.  Qt leaves
that order unspecified; the model visits the points in lexicographic order. -/
def iterate (set : Finset QPoint) : List QPoint :=
  Quot.liftOn set.val (fun l => l.insertionSort pointLE) fun a b h =>
    List.eq_of_perm_of_sorted
      (((List.perm_insertionSort pointLE a).trans h).trans (List.perm_insertionSort pointLE b).symm)
      (List.sorted_insertionSort pointLE a) (List.sorted_insertionSort pointLE b)

/-- The container `candidates` after the loop over `vacancies`. -/
def Gobang.candidates (s : Gobang) : List (QPoint × Int) :=
  (iterate s.vacancies).foldl
    (fun c vacancy => if s.isIsolated vacancy then c else emplace (vacancy, s.calculateScore vacancy) c)
    []

/-- The transposition lookup at the head of `alphaBetaPrune`: `some r` when the
function returns `r` from the table, `none` when it falls through. -/
def Gobang.tableLookup (s : Gobang) (maxDepth depth : Nat) (alpha beta : Int) : Option Int :=
  if depth ≠ maxDepth ∧ s.zobrist.contains s.zobrist.hash depth = true then
    let entry := s.zobrist.at s.zobrist.hash
    match entry.type with
    | .empty => none
    | .exact => some entry.score
    | .lowerBound => if entry.score ≥ beta then some beta else none
    | .upperBound => if entry.score ≤ alpha then some alpha else none
  else none

/-- The statement `zobrist.insert(zobrist.hash(), type, depth, score)`. -/
def Gobang.store (s : Gobang) (type : BoundType) (depth : Nat) (score : Int) : Gobang :=
  { s with zobrist := s.zobrist.insert s.zobrist.hash type depth score }

/-- The candidate loop of `alphaBetaPrune` together with the store and return that
follow it.  `child` is the recursive call
`alphaBetaPrune(!stone, depth - 1, -beta, -alpha)` on the current state. -/
def candidateLoop (child : Gobang → Int → Int → Gobang × Int) (maxDepth depth : Nat)
    (stone : Stone) (beta : Int) :
    List (QPoint × Int) → Gobang → Int → Int → BoundType → Gobang × Int
  | [], s, alpha, _, valueType => (s.store valueType depth alpha, alpha)
  | (candidate, _) :: rest, s, alpha, limit, valueType =>
    let s1 := s.play candidate stone
    let r := child s1 (-beta) (-alpha)
    let vacancyScore := -r.2
    let s2 := r.1.back 1
    if vacancyScore ≥ beta then
      (s2.store BoundType.lowerBound depth vacancyScore, beta)
    else
      let improved := decide (vacancyScore > alpha)
      let s3 := if improved ∧ depth = maxDepth then { s2 with bestPoint := candidate } else s2
      let alpha1 := if improved then vacancyScore else alpha
      let valueType1 := if improved then BoundType.exact else valueType
      if limit - 1 < 0 then (s3.store valueType1 depth alpha1, alpha1)
      else candidateLoop child maxDepth depth stone beta rest s3 alpha1 (limit - 1) valueType1

/-- Function `Gobang::alphaBetaPrune`, with the constant `maxDepth` of `gobang.h` as a
parameter.  The result is the state after the call and the returned score.  The
depth is a natural number: the search starts at `maxDepth` and each recursive call
passes `depth - 1` until the leaf test `!depth` returns. -/
def alphaBetaPrune (maxDepth : Nat) : Nat → Gobang → Stone → Int → Int → Gobang × Int
  | depth, s, stone, alpha, beta =>
    match s.tableLookup maxDepth depth alpha beta with
    | some r => (s, r)
    | none =>
      let firstScore := s.evaluate stone
      let secondScore := s.evaluate stone.flip
      if firstScore ≥ five then (s, maxScore - 1000 - ((maxDepth : Int) - depth))
      else if secondScore ≥ five then (s, minScore + 1000 + ((maxDepth : Int) - depth))
      else
        match depth with
        | 0 => (s.store BoundType.exact 0 (firstScore - secondScore), firstScore - secondScore)
        | d + 1 =>
          candidateLoop (fun s1 a b => alphaBetaPrune maxDepth d s1 stone.flip a b)
            maxDepth (d + 1) stone beta s.candidates s alpha
            (8 - ((maxDepth : Int) - ((d + 1 : Nat) : Int))) BoundType.upperBound

/-- Function `Gobang::ai`: the root search with the default window
`(minScore, maxScore)`, then `bestPoint`. -/
def Gobang.ai (maxDepth : Nat) (s : Gobang) (stone : Stone) : Gobang × QPoint :=
  let r := alphaBetaPrune maxDepth maxDepth s stone minScore maxScore
  (r.1, r.1.bestPoint)

/-! ## Frontier generator (`movesgenerator.cpp`) -/

/-- The data members of class `MovesGenerator`; the member `board` points to the
engine's grid, which the operations below take as an argument. -/
structure MovesGenerator where
  history : List (Finset QPoint × QPoint)
  moves : Finset QPoint

/-- The generator as constructed: no moves, no history. -/
def MovesGenerator.init : MovesGenerator := ⟨[], ∅⟩

/-- The offsets `QPoint(d[j] * dx[i], d[j] * dy[i])` in the order of the double loop
of `MovesGenerator::move`. -/
def moveOffsets : List QPoint :=
  directions.flatMap fun dir => [(⟨-1 * dir.1, -1 * dir.2⟩ : QPoint), ⟨1 * dir.1, 1 * dir.2⟩]

/-- One iteration of the double loop of `MovesGenerator::move` on the pair
(`moves`, `hist`). -/
def moveStep (board : Int → Int → Stone) (point : QPoint)
    (acc : Finset QPoint × Finset QPoint) (o : QPoint) : Finset QPoint × Finset QPoint :=
  let neighborhood := point.add o
  if isLegal neighborhood ∧ board neighborhood.x neighborhood.y = Stone.empty then
    let size := acc.1.card
    let moves1 := insert neighborhood acc.1
    if moves1.card > size then (moves1, insert neighborhood acc.2) else (moves1, acc.2)
  else acc

/-- Function `MovesGenerator::move`. -/
def MovesGenerator.move (board : Int → Int → Stone) (g : MovesGenerator) (point : QPoint) :
    MovesGenerator :=
  let r := moveOffsets.foldl (moveStep board point) (g.moves, ∅)
  let removedPoint := if point ∈ r.1 then point else QPoint.null
  { history := (r.2, removedPoint) :: g.history
    moves := r.1.erase point }

/-- Function `MovesGenerator::undo`.  `history.top()` on an empty stack is undefined
in the source; the model leaves the generator unchanged there. -/
def MovesGenerator.undo (g : MovesGenerator) (_point : QPoint) : MovesGenerator :=
  match g.history with
  | [] => g
  | hist :: rest =>
    let moves1 := g.moves \ hist.1
    { history := rest
      moves := if !hist.2.isNull then insert hist.2 moves1 else moves1 }

/-- Function `MovesGenerator::empty`. -/
def MovesGenerator.empty (g : MovesGenerator) : Bool := decide (g.moves = ∅)

/-- Function `MovesGenerator::generate`. -/
def MovesGenerator.generate (g : MovesGenerator) : Finset QPoint := g.moves

/-! ## Specification-side definitions -/

/-- A coordinate is on the board. -/
def onBoard (p : QPoint) : Prop := 0 ≤ p.x ∧ p.x < 15 ∧ 0 ≤ p.y ∧ p.y < 15

instance onBoard_decidable (p : QPoint) : Decidable (onBoard p) :=
  inferInstanceAs (Decidable (0 ≤ p.x ∧ p.x < 15 ∧ 0 ≤ p.y ∧ p.y < 15))

/-- States reached from the constructed engine by `play` on a vacant cell with a
Black or White stone, and by `back(n)` with `n` at most the history length. -/
inductive Reachable (z : Zobrist) : Gobang → Prop
  | init : Reachable z (Gobang.init z)
  | play (s : Gobang) (p : QPoint) (stone : Stone) :
      Reachable z s → p ∈ s.vacancies → (stone = Stone.black ∨ stone = Stone.white) →
      Reachable z (s.play p stone)
  | back (s : Gobang) (n : Nat) :
      Reachable z s → n ≤ s.record.length → Reachable z (s.back n)

/-- XOR of the keys of all occupied cells of a grid, over the 225 cells. -/
def boardHash (key : QPoint → Stone → Nat) (board : Int → Int → Stone) : Nat :=
  (allPoints.map fun p =>
    if board p.x p.y = Stone.empty then 0 else key p (board p.x p.y)).foldr (· ^^^ ·) 0

/-- The spec's rendering of a line for one colour: own stone `1`, empty cell `0`,
opponent stone the blocking symbol (a blank). -/
def render (own : Stone) (board : Int → Int → Stone) (pts : List QPoint) : List Char :=
  pts.map fun p =>
    if board p.x p.y = own then '1' else if board p.x p.y = Stone.empty then '0' else Char.ofNat 32

/-- Row `y` of the grid, by increasing `x`. -/
def specRow (y : Int) : List QPoint := allPoints.filter fun p => p.y = y

/-- Column `x` of the grid, by increasing `y`. -/
def specCol (x : Int) : List QPoint := allPoints.filter fun p => p.x = x

/-- The diagonal `x - y = c` of the grid, by increasing `x`. -/
def specDiag (c : Int) : List QPoint := allPoints.filter fun p => p.x - p.y = c

/-- The anti-diagonal `x + y = c` of the grid, by increasing `x`. -/
def specAnti (c : Int) : List QPoint := allPoints.filter fun p => p.x + p.y = c

/-- The full line that score slot `k` stands for: rows in slots 0 to 14, columns in
15 to 29, diagonals in 30 to 50, anti-diagonals in 51 to 71. -/
def slotLine (k : Int) : List QPoint :=
  if k < 15 then specRow k
  else if k < 30 then specCol (k - 15)
  else if k < 51 then specDiag (k - 40)
  else specAnti (k - 47)

/-- From-scratch score of one colour on a full line of the grid. -/
def specLineScore (own : Stone) (board : Int → Int → Stone) (pts : List QPoint) : Int :=
  lineScore (render own board pts)

/-- From-scratch evaluation of one colour: the line scores of the 15 rows, the 15
columns, the 21 diagonals and the 21 anti-diagonals of length at least 5. -/
def specEvaluate (own : Stone) (board : Int → Int → Stone) : Int :=
  ((∑ y ∈ Finset.range 15, specLineScore own board (specRow (y : Int)))
    + (∑ x ∈ Finset.range 15, specLineScore own board (specCol (x : Int))))
  + ((∑ c ∈ Finset.range 21, specLineScore own board (specDiag ((c : Int) - 10)))
    + (∑ c ∈ Finset.range 21, specLineScore own board (specAnti ((c : Int) + 4))))

/-- A sequence of plays, applied in order. -/
def playAll (s : Gobang) : List (QPoint × Stone) → Gobang
  | [] => s
  | m :: ms => playAll (s.play m.1 m.2) ms

/-- Every play of the sequence puts a Black or White stone on a cell that is vacant
at that moment. -/
def Playable (s : Gobang) : List (QPoint × Stone) → Prop
  | [] => True
  | m :: ms =>
    m.1 ∈ s.vacancies ∧ (m.2 = Stone.black ∨ m.2 = Stone.white) ∧ Playable (s.play m.1 m.2) ms

/-- The cell reached from `p` by `t` steps in direction `dir`. -/
def stepFrom (p : QPoint) (dir : Int × Int) (t : Int) : QPoint :=
  ⟨p.x + t * dir.1, p.y + t * dir.2⟩

/-- Some run of consecutive `c`-stones in direction `dir` contains `p` and has at
least five stones; equivalently the maximal such run has length at least 5. -/
def runOfFive (s : Gobang) (p : QPoint) (c : Stone) (dir : Int × Int) : Prop :=
  ∃ a b : Nat, 5 ≤ a + b + 1 ∧
    ∀ t : Int, -(a : Int) ≤ t → t ≤ (b : Int) →
      onBoard (stepFrom p dir t) ∧ s.checkStone (stepFrom p dir t) = c

/-! ## Invariants, auxiliary notions and sample states -/

/-- Each slot array holds the score of its full line of the grid. -/
def SlotsOK (board : Int → Int → Stone) (bs ws : Int → Int) : Prop :=
  ∀ k : Int, 0 ≤ k → k < 72 →
    bs k = lineScore (blackLine board (slotLine k)) ∧
    ws k = lineScore (whiteLine board (slotLine k))

/-- Each running total is the sum of the 72 slots of its array. -/
def TotalsOK (s : Gobang) : Prop :=
  s.blackTotalScore = ∑ k ∈ Finset.range 72, s.blackScores (k : Int) ∧
  s.whiteTotalScore = ∑ k ∈ Finset.range 72, s.whiteScores (k : Int)

/-- The key of the stone on a cell, when there is one. -/
def cellKey (key : QPoint → Stone → Nat) (board : Int → Int → Stone) (p : QPoint) : Nat :=
  if board p.x p.y = Stone.empty then 0 else key p (board p.x p.y)

/-- The invariant maintained by `play` and `back`: vacancies, grid and history
agree, the score slots and totals are those of the current grid, and the
fingerprint is the XOR of the keys of the occupied cells. -/
structure Inv (z : Zobrist) (s : Gobang) : Prop where
  vac : ∀ p, p ∈ s.vacancies ↔ (onBoard p ∧ s.checkStone p = Stone.empty)
  occ : ∀ p, p ∈ s.record ↔ (onBoard p ∧ s.checkStone p ≠ Stone.empty)
  nodup : s.record.Nodup
  slots : SlotsOK s.board s.blackScores s.whiteScores
  totals : TotalsOK s
  key : s.zobrist.key = z.key
  hash : s.zobrist.hash = z.hash ^^^ boardHash z.key s.board

/-- A sample key table and initial fingerprint for the examples. -/
def sampleZobrist : Zobrist :=
  { key := fun p st => (p.x.toNat * 15 + p.y.toNat) * 2 + (if st = Stone.black then 1 else 2)
    hashValue := 0
    table := fun _ => none }

/-- The constructed engine with one Black stone on the centre point. -/
def sampleState : Gobang := (Gobang.init sampleZobrist).play ⟨7, 7⟩ Stone.black

/-- Two orders of the same two plays. -/
def sampleStateAB : Gobang :=
  ((Gobang.init sampleZobrist).play ⟨7, 7⟩ Stone.black).play ⟨8, 8⟩ Stone.white

/-- The same two plays in the other order. -/
def sampleStateBA : Gobang :=
  ((Gobang.init sampleZobrist).play ⟨8, 8⟩ Stone.white).play ⟨7, 7⟩ Stone.black

/-- Two plays from the state with one stone on the centre. -/
def sampleMoves : List (QPoint × Stone) := [(⟨8, 8⟩, Stone.white), (⟨7, 8⟩, Stone.black)]

/-- The cell is on the board and holds the given stone: the condition of the inner
loop of `gameState`. -/
def okCell (s : Gobang) (stone : Stone) (q : QPoint) : Prop :=
  onBoard q ∧ s.checkStone q = stone

/-- Number of further iterations after which the walk from `(x, y)` with step
`(sx, sy)` has left the board. -/
def exitDist (sx sy x y : Int) : Int :=
  if sx = 1 then 15 - x else if sx = -1 then x + 1 else if sy = 1 then 15 - y else y + 1

/-- The grid with one Black stone on `(1, 1)`. -/
def cornerBoard : Int → Int → Stone := setCell (fun _ _ => Stone.empty) ⟨1, 1⟩ Stone.black

/-- The generator after `move((1, 1))` on that grid, in lockstep with the board. -/
def cornerGenerator : MovesGenerator := MovesGenerator.init.move cornerBoard ⟨1, 1⟩

/-- The generator after the further `move((0, 0))` (the cell then holding a White
stone) and `undo((0, 0))`. -/
def cornerRoundTrip : MovesGenerator :=
  (cornerGenerator.move (setCell cornerBoard ⟨0, 0⟩ Stone.white) ⟨0, 0⟩).undo ⟨0, 0⟩

/-- Five Black stones in a row, `(3, 3)` to `(7, 3)`, on the constructed engine. -/
def fiveState : Gobang :=
  playAll (Gobang.init sampleZobrist)
    [(⟨3, 3⟩, Stone.black), (⟨4, 3⟩, Stone.black), (⟨5, 3⟩, Stone.black),
     (⟨6, 3⟩, Stone.black), (⟨7, 3⟩, Stone.black)]

/-! ## Board and frontier generator in lockstep -/

/-- Modelled from the spec: the engine that drives a board and a `MovesGenerator` is
not among the sources.  The spec pairs every play on the board with a `move` of the
generator: the stone is placed, then `move(point)` reads the grid. -/
def lockPlay (sg : Gobang × MovesGenerator) (point : QPoint) (stone : Stone) :
    Gobang × MovesGenerator :=
  (sg.1.play point stone, sg.2.move (sg.1.play point stone).board point)

/-- Modelled from the spec: the undo of the last play on the board (`back(1)`) paired
with `undo` of the generator for the same point, in last-in-first-out order. -/
def lockUndo (sg : Gobang × MovesGenerator) : Gobang × MovesGenerator :=
  match sg.1.record with
  | [] => sg
  | point :: _ => (sg.1.back 1, sg.2.undo point)

/-- Board and generator after `k` plays on vacant cells in lockstep, with no undo. -/
inductive LockPlayed (z : Zobrist) : Nat → Gobang × MovesGenerator → Prop
  | init : LockPlayed z 0 (Gobang.init z, MovesGenerator.init)
  | play (k : Nat) (sg : Gobang × MovesGenerator) (p : QPoint) (stone : Stone) :
      LockPlayed z k sg → p ∈ sg.1.vacancies → (stone = Stone.black ∨ stone = Stone.white) →
      LockPlayed z (k + 1) (lockPlay sg p stone)

/-- Board and generator after any sequence of plays on vacant cells and undos of the
last play, in lockstep. -/
inductive LockReachable (z : Zobrist) : Gobang × MovesGenerator → Prop
  | init : LockReachable z (Gobang.init z, MovesGenerator.init)
  | play (sg : Gobang × MovesGenerator) (p : QPoint) (stone : Stone) :
      LockReachable z sg → p ∈ sg.1.vacancies → (stone = Stone.black ∨ stone = Stone.white) →
      LockReachable z (lockPlay sg p stone)
  | undo (sg : Gobang × MovesGenerator) :
      LockReachable z sg → sg.1.record ≠ [] → LockReachable z (lockUndo sg)

/-- The cell has an occupied cell among its 8 neighbours. -/
def hasOccupiedNeighbour (s : Gobang) (q : QPoint) : Prop :=
  ∃ o ∈ moveOffsets, onBoard (q.add o) ∧ s.checkStone (q.add o) ≠ Stone.empty

/-- The cell `q` is one of the 8 neighbours of `p`. -/
def isNeighbourOf (q p : QPoint) : Prop := ∃ o ∈ moveOffsets, q = p.add o

/-- Each entry of the generator's history belongs to the play at the same position of
the board's history: its removed point is that play's point or the null point. -/
def HistoryMatches (history : List (Finset QPoint × QPoint)) (record : List QPoint) : Prop :=
  List.Forall₂ (fun h r => h.2 = r ∨ h.2 = QPoint.null) history record

/-- The constructed engine and generator after one Black play on the centre, in
lockstep. -/
def sampleLock : Gobang × MovesGenerator :=
  lockPlay (Gobang.init sampleZobrist, MovesGenerator.init) ⟨7, 7⟩ Stone.black

/-! ## The full window of `dScore` -/

/-- The 11 cells `QPoint(x + dx * i, y + dy * i)` for `i` from -5 to 5, off-board
cells included. -/
def fullWindow (point : QPoint) (dx dy : Int) : List QPoint :=
  ([-5, -4, -3, -2, -1, 0, 1, 2, 3, 4, 5] : List Int).map
    fun i => (⟨point.x + dx * i, point.y + dy * i⟩ : QPoint)

/-- The spec's symbol of a window cell for one colour: the centre is an own stone, an
off-board cell is blocked (a blank, the symbol of an opponent stone), any other cell
is rendered as in a full line. -/
def windowSymbol (own : Stone) (s : Gobang) (point q : QPoint) : Char :=
  if q = point then '1'
  else if isLegal q = false then Char.ofNat 32
  else if s.checkStone q = own then '1'
  else if s.checkStone q = Stone.empty then '0'
  else Char.ofNat 32

/-- The spec's score of the full 11-symbol window: the pattern-occurrence score sums of
both colours' renderings, added. -/
def specWindowScore (s : Gobang) (point : QPoint) (dx dy : Int) : Int :=
  lineScore ((fullWindow point dx dy).map (windowSymbol Stone.black s point))
    + lineScore ((fullWindow point dx dy).map (windowSymbol Stone.white s point))

/-! ## Candidate container -/

/-- The body of the loop `for (const auto &vacancy : vacancies)` of `alphaBetaPrune`
on the container built so far. -/
def candidateStep (s : Gobang) (c : List (QPoint × Int)) (vacancy : QPoint) :
    List (QPoint × Int) :=
  if s.isIsolated vacancy then c else emplace (vacancy, s.calculateScore vacancy) c

/-- The order in which the candidates are visited: decreasing score, ties broken by
smaller `x`, then smaller `y`. -/
def visitedBefore (a b : QPoint × Int) : Prop :=
  a.2 > b.2 ∨ (a.2 = b.2 ∧ (a.1.x < b.1.x ∨ (a.1.x = b.1.x ∧ a.1.y < b.1.y)))

/-! ## Score-slot indices -/

/-- The index `y` of the first `update` call of `updateScore`: the row slot. -/
def rowSlot (p : QPoint) : Int := p.y

/-- The index `offsetIndex = x + 15` of the second `update` call: the column slot. -/
def colSlot (p : QPoint) : Int := p.x + 15

/-- The index `offsetIndex = x - y + 40` of the third `update` call: the diagonal
slot. -/
def diagSlot (p : QPoint) : Int := p.x - p.y + 40

/-- The index `offsetIndex = x + y + 47` of the fourth `update` call: the
anti-diagonal slot. -/
def antiSlot (p : QPoint) : Int := p.x + p.y + 47

/-- The guard `std::abs(x - y) <= 10` of the diagonal update. -/
def diagGuard (p : QPoint) : Prop := |p.x - p.y| ≤ 10

/-- The guard `x + y >= 4 && x + y <= 24` of the anti-diagonal update. -/
def antiGuard (p : QPoint) : Prop := p.x + p.y ≥ 4 ∧ p.x + p.y ≤ 24

/-- The slot `k` is one of the indices that `updateScore(p)` passes to `update`. -/
def written (p : QPoint) (k : Int) : Prop :=
  k = rowSlot p ∨ k = colSlot p ∨ (k = diagSlot p ∧ diagGuard p) ∨ (k = antiSlot p ∧ antiGuard p)

/-! ## The position and the search's own data -/

/-- The state with the two members that only the search writes, `bestPoint` and the
transposition table, replaced; grid, vacancies, history, fingerprint and scores are
kept. -/
def Gobang.withAux (s : Gobang) (bestPoint : QPoint) (table : Nat → Option Entry) : Gobang :=
  { s with bestPoint := bestPoint, zobrist := { s.zobrist with table := table } }

/-! ## The search with the transposition table disabled -/

/-- The candidate loop of `alphaBetaPrune` with the transposition table disabled:
the loop of `candidateLoop` without its three `zobrist.insert` statements (so the
bound kind `valueType` is not tracked). -/
def candidateLoopNoTable (child : Gobang → Int → Int → Gobang × Int) (maxDepth depth : Nat)
    (stone : Stone) (beta : Int) :
    List (QPoint × Int) → Gobang → Int → Int → Gobang × Int
  | [], s, alpha, _ => (s, alpha)
  | (candidate, _) :: rest, s, alpha, limit =>
    let s1 := s.play candidate stone
    let r := child s1 (-beta) (-alpha)
    let vacancyScore := -r.2
    let s2 := r.1.back 1
    if vacancyScore ≥ beta then (s2, beta)
    else
      let improved := decide (vacancyScore > alpha)
      let s3 := if improved ∧ depth = maxDepth then { s2 with bestPoint := candidate } else s2
      let alpha1 := if improved then vacancyScore else alpha
      if limit - 1 < 0 then (s3, alpha1)
      else candidateLoopNoTable child maxDepth depth stone beta rest s3 alpha1 (limit - 1)

/-- The function `alphaBetaPrune` with the transposition table disabled: no lookup
at entry and no store, everything else as in the code. -/
def alphaBetaNoTable (maxDepth : Nat) : Nat → Gobang → Stone → Int → Int → Gobang × Int
  | depth, s, stone, alpha, beta =>
    let firstScore := s.evaluate stone
    let secondScore := s.evaluate stone.flip
    if firstScore ≥ five then (s, maxScore - 1000 - ((maxDepth : Int) - depth))
    else if secondScore ≥ five then (s, minScore + 1000 + ((maxDepth : Int) - depth))
    else
      match depth with
      | 0 => (s, firstScore - secondScore)
      | d + 1 =>
        candidateLoopNoTable (fun s1 a b => alphaBetaNoTable maxDepth d s1 stone.flip a b)
          maxDepth (d + 1) stone beta s.candidates s alpha
          (8 - ((maxDepth : Int) - ((d + 1 : Nat) : Int)))

/-- The sample state after a call of `alphaBetaPrune` at depth 0 for Black
(`maxDepth = 1`): its table holds the exact entry that the call stored. -/
def sampleStored : Gobang :=
  (alphaBetaPrune 1 0 sampleState Stone.black minScore maxScore).1

/-- The candidate loop of `alphaBetaPrune` with the same control flow as
`candidateLoop`, returning also the candidates on which it calls `play`, in order. -/
def candidateLoopPlayed (child : Gobang → Int → Int → Gobang × Int) (maxDepth depth : Nat)
    (stone : Stone) (beta : Int) :
    List (QPoint × Int) → Gobang → Int → Int → BoundType → (Gobang × Int) × List QPoint
  | [], s, alpha, _, valueType => ((s.store valueType depth alpha, alpha), [])
  | (candidate, _) :: rest, s, alpha, limit, valueType =>
    let s1 := s.play candidate stone
    let r := child s1 (-beta) (-alpha)
    let vacancyScore := -r.2
    let s2 := r.1.back 1
    if vacancyScore ≥ beta then
      ((s2.store BoundType.lowerBound depth vacancyScore, beta), [candidate])
    else
      let improved := decide (vacancyScore > alpha)
      let s3 := if improved ∧ depth = maxDepth then { s2 with bestPoint := candidate } else s2
      let alpha1 := if improved then vacancyScore else alpha
      let valueType1 := if improved then BoundType.exact else valueType
      if limit - 1 < 0 then ((s3.store valueType1 depth alpha1, alpha1), [candidate])
      else
        let r1 := candidateLoopPlayed child maxDepth depth stone beta rest s3 alpha1 (limit - 1)
          valueType1
        (r1.1, candidate :: r1.2)

/-- The candidates played by the candidate loop of one call of `alphaBetaPrune`
(none when the call returns before its loop). -/
def nodePlayed (maxDepth : Nat) (depth : Nat) (s : Gobang) (stone : Stone) (alpha beta : Int) :
    List QPoint :=
  match s.tableLookup maxDepth depth alpha beta with
  | some _ => []
  | none =>
    if s.evaluate stone ≥ five then []
    else if s.evaluate stone.flip ≥ five then []
    else
      match depth with
      | 0 => []
      | d + 1 =>
        (candidateLoopPlayed (fun s1 a b => alphaBetaPrune maxDepth d s1 stone.flip a b)
          maxDepth (d + 1) stone beta s.candidates s alpha
          (8 - ((maxDepth : Int) - ((d + 1 : Nat) : Int))) BoundType.upperBound).2

/-- Every entry of the table is an exact entry with a score strictly between `Min`
and `Max`. -/
def TableOK (t : Nat → Option Entry) : Prop :=
  ∀ h e, t h = some e → e.type = BoundType.exact ∧ minScore < e.score ∧ e.score < maxScore

/-- Black on the centre, White two cells above it: thirteen vacant cells have an
occupied neighbour. -/
def twoStoneState : Gobang :=
  playAll (Gobang.init sampleZobrist) [(⟨7, 7⟩, Stone.black), (⟨7, 9⟩, Stone.white)]

/-- Nine of the candidates of `twoStoneState`. -/
def ninePoints : List QPoint :=
  [⟨6, 6⟩, ⟨6, 7⟩, ⟨6, 8⟩, ⟨7, 6⟩, ⟨7, 8⟩, ⟨8, 6⟩, ⟨8, 7⟩, ⟨8, 8⟩, ⟨6, 9⟩]

/-! ## Five in a row and the terminal test of the search -/

/-- Colour `c` has five consecutive stones in some row, column, diagonal or
anti-diagonal: from some cell, five steps in one of the four directions stay on the
grid and carry `c`. -/
def fiveInRow (s : Gobang) (c : Stone) : Prop :=
  ∃ p : QPoint, ∃ dir ∈ directions, ∀ t : Nat, t < 5 →
    onBoard (stepFrom p dir (t : Int)) ∧ s.checkStone (stepFrom p dir (t : Int)) = c

/-- The five cells starting at `p` in direction `dir`. -/
def fivePoints (p : QPoint) (dir : Int × Int) : List QPoint :=
  (List.range 5).map fun (t : Nat) => stepFrom p dir (t : Int)

/-- The diagonal `x - y = c` in closed form: from its first cell, by increasing `x`. -/
def diagClosed (c : Int) : List QPoint :=
  (List.range (15 - |c|).toNat).map fun (t : Nat) => (⟨max 0 c + t, max 0 (-c) + t⟩ : QPoint)

/-- The anti-diagonal `x + y = c` in closed form: from its first cell, by increasing
`x`. -/
def antiClosed (c : Int) : List QPoint :=
  (List.range (15 - |c - 14|).toNat).map
    fun (t : Nat) => (⟨max 0 (c - 14) + t, min c 14 - t⟩ : QPoint)

/-- The line of score slot `k`, listed without a search through the grid. -/
def paramLine (k : Int) : List QPoint :=
  if k < 15 then rowPoints k
  else if k < 30 then colPoints (k - 15)
  else if k < 51 then diagClosed (k - 40)
  else antiClosed (k - 47)

/-- The score slot of the line through `p` in direction `dir`. -/
def runSlot (p : QPoint) (dir : Int × Int) : Int :=
  if dir = (1, 0) then rowSlot p
  else if dir = (0, 1) then colSlot p
  else if dir = (1, 1) then diagSlot p
  else antiSlot p

/-- The position of `p` in the line through `p` in direction `dir`. -/
def runIndex (p : QPoint) (dir : Int × Int) : Nat :=
  if dir = (1, 0) then p.x.toNat
  else if dir = (0, 1) then p.y.toNat
  else if dir = (1, 1) then (min p.x p.y).toNat
  else (min p.x (14 - p.y)).toNat

/-- The moves that fill the square of cells `5 ≤ x, y ≤ 8` with Black stones. -/
def blockMoves : List (QPoint × Stone) :=
  (allPoints.filter fun p => 5 ≤ p.x ∧ p.x ≤ 8 ∧ 5 ≤ p.y ∧ p.y ≤ 8).map
    fun p => (p, Stone.black)

/-- Sixteen Black stones in a 4 by 4 square: no line holds five of them. -/
def blockState : Gobang := playAll (Gobang.init sampleZobrist) blockMoves

/-- The grid of `blockState` in closed form. -/
def blockGrid : Int → Int → Stone :=
  fun x y => if 5 ≤ x ∧ x ≤ 8 ∧ 5 ≤ y ∧ y ≤ 8 then Stone.black else Stone.empty

/-! ## The last vacant cell -/

/-- A colouring of the grid in which no line has three stones of one colour in a
row: Black where `(x + 2 y) mod 4 < 2`, White elsewhere. -/
def drawColour (p : QPoint) : Stone :=
  if (p.x + 2 * p.y) % 4 < 2 then Stone.black else Stone.white

/-- The plays that fill every cell but the centre according to `drawColour`. -/
def lastMoves : List (QPoint × Stone) :=
  (allPoints.filter fun p => decide (p ≠ ⟨7, 7⟩)).map fun p => (p, drawColour p)

/-- The board with 224 stones and the centre as its only vacant cell. -/
def lastVacancyState : Gobang := playAll (Gobang.init sampleZobrist) lastMoves

/-- The grid of `lastVacancyState` in closed form. -/
def holeGrid : Int → Int → Stone :=
  fun x y => if x = 7 ∧ y = 7 then Stone.empty else drawColour ⟨x, y⟩

/-- The grid after a Black stone has filled the centre, in closed form. -/
def fullGrid : Int → Int → Stone :=
  fun x y => drawColour ⟨x, y⟩

/-- Five symbols `1` in a row occur in the line. -/
def fiveOnes : List Char → Bool
  | [] => false
  | c :: cs => ['1', '1', '1', '1', '1'].isPrefixOf (c :: cs) || fiveOnes cs

/-- The line has no symbol `0` and no five symbols `1` in a row. -/
def quietLine (line : List Char) : Bool :=
  line.all (fun c => c != '0') && !fiveOnes line

/-- Board and generator after a Black play on the centre, a White play on (8, 8) and
the undo of that White play, in lockstep: the frontier is the 8 neighbours of the
centre. -/
def sampleLockUndone : Gobang × MovesGenerator :=
  lockUndo (lockPlay sampleLock ⟨8, 8⟩ Stone.white)

/-! ## The value of the capped game tree and the soundness of the table -/

theorem isLegal_iff (p : QPoint) : isLegal p = true ↔ onBoard p := by
  unfold isLegal onBoard
  simp only [decide_eq_true_eq, ge_iff_le]

theorem mem_allPoints (p : QPoint) : p ∈ allPoints ↔ onBoard p := by
  unfold allPoints onBoard
  simp only [List.mem_flatMap, List.mem_map, List.mem_range]
  constructor
  · rintro ⟨i, hi, j, hj, h⟩
    subst h
    simp only
    omega
  · rintro ⟨h1, h2, h3, h4⟩
    refine ⟨p.x.toNat, by omega, p.y.toNat, by omega, ?_⟩
    cases p with
    | mk x y =>
      simp only [QPoint.mk.injEq] at *
      constructor <;> omega

theorem allPoints_index :
    allPoints.map (fun p => p.x.toNat * 15 + p.y.toNat) = List.range 225 := by
  decide!

theorem allPoints_nodup : allPoints.Nodup :=
  List.Nodup.of_map _ (by rw [allPoints_index]; exact List.nodup_range 225)

theorem checkStone_setCell (s : Gobang) (b : Int → Int → Stone) (p q : QPoint) (v : Stone)
    (hb : s.board = setCell b p v) : s.checkStone q = if q = p then v else b q.x q.y := by
  unfold Gobang.checkStone
  rw [hb]
  unfold setCell
  cases p; cases q
  simp only [QPoint.mk.injEq]

theorem setCell_apply (b : Int → Int → Stone) (p q : QPoint) (v : Stone) :
    setCell b p v q.x q.y = if q = p then v else b q.x q.y := by
  unfold setCell
  cases p; cases q
  simp only [QPoint.mk.injEq]

/-! ## The lines scanned by `updateScore` are the full lines of the grid -/

theorem rowPoints_eq_fin : ∀ j : Fin 15, rowPoints (j.val : Int) = specRow (j.val : Int) := by
  decide!

theorem colPoints_eq_fin : ∀ i : Fin 15, colPoints (i.val : Int) = specCol (i.val : Int) := by
  decide!

theorem specDiag_closed_fin : ∀ c : Fin 29,
    specDiag ((c.val : Int) - 14) = diagClosed ((c.val : Int) - 14) := by
  decide!

theorem specAnti_closed_fin : ∀ c : Fin 29,
    specAnti (c.val : Int) = antiClosed (c.val : Int) := by
  decide!

theorem diagPoints_edge_fin : ∀ c : Fin 29,
    diagPoints (max 0 ((c.val : Int) - 14)) (max 0 (14 - (c.val : Int)))
      = diagClosed ((c.val : Int) - 14) := by
  decide!

theorem antiPoints_edge_fin : ∀ c : Fin 29,
    antiPoints (max 0 ((c.val : Int) - 14)) (min (c.val : Int) 14) = antiClosed (c.val : Int) := by
  decide!

theorem diagPoints_shift (x y : Int) :
    diagPoints x y = diagPoints (x - min x y) (y - min x y) := by
  unfold diagPoints
  have h : min (x - min x y) (y - min x y) = 0 := by
    rcases le_total x y with h | h
    · rw [min_eq_left h, sub_self, min_eq_left (by omega)]
    · rw [min_eq_right h, sub_self, min_eq_right (by omega)]
  simp only [h, sub_zero]

theorem antiPoints_shift (x y : Int) :
    antiPoints x y = antiPoints (x - min x (14 - y)) (y + min x (14 - y)) := by
  unfold antiPoints
  have h : min (x - min x (14 - y)) (14 - (y + min x (14 - y))) = 0 := by
    rcases le_total x (14 - y) with h | h
    · rw [min_eq_left h, sub_self, min_eq_left (by omega)]
    · rw [min_eq_right h, min_eq_right (by omega)]
      omega
  simp only [h, sub_zero, add_zero]

theorem diagPoints_closed (x y : Int) (hx0 : 0 ≤ x) (hx1 : x < 15) (hy0 : 0 ≤ y) (hy1 : y < 15) :
    diagPoints x y = diagClosed (x - y) := by
  have h := diagPoints_edge_fin ⟨(x - y + 14).toNat, by omega⟩
  have e : (((x - y + 14).toNat : Nat) : Int) = x - y + 14 := by omega
  simp only [e] at h
  have e1 : x - y + 14 - 14 = x - y := by ring
  have e2 : 14 - (x - y + 14) = y - x := by ring
  rw [e1, e2] at h
  rw [diagPoints_shift, ← h]
  congr 1
  · rcases le_total x y with h | h
    · rw [min_eq_left h, max_eq_left (by omega)]; omega
    · rw [min_eq_right h, max_eq_right (by omega)]
  · rcases le_total x y with h | h
    · rw [min_eq_left h, max_eq_right (by omega)]
    · rw [min_eq_right h, max_eq_left (by omega)]; omega

theorem antiPoints_closed (x y : Int) (hx0 : 0 ≤ x) (hx1 : x < 15) (hy0 : 0 ≤ y) (hy1 : y < 15) :
    antiPoints x y = antiClosed (x + y) := by
  have h := antiPoints_edge_fin ⟨(x + y).toNat, by omega⟩
  have e : (((x + y).toNat : Nat) : Int) = x + y := by omega
  simp only [e] at h
  rw [antiPoints_shift, ← h]
  congr 1
  · rcases le_total x (14 - y) with h | h
    · rw [min_eq_left h, max_eq_left (by omega)]; omega
    · rw [min_eq_right h, max_eq_right (by omega)]; omega
  · rcases le_total x (14 - y) with h | h
    · rw [min_eq_left h, min_eq_left (by omega)]; omega
    · rw [min_eq_right h, min_eq_right (by omega)]; omega

theorem diagPoints_eq_fin : ∀ i j : Fin 15,
    diagPoints (i.val : Int) (j.val : Int) = specDiag ((i.val : Int) - (j.val : Int)) := by
  intro i j
  have h := specDiag_closed_fin ⟨i.val + 14 - j.val, by omega⟩
  have e : (((i.val + 14 - j.val : Nat) : Int) - 14) = (i.val : Int) - (j.val : Int) := by omega
  simp only [e] at h
  rw [h]
  exact diagPoints_closed _ _ (by omega) (by omega) (by omega) (by omega)

theorem antiPoints_eq_fin : ∀ i j : Fin 15,
    antiPoints (i.val : Int) (j.val : Int) = specAnti ((i.val : Int) + (j.val : Int)) := by
  intro i j
  have h := specAnti_closed_fin ⟨i.val + j.val, by omega⟩
  have e : ((i.val + j.val : Nat) : Int) = (i.val : Int) + (j.val : Int) := by omega
  simp only [e] at h
  rw [h]
  exact antiPoints_closed _ _ (by omega) (by omega) (by omega) (by omega)

theorem rowPoints_eq (y : Int) (h0 : 0 ≤ y) (h1 : y < 15) : rowPoints y = specRow y := by
  have h := rowPoints_eq_fin ⟨y.toNat, by omega⟩
  have e : ((y.toNat : Nat) : Int) = y := by omega
  simpa only [e] using h

theorem colPoints_eq (x : Int) (h0 : 0 ≤ x) (h1 : x < 15) : colPoints x = specCol x := by
  have h := colPoints_eq_fin ⟨x.toNat, by omega⟩
  have e : ((x.toNat : Nat) : Int) = x := by omega
  simpa only [e] using h

theorem diagPoints_eq (p : QPoint) (hp : onBoard p) :
    diagPoints p.x p.y = specDiag (p.x - p.y) := by
  obtain ⟨h1, h2, h3, h4⟩ := hp
  have h := diagPoints_eq_fin ⟨p.x.toNat, by omega⟩ ⟨p.y.toNat, by omega⟩
  have ex : ((p.x.toNat : Nat) : Int) = p.x := by omega
  have ey : ((p.y.toNat : Nat) : Int) = p.y := by omega
  simpa only [ex, ey] using h

theorem antiPoints_eq (p : QPoint) (hp : onBoard p) :
    antiPoints p.x p.y = specAnti (p.x + p.y) := by
  obtain ⟨h1, h2, h3, h4⟩ := hp
  have h := antiPoints_eq_fin ⟨p.x.toNat, by omega⟩ ⟨p.y.toNat, by omega⟩
  have ex : ((p.x.toNat : Nat) : Int) = p.x := by omega
  have ey : ((p.y.toNat : Nat) : Int) = p.y := by omega
  simpa only [ex, ey] using h

theorem specDiag_closed (c : Int) (h0 : -14 ≤ c) (h1 : c ≤ 14) : specDiag c = diagClosed c := by
  have h := specDiag_closed_fin ⟨(c + 14).toNat, by omega⟩
  have e : (((c + 14).toNat : Nat) : Int) - 14 = c := by omega
  simpa only [e] using h

theorem specAnti_closed (c : Int) (h0 : 0 ≤ c) (h1 : c ≤ 28) : specAnti c = antiClosed c := by
  have h := specAnti_closed_fin ⟨c.toNat, by omega⟩
  have e : ((c.toNat : Nat) : Int) = c := by omega
  simpa only [e] using h

theorem slotLine_param (k : Int) (h0 : 0 ≤ k) (h1 : k < 72) : slotLine k = paramLine k := by
  unfold slotLine paramLine
  split_ifs with c1 c2 c3
  · exact (rowPoints_eq k h0 c1).symm
  · exact (colPoints_eq (k - 15) (by omega) (by omega)).symm
  · exact specDiag_closed (k - 40) (by omega) (by omega)
  · exact specAnti_closed (k - 47) (by omega) (by omega)

theorem paramLine_length (k : Int) : (paramLine k).length < 16 := by
  unfold paramLine rowPoints colPoints diagClosed antiClosed
  split_ifs
  · simp
  · simp
  · simp only [List.length_map, List.length_range]
    have := abs_nonneg (k - 40)
    omega
  · simp only [List.length_map, List.length_range]
    have := abs_nonneg (k - 47 - 14)
    omega

theorem mem_slotLine (k : Int) (p : QPoint) :
    p ∈ slotLine k ↔ onBoard p ∧
      (if k < 15 then p.y = k else if k < 30 then p.x = k - 15
        else if k < 51 then p.x - p.y = k - 40 else p.x + p.y = k - 47) := by
  unfold slotLine specRow specCol specDiag specAnti
  split_ifs <;> simp only [List.mem_filter, mem_allPoints, decide_eq_true_eq]

theorem blackLine_eq_render (board : Int → Int → Stone) (pts : List QPoint) :
    blackLine board pts = render Stone.black board pts := by
  unfold blackLine render
  apply List.map_congr_left
  intro p _
  cases board p.x p.y <;> simp [blackSymbol]

theorem whiteLine_eq_render (board : Int → Int → Stone) (pts : List QPoint) :
    whiteLine board pts = render Stone.white board pts := by
  unfold whiteLine render
  apply List.map_congr_left
  intro p _
  cases board p.x p.y <;> simp [whiteSymbol]

theorem render_congr (own : Stone) (b1 b2 : Int → Int → Stone) (pts : List QPoint)
    (h : ∀ q ∈ pts, b1 q.x q.y = b2 q.x q.y) : render own b1 pts = render own b2 pts := by
  unfold render
  apply List.map_congr_left
  intro q hq
  rw [h q hq]

/-! ## Effect of `update` and `updateScore` -/

theorem updateScore_frame (s : Gobang) (p : QPoint) :
    (s.updateScore p).vacancies = s.vacancies ∧ (s.updateScore p).record = s.record ∧
    (s.updateScore p).bestPoint = s.bestPoint ∧ (s.updateScore p).zobrist = s.zobrist ∧
    (s.updateScore p).board = s.board := by
  unfold Gobang.updateScore
  simp only []
  split_ifs <;> exact ⟨rfl, rfl, rfl, rfl, rfl⟩

theorem sum_slot_update (f : Int → Int) (idx v : Int) (h0 : 0 ≤ idx) (h1 : idx < 72) :
    ∑ k ∈ Finset.range 72, (if (k : Int) = idx then v else f (k : Int))
      = (∑ k ∈ Finset.range 72, f (k : Int)) - f idx + v := by
  have hn : idx.toNat ∈ Finset.range 72 := by
    rw [Finset.mem_range]; omega
  have e : ((idx.toNat : Nat) : Int) = idx := by omega
  rw [← Finset.add_sum_erase _ _ hn, ← Finset.add_sum_erase _ (fun k : Nat => f (k : Int)) hn]
  have hrest : ∑ k ∈ (Finset.range 72).erase idx.toNat, (if (k : Int) = idx then v else f (k : Int))
      = ∑ k ∈ (Finset.range 72).erase idx.toNat, f (k : Int) := by
    apply Finset.sum_congr rfl
    intro k hk
    have hne : k ≠ idx.toNat := (Finset.mem_erase.mp hk).1
    have : (k : Int) ≠ idx := by omega
    rw [if_neg this]
  rw [hrest, e, if_pos rfl]
  ring

theorem update_totals (s : Gobang) (idx b w : Int) (h0 : 0 ≤ idx) (h1 : idx < 72)
    (h : TotalsOK s) : TotalsOK (s.update idx b w) := by
  obtain ⟨hb, hw⟩ := h
  unfold TotalsOK Gobang.update
  simp only [if_true]
  rw [sum_slot_update s.blackScores idx b h0 h1, sum_slot_update s.whiteScores idx w h0 h1,
    hb, hw]
  exact ⟨rfl, rfl⟩

theorem updateScore_totals (s : Gobang) (p : QPoint) (hp : onBoard p) (h : TotalsOK s) :
    TotalsOK (s.updateScore p) := by
  obtain ⟨h1, h2, h3, h4⟩ := hp
  have a1 := update_totals s p.y (lineScore (blackLine s.board (rowPoints p.y)))
    (lineScore (whiteLine s.board (rowPoints p.y))) (by omega) (by omega) h
  have a2 := update_totals _ (p.x + 15) (lineScore (blackLine s.board (colPoints p.x)))
    (lineScore (whiteLine s.board (colPoints p.x))) (by omega) (by omega) a1
  unfold Gobang.updateScore
  simp only []
  by_cases g2 : |p.x - p.y| ≤ 10
  · have g2a := abs_le.mp g2
    by_cases g3 : p.x + p.y ≥ 4 ∧ p.x + p.y ≤ 24
    · rw [if_pos g3, if_pos g2]
      exact update_totals _ _ _ _ (by omega) (by omega)
        (update_totals _ _ _ _ (by omega) (by omega) a2)
    · rw [if_neg g3, if_pos g2]
      exact update_totals _ _ _ _ (by omega) (by omega) a2
  · by_cases g3 : p.x + p.y ≥ 4 ∧ p.x + p.y ≤ 24
    · rw [if_pos g3, if_neg g2]
      exact update_totals _ _ _ _ (by omega) (by omega) a2
    · rw [if_neg g3, if_neg g2]
      exact a2

theorem update_blackScores (s : Gobang) (idx b w k : Int) :
    (s.update idx b w).blackScores k = if k = idx then b else s.blackScores k := rfl

theorem update_whiteScores (s : Gobang) (idx b w k : Int) :
    (s.update idx b w).whiteScores k = if k = idx then w else s.whiteScores k := rfl

theorem update_board (s : Gobang) (idx b w : Int) : (s.update idx b w).board = s.board := rfl

/-- The slot arrays after `updateScore(p)`: a slot it writes holds the score of the
line the function scanned, every other slot keeps its value. -/
theorem updateScore_slots (s : Gobang) (p : QPoint) (k : Int) :
    ((s.updateScore p).blackScores k =
      if k = p.x + p.y + 47 ∧ (p.x + p.y ≥ 4 ∧ p.x + p.y ≤ 24) then
        lineScore (blackLine s.board (antiPoints p.x p.y))
      else if k = p.x - p.y + 40 ∧ |p.x - p.y| ≤ 10 then
        lineScore (blackLine s.board (diagPoints p.x p.y))
      else if k = p.x + 15 then lineScore (blackLine s.board (colPoints p.x))
      else if k = p.y then lineScore (blackLine s.board (rowPoints p.y))
      else s.blackScores k) ∧
    ((s.updateScore p).whiteScores k =
      if k = p.x + p.y + 47 ∧ (p.x + p.y ≥ 4 ∧ p.x + p.y ≤ 24) then
        lineScore (whiteLine s.board (antiPoints p.x p.y))
      else if k = p.x - p.y + 40 ∧ |p.x - p.y| ≤ 10 then
        lineScore (whiteLine s.board (diagPoints p.x p.y))
      else if k = p.x + 15 then lineScore (whiteLine s.board (colPoints p.x))
      else if k = p.y then lineScore (whiteLine s.board (rowPoints p.y))
      else s.whiteScores k) := by
  unfold Gobang.updateScore
  simp only []
  by_cases g2 : |p.x - p.y| ≤ 10 <;> by_cases g3 : p.x + p.y ≥ 4 ∧ p.x + p.y ≤ 24 <;>
    simp only [g2, g3, if_true, if_false, and_true, and_false, update_blackScores,
      update_whiteScores, update_board, and_self]

theorem blackLine_congr (b1 b2 : Int → Int → Stone) (pts : List QPoint)
    (h : ∀ q ∈ pts, b1 q.x q.y = b2 q.x q.y) : blackLine b1 pts = blackLine b2 pts := by
  unfold blackLine
  apply List.map_congr_left
  intro q hq
  rw [h q hq]

theorem whiteLine_congr (b1 b2 : Int → Int → Stone) (pts : List QPoint)
    (h : ∀ q ∈ pts, b1 q.x q.y = b2 q.x q.y) : whiteLine b1 pts = whiteLine b2 pts := by
  unfold whiteLine
  apply List.map_congr_left
  intro q hq
  rw [h q hq]

theorem slotLine_row (k : Int) (h : k < 15) : slotLine k = specRow k := by
  unfold slotLine
  rw [if_pos h]

theorem slotLine_col (k : Int) (h0 : 15 ≤ k) (h1 : k < 30) : slotLine k = specCol (k - 15) := by
  unfold slotLine
  rw [if_neg (by omega), if_pos h1]

theorem slotLine_diag (k : Int) (h0 : 30 ≤ k) (h1 : k < 51) :
    slotLine k = specDiag (k - 40) := by
  unfold slotLine
  rw [if_neg (by omega), if_neg (by omega), if_pos h1]

theorem slotLine_anti (k : Int) (h0 : 51 ≤ k) : slotLine k = specAnti (k - 47) := by
  unfold slotLine
  rw [if_neg (by omega), if_neg (by omega), if_neg (by omega)]

/-- After the grid has changed at the single cell `p`, `updateScore(p)` makes every
slot the score of its line on the new grid. -/
theorem updateScore_slotsOK (s : Gobang) (p : QPoint) (hp : onBoard p)
    (b0 : Int → Int → Stone) (hb : ∀ q : QPoint, q ≠ p → s.board q.x q.y = b0 q.x q.y)
    (h0 : SlotsOK b0 s.blackScores s.whiteScores) :
    SlotsOK s.board (s.updateScore p).blackScores (s.updateScore p).whiteScores := by
  intro k hk0 hk1
  obtain ⟨h1, h2, h3, h4⟩ := hp
  obtain ⟨eb, ew⟩ := updateScore_slots s p k
  rw [eb, ew]
  by_cases c3 : k = p.x + p.y + 47 ∧ (p.x + p.y ≥ 4 ∧ p.x + p.y ≤ 24)
  · rw [if_pos c3, if_pos c3, antiPoints_eq p ⟨h1, h2, h3, h4⟩, slotLine_anti k (by omega)]
    have e : k - 47 = p.x + p.y := by omega
    rw [e]
    exact ⟨rfl, rfl⟩
  rw [if_neg c3, if_neg c3]
  by_cases c2 : k = p.x - p.y + 40 ∧ |p.x - p.y| ≤ 10
  · have g := abs_le.mp c2.2
    rw [if_pos c2, if_pos c2, diagPoints_eq p ⟨h1, h2, h3, h4⟩,
      slotLine_diag k (by omega) (by omega)]
    have e : k - 40 = p.x - p.y := by omega
    rw [e]
    exact ⟨rfl, rfl⟩
  rw [if_neg c2, if_neg c2]
  by_cases c1 : k = p.x + 15
  · rw [if_pos c1, if_pos c1, colPoints_eq p.x h1 h2, slotLine_col k (by omega) (by omega)]
    have e : k - 15 = p.x := by omega
    rw [e]
    exact ⟨rfl, rfl⟩
  rw [if_neg c1, if_neg c1]
  by_cases c0 : k = p.y
  · rw [if_pos c0, if_pos c0, rowPoints_eq p.y h3 h4, slotLine_row k (by omega), c0]
    exact ⟨rfl, rfl⟩
  rw [if_neg c0, if_neg c0]
  have hnot : p ∉ slotLine k := by
    rw [mem_slotLine]
    rintro ⟨_, hc⟩
    have c2a : ¬ (k = p.x - p.y + 40 ∧ (-10 ≤ p.x - p.y ∧ p.x - p.y ≤ 10)) := by
      rw [← abs_le]; exact c2
    split_ifs at hc <;> omega
  have hagree : ∀ q ∈ slotLine k, s.board q.x q.y = b0 q.x q.y := by
    intro q hq
    apply hb
    rintro rfl
    exact hnot hq
  rw [blackLine_congr _ _ _ hagree, whiteLine_congr _ _ _ hagree]
  exact h0 k hk0 hk1

/-! ## The invariant of reachable states -/

theorem foldr_xor_change (f g : QPoint → Nat) (p : QPoint) :
    ∀ l : List QPoint, l.Nodup → p ∈ l → (∀ q, q ≠ p → g q = f q) →
      (l.map g).foldr (· ^^^ ·) 0 = ((l.map f).foldr (· ^^^ ·) 0 ^^^ f p) ^^^ g p := by
  intro l
  induction l with
  | nil => intro _ h; cases h
  | cons a t ih =>
    intro hnd hmem hfg
    rw [List.nodup_cons] at hnd
    simp only [List.map_cons, List.foldr_cons]
    by_cases hap : a = p
    · subst hap
      have hsame : t.map g = t.map f := by
        apply List.map_congr_left
        intro q hq
        apply hfg
        rintro rfl
        exact hnd.1 hq
      rw [hsame]
      generalize (List.map f t).foldr (· ^^^ ·) 0 = r
      rw [Nat.xor_comm (f a) r, Nat.xor_assoc r (f a) (f a), Nat.xor_self, Nat.xor_zero,
        Nat.xor_comm]
    · have hp : p ∈ t := by
        rcases List.mem_cons.mp hmem with h | h
        · exact absurd h.symm hap
        · exact h
      rw [ih hnd.2 hp hfg, hfg a hap]
      generalize (List.map f t).foldr (· ^^^ ·) 0 = r
      rw [Nat.xor_assoc, Nat.xor_assoc, Nat.xor_assoc]

theorem boardHash_setCell (key : QPoint → Stone → Nat) (b : Int → Int → Stone) (p : QPoint)
    (v : Stone) (hp : onBoard p) :
    boardHash key (setCell b p v)
      = (boardHash key b ^^^ cellKey key b p) ^^^ (if v = Stone.empty then 0 else key p v) := by
  have h := foldr_xor_change (cellKey key b) (cellKey key (setCell b p v)) p allPoints
    allPoints_nodup ((mem_allPoints p).mpr hp)
    (by
      intro q hq
      unfold cellKey
      rw [setCell_apply, if_neg hq])
  have hv : cellKey key (setCell b p v) p = if v = Stone.empty then 0 else key p v := by
    unfold cellKey
    rw [setCell_apply, if_pos rfl]
  rw [hv] at h
  exact h

theorem play_frame (s : Gobang) (p : QPoint) (st : Stone) :
    (s.play p st).vacancies = s.vacancies.erase p ∧ (s.play p st).record = p :: s.record ∧
    (s.play p st).bestPoint = s.bestPoint ∧
    (s.play p st).zobrist = s.zobrist.translate p st ∧
    (s.play p st).board = setCell s.board p st := by
  unfold Gobang.play
  exact updateScore_frame _ p

theorem back1_frame (s : Gobang) (p : QPoint) (rest : List QPoint) (h : s.record = p :: rest) :
    s.back1.vacancies = insert p s.vacancies ∧ s.back1.record = rest ∧
    s.back1.bestPoint = s.bestPoint ∧
    s.back1.zobrist = s.zobrist.translate p (s.checkStone p) ∧
    s.back1.board = setCell s.board p Stone.empty := by
  unfold Gobang.back1
  rw [h]
  exact updateScore_frame _ p

theorem back1_nil (s : Gobang) (h : s.record = []) : s.back1 = s := by
  unfold Gobang.back1
  rw [h]

theorem mem_foldl_insert (p : QPoint) (l : List QPoint) :
    ∀ acc : Finset QPoint, p ∈ l.foldl (fun v q => insert q v) acc ↔ p ∈ l ∨ p ∈ acc := by
  induction l with
  | nil => intro acc; simp
  | cons a t ih =>
    intro acc
    rw [List.foldl_cons, ih, Finset.mem_insert, List.mem_cons]
    tauto

theorem foldr_xor_zero (l : List QPoint) :
    (l.map fun _ => (0 : Nat)).foldr (· ^^^ ·) 0 = 0 := by
  induction l with
  | nil => rfl
  | cons a t ih =>
    rw [List.map_cons, List.foldr_cons, ih]
    rfl

theorem zeros_score_fin : ∀ n : Fin 16, lineScore (List.replicate n.val '0') = 0 := by
  decide!

theorem slotLine_length_fin : ∀ k : Fin 72, (slotLine (k.val : Int)).length < 16 := by
  intro k
  rw [slotLine_param (k.val : Int) (by omega) (by omega)]
  exact paramLine_length _

theorem emptyLine_score (k : Int) (hk0 : 0 ≤ k) (hk1 : k < 72) :
    lineScore (blackLine (fun _ _ => Stone.empty) (slotLine k)) = 0 ∧
    lineScore (whiteLine (fun _ _ => Stone.empty) (slotLine k)) = 0 := by
  have hlen := slotLine_length_fin ⟨k.toNat, by omega⟩
  have e : ((k.toNat : Nat) : Int) = k := by omega
  simp only [e] at hlen
  have hz := zeros_score_fin ⟨(slotLine k).length, hlen⟩
  have hb : blackLine (fun _ _ => Stone.empty) (slotLine k)
      = List.replicate (slotLine k).length '0' := by
    unfold blackLine
    simp only [blackSymbol]
    exact List.map_const' _ _
  have hw : whiteLine (fun _ _ => Stone.empty) (slotLine k)
      = List.replicate (slotLine k).length '0' := by
    unfold whiteLine
    simp only [whiteSymbol]
    exact List.map_const' _ _
  rw [hb, hw]
  exact ⟨hz, hz⟩

theorem Inv.init (z : Zobrist) : Inv z (Gobang.init z) where
  vac := by
    intro p
    unfold Gobang.checkStone Gobang.init initialVacancies
    simp only []
    rw [mem_foldl_insert, mem_allPoints]
    simp
  occ := by
    intro p
    simp [Gobang.checkStone, Gobang.init]
  nodup := List.nodup_nil
  slots := by
    intro k hk0 hk1
    have h := emptyLine_score k hk0 hk1
    exact ⟨h.1.symm, h.2.symm⟩
  totals := by
    unfold TotalsOK Gobang.init
    simp
  key := rfl
  hash := by
    show z.hashValue = z.hashValue ^^^ boardHash z.key (fun _ _ => Stone.empty)
    unfold boardHash
    simp only [if_true]
    rw [foldr_xor_zero, Nat.xor_zero]

theorem Inv.play {z : Zobrist} {s : Gobang} (h : Inv z s) (p : QPoint) (st : Stone)
    (hp : p ∈ s.vacancies) (hst : st ≠ Stone.empty) : Inv z (s.play p st) := by
  obtain ⟨fv, fr, _, fz, fb⟩ := play_frame s p st
  obtain ⟨hpb, hpe⟩ := (h.vac p).mp hp
  have hcs : ∀ q, (s.play p st).checkStone q = if q = p then st else s.checkStone q :=
    fun q => checkStone_setCell _ _ _ _ _ fb
  constructor
  · intro q
    rw [fv, Finset.mem_erase, h.vac q, hcs q]
    by_cases hq : q = p
    · subst hq; simp [hst]
    · simp [hq]
  · intro q
    rw [fr, List.mem_cons, h.occ q, hcs q]
    by_cases hq : q = p
    · subst hq; simp [hst, hpb]
    · simp [hq]
  · rw [fr, List.nodup_cons]
    refine ⟨?_, h.nodup⟩
    intro hmem
    exact ((h.occ p).mp hmem).2 hpe
  · unfold Gobang.play
    have := updateScore_slotsOK
      { s with vacancies := s.vacancies.erase p, record := p :: s.record,
               zobrist := s.zobrist.translate p st, board := setCell s.board p st }
      p hpb s.board (by intro q hq; show setCell s.board p st q.x q.y = _
                        rw [setCell_apply, if_neg hq]) h.slots
    rw [(updateScore_frame _ p).2.2.2.2]
    exact this
  · unfold Gobang.play
    exact updateScore_totals _ p hpb h.totals
  · rw [fz]
    exact h.key
  · rw [fz, fb]
    show s.zobrist.hashValue ^^^ s.zobrist.key p st = _
    have hh : s.zobrist.hashValue = z.hash ^^^ boardHash z.key s.board := h.hash
    have hc : cellKey z.key s.board p = 0 := if_pos hpe
    rw [boardHash_setCell z.key s.board p st hpb, hc, if_neg hst, Nat.xor_zero, hh, h.key,
      Nat.xor_assoc]

theorem Inv.back1 {z : Zobrist} {s : Gobang} (h : Inv z s) : Inv z s.back1 := by
  cases hrec : s.record with
  | nil => rw [back1_nil s hrec]; exact h
  | cons p rest =>
    obtain ⟨fv, fr, _, fz, fb⟩ := back1_frame s p rest hrec
    have hmem : p ∈ s.record := by rw [hrec]; exact List.mem_cons_self _ _
    obtain ⟨hpb, hpo⟩ := (h.occ p).mp hmem
    have hnd : p ∉ rest ∧ rest.Nodup := by
      have := h.nodup
      rw [hrec, List.nodup_cons] at this
      exact this
    have hcs : ∀ q, s.back1.checkStone q = if q = p then Stone.empty else s.checkStone q :=
      fun q => checkStone_setCell _ _ _ _ _ fb
    constructor
    · intro q
      rw [fv, Finset.mem_insert, h.vac q, hcs q]
      by_cases hq : q = p
      · subst hq; simp [hpb]
      · simp [hq]
    · intro q
      rw [fr, hcs q]
      have hq := h.occ q
      rw [hrec, List.mem_cons] at hq
      by_cases hqp : q = p
      · subst hqp; simp [hnd.1]
      · simp only [hqp, false_or, if_false] at hq ⊢
        exact hq
    · rw [fr]; exact hnd.2
    · unfold Gobang.back1
      rw [hrec]
      simp only []
      have := updateScore_slotsOK
        { s with record := rest, vacancies := insert p s.vacancies,
                 zobrist := s.zobrist.translate p (s.checkStone p),
                 board := setCell s.board p Stone.empty }
        p hpb s.board (by intro q hq; show setCell s.board p Stone.empty q.x q.y = _
                          rw [setCell_apply, if_neg hq]) h.slots
      rw [(updateScore_frame _ p).2.2.2.2]
      exact this
    · unfold Gobang.back1
      rw [hrec]
      exact updateScore_totals _ p hpb h.totals
    · rw [fz]
      exact h.key
    · rw [fz, fb]
      show s.zobrist.hashValue ^^^ s.zobrist.key p (s.checkStone p) = _
      have hh : s.zobrist.hashValue = z.hash ^^^ boardHash z.key s.board := h.hash
      have hc : cellKey z.key s.board p = z.key p (s.checkStone p) := if_neg hpo
      rw [boardHash_setCell z.key s.board p Stone.empty hpb, hc, if_pos rfl, Nat.xor_zero, hh,
        h.key, Nat.xor_assoc]

theorem Inv.backLoop {z : Zobrist} (n : Nat) : ∀ {s : Gobang}, Inv z s → Inv z (s.backLoop n) := by
  induction n with
  | zero => intro s h; exact h
  | succ n ih => intro s h; exact ih h.back1

theorem Reachable.inv {z : Zobrist} {s : Gobang} (h : Reachable z s) : Inv z s := by
  induction h with
  | init => exact Inv.init z
  | play s p st _ hp hst ih =>
    apply ih.play p st hp
    rcases hst with h | h <;> rw [h] <;> decide
  | back s n _ _ ih => exact ih.backLoop _

/-! ## Example states -/

theorem init_checkStone (z : Zobrist) (p : QPoint) :
    (Gobang.init z).checkStone p = Stone.empty := by
  unfold Gobang.checkStone Gobang.init
  simp only []

theorem mem_init_vacancies (z : Zobrist) (p : QPoint) (hp : onBoard p) :
    p ∈ (Gobang.init z).vacancies := by
  rw [(Inv.init z).vac p]
  exact ⟨hp, init_checkStone z p⟩

set_option maxRecDepth 8192 in
theorem sampleState_reachable : Reachable sampleZobrist sampleState := by
  unfold sampleState
  apply Reachable.play
  · exact Reachable.init
  · exact mem_init_vacancies sampleZobrist ⟨7, 7⟩ (by unfold onBoard; decide)
  · exact Or.inl rfl

/-! ## Shape scoring examples -/

/-- C9 (as stated, refuted): the line-scoring function does not give "011110" the
score 4320. -/
theorem openFour_score_ne : lineScore "011110".toList ≠ 4320 := by
  decide

/-- C9 (amended): the line "011110" scores 5760, the open four (4320) plus the two
fours "01111" and "11110" that occur inside it (720 each). -/
theorem openFour_score :
    lineScore "011110".toList = 5760 ∧ (5760 : Int) = livingFour + four + four ∧
    parse_text "011110".toList = ["01111".toList, "011110".toList, "11110".toList] := by
  decide

/-- C10: the line-scoring function gives "11111" the score 50000, each of "001000"
and "000100" the score 20, and "011100" the score 720. -/
theorem shape_examples :
    lineScore "11111".toList = 50000 ∧ lineScore "001000".toList = 20 ∧
    lineScore "000100".toList = 20 ∧ lineScore "011100".toList = 720 := by
  decide

/-! ## Board invariant -/

/-- C6: in every state reached from the constructed engine by `play` (on a vacant
cell, with a Black or White stone) and `back(n)` (with `n` at most the history
length), every coordinate of the vacancy set and of the history is on the board,
an on-board coordinate is vacant iff its cell is Empty iff it does not occur in the
history, and no coordinate occurs in the history twice. -/
theorem board_invariant (z : Zobrist) (s : Gobang) (h : Reachable z s) :
    (∀ p, p ∈ s.vacancies → onBoard p) ∧ (∀ p, p ∈ s.record → onBoard p) ∧
    (∀ p, onBoard p →
      (p ∈ s.vacancies ↔ s.checkStone p = Stone.empty) ∧
      (s.checkStone p = Stone.empty ↔ p ∉ s.record)) ∧
    s.record.Nodup := by
  have hi := h.inv
  refine ⟨fun p hp => ((hi.vac p).mp hp).1, fun p hp => ((hi.occ p).mp hp).1, ?_, hi.nodup⟩
  intro p hp
  constructor
  · rw [hi.vac p]
    exact ⟨fun h => h.2, fun h => ⟨hp, h⟩⟩
  · rw [hi.occ p]
    constructor
    · intro he hn
      exact hn.2 he
    · intro hn
      by_contra he
      exact hn ⟨hp, he⟩

/-- Witness of C6 on the state with one stone on the centre. -/
theorem board_invariant_witness :
    Reachable sampleZobrist sampleState ∧
    ((∀ p, p ∈ sampleState.vacancies → onBoard p) ∧ (∀ p, p ∈ sampleState.record → onBoard p) ∧
    (∀ p, onBoard p →
      (p ∈ sampleState.vacancies ↔ sampleState.checkStone p = Stone.empty) ∧
      (sampleState.checkStone p = Stone.empty ↔ p ∉ sampleState.record)) ∧
    sampleState.record.Nodup) :=
  ⟨sampleState_reachable, board_invariant sampleZobrist sampleState sampleState_reachable⟩

/-! ## Hash consistency -/

theorem boardHash_congr (key : QPoint → Stone → Nat) (b1 b2 : Int → Int → Stone)
    (h : ∀ p, onBoard p → b1 p.x p.y = b2 p.x p.y) : boardHash key b1 = boardHash key b2 := by
  unfold boardHash
  congr 1
  apply List.map_congr_left
  intro p hp
  rw [h p ((mem_allPoints p).mp hp)]

/-- C3: in every state reached by `play` and `back`, the fingerprint is the initial
fingerprint XOR-ed with the keys of (cell, colour on it) over all occupied cells;
hence two reachable states with the same grid have the same fingerprint, whatever
the order of the moves that produced them. -/
theorem hash_consistency (z : Zobrist) (s1 s2 : Gobang) (h1 : Reachable z s1)
    (h2 : Reachable z s2) :
    s1.zobrist.hash = z.hash ^^^ boardHash z.key s1.board ∧
    ((∀ p, onBoard p → s1.checkStone p = s2.checkStone p) →
      s1.zobrist.hash = s2.zobrist.hash) := by
  refine ⟨h1.inv.hash, fun hsame => ?_⟩
  rw [h1.inv.hash, h2.inv.hash, boardHash_congr z.key s1.board s2.board hsame]

theorem mem_play_vacancies (s : Gobang) (p q : QPoint) (st : Stone) (hq : q ∈ s.vacancies)
    (hne : q ≠ p) : q ∈ (s.play p st).vacancies := by
  rw [(play_frame s p st).1]
  exact Finset.mem_erase.mpr ⟨hne, hq⟩

set_option maxRecDepth 8192 in
theorem sampleStateAB_reachable : Reachable sampleZobrist sampleStateAB := by
  unfold sampleStateAB
  apply Reachable.play
  · exact sampleState_reachable
  · exact mem_play_vacancies (Gobang.init sampleZobrist) ⟨7, 7⟩ ⟨8, 8⟩ Stone.black
      (mem_init_vacancies sampleZobrist ⟨8, 8⟩ (by unfold onBoard; decide)) (by decide)
  · exact Or.inr rfl

set_option maxRecDepth 8192 in
theorem sampleStateBA_reachable : Reachable sampleZobrist sampleStateBA := by
  unfold sampleStateBA
  apply Reachable.play
  · apply Reachable.play
    · exact Reachable.init
    · exact mem_init_vacancies sampleZobrist ⟨8, 8⟩ (by unfold onBoard; decide)
    · exact Or.inr rfl
  · exact mem_play_vacancies (Gobang.init sampleZobrist) ⟨8, 8⟩ ⟨7, 7⟩ Stone.white
      (mem_init_vacancies sampleZobrist ⟨7, 7⟩ (by unfold onBoard; decide)) (by decide)
  · exact Or.inl rfl

/-- Witness of C3 on two orders of the same two plays. -/
theorem hash_consistency_witness :
    Reachable sampleZobrist sampleStateAB ∧ Reachable sampleZobrist sampleStateBA ∧
    (sampleStateAB.zobrist.hash
        = sampleZobrist.hash ^^^ boardHash sampleZobrist.key sampleStateAB.board ∧
      ((∀ p, onBoard p → sampleStateAB.checkStone p = sampleStateBA.checkStone p) →
        sampleStateAB.zobrist.hash = sampleStateBA.zobrist.hash)) :=
  ⟨sampleStateAB_reachable, sampleStateBA_reachable,
    hash_consistency sampleZobrist sampleStateAB sampleStateBA sampleStateAB_reachable
      sampleStateBA_reachable⟩

/-! ## The scored diagonals are those of length at least 5 -/

theorem specDiag_length_fin : ∀ c : Fin 29,
    (5 ≤ (specDiag ((c.val : Int) - 14)).length ↔ 4 ≤ c.val ∧ c.val ≤ 24) := by
  decide!

theorem specAnti_length_fin : ∀ c : Fin 29,
    (5 ≤ (specAnti (c.val : Int)).length ↔ 4 ≤ c.val ∧ c.val ≤ 24) := by
  decide!

/-- The diagonal `x - y = c` has at least five cells exactly when `|c| ≤ 10`. -/
theorem specDiag_five (c : Int) : 5 ≤ (specDiag c).length ↔ (-10 ≤ c ∧ c ≤ 10) := by
  by_cases hc : -14 ≤ c ∧ c ≤ 14
  · have h := specDiag_length_fin ⟨(c + 14).toNat, by omega⟩
    have e : (((c + 14).toNat : Nat) : Int) - 14 = c := by omega
    simp only [e] at h
    rw [h]
    omega
  · have hnil : specDiag c = [] := by
      unfold specDiag
      rw [List.filter_eq_nil_iff]
      intro p hp
      obtain ⟨h1, h2, h3, h4⟩ := (mem_allPoints p).mp hp
      simp only [decide_eq_true_eq]
      omega
    rw [hnil]
    simp only [List.length_nil]
    omega

/-- The anti-diagonal `x + y = c` has at least five cells exactly when
`4 ≤ c ≤ 24`. -/
theorem specAnti_five (c : Int) : 5 ≤ (specAnti c).length ↔ (4 ≤ c ∧ c ≤ 24) := by
  by_cases hc : 0 ≤ c ∧ c ≤ 28
  · have h := specAnti_length_fin ⟨c.toNat, by omega⟩
    have e : ((c.toNat : Nat) : Int) = c := by omega
    simp only [e] at h
    rw [h]
    omega
  · have hnil : specAnti c = [] := by
      unfold specAnti
      rw [List.filter_eq_nil_iff]
      intro p hp
      obtain ⟨h1, h2, h3, h4⟩ := (mem_allPoints p).mp hp
      simp only [decide_eq_true_eq]
      omega
    rw [hnil]
    simp only [List.length_nil]
    omega

/-! ## Incremental evaluation equals from-scratch evaluation -/

theorem sum72_split (f : Nat → Int) :
    ∑ k ∈ Finset.range 72, f k
      = ((∑ k ∈ Finset.range 15, f k) + (∑ k ∈ Finset.range 15, f (15 + k)))
        + ((∑ k ∈ Finset.range 21, f (30 + k)) + (∑ k ∈ Finset.range 21, f (51 + k))) := by
  have e : 72 = 15 + 15 + 21 + 21 := rfl
  rw [e, Finset.sum_range_add, Finset.sum_range_add, Finset.sum_range_add]
  ring

theorem total_eq_specEvaluate (own : Stone) (board : Int → Int → Stone) (g : Int → Int)
    (hg : ∀ k : Int, 0 ≤ k → k < 72 → g k = specLineScore own board (slotLine k)) :
    ∑ k ∈ Finset.range 72, g (k : Int) = specEvaluate own board := by
  rw [sum72_split (fun k => g (k : Int))]
  unfold specEvaluate
  congr 2
  · apply Finset.sum_congr rfl
    intro k hk
    have hk1 := Finset.mem_range.mp hk
    rw [hg k (by omega) (by omega), slotLine_row k (by omega)]
  · apply Finset.sum_congr rfl
    intro k hk
    have hk1 := Finset.mem_range.mp hk
    rw [hg _ (by omega) (by omega), slotLine_col _ (by omega) (by omega)]
    congr 2
    omega
  · apply Finset.sum_congr rfl
    intro k hk
    have hk1 := Finset.mem_range.mp hk
    rw [hg _ (by omega) (by omega), slotLine_diag _ (by omega) (by omega)]
    congr 2
    omega
  · apply Finset.sum_congr rfl
    intro k hk
    have hk1 := Finset.mem_range.mp hk
    rw [hg _ (by omega) (by omega), slotLine_anti _ (by omega)]
    congr 2
    omega

theorem Inv.blackSlot {z : Zobrist} {s : Gobang} (h : Inv z s) (k : Int) (h0 : 0 ≤ k)
    (h1 : k < 72) : s.blackScores k = specLineScore Stone.black s.board (slotLine k) := by
  rw [(h.slots k h0 h1).1, blackLine_eq_render]
  rfl

theorem Inv.whiteSlot {z : Zobrist} {s : Gobang} (h : Inv z s) (k : Int) (h0 : 0 ≤ k)
    (h1 : k < 72) : s.whiteScores k = specLineScore Stone.white s.board (slotLine k) := by
  rw [(h.slots k h0 h1).2, whiteLine_eq_render]
  rfl

/-- C7: in every state reached by `play` and `back`, for each colour the score slot
of every row, column, diagonal (`|x - y| ≤ 10`) and anti-diagonal (`4 ≤ x + y ≤ 24`)
equals the from-scratch score of that full line of the current grid, and
`evaluate(colour)` equals the sum of these line scores over the 15 rows, 15 columns,
21 diagonals and 21 anti-diagonals; these diagonals and anti-diagonals are exactly
the ones of length at least 5. -/
theorem incremental_eq_scratch (z : Zobrist) (s : Gobang) (h : Reachable z s) :
    (∀ y : Int, 0 ≤ y → y < 15 →
      s.blackScores y = specLineScore Stone.black s.board (specRow y) ∧
      s.whiteScores y = specLineScore Stone.white s.board (specRow y)) ∧
    (∀ x : Int, 0 ≤ x → x < 15 →
      s.blackScores (x + 15) = specLineScore Stone.black s.board (specCol x) ∧
      s.whiteScores (x + 15) = specLineScore Stone.white s.board (specCol x)) ∧
    (∀ c : Int, -10 ≤ c → c ≤ 10 →
      s.blackScores (c + 40) = specLineScore Stone.black s.board (specDiag c) ∧
      s.whiteScores (c + 40) = specLineScore Stone.white s.board (specDiag c)) ∧
    (∀ c : Int, 4 ≤ c → c ≤ 24 →
      s.blackScores (c + 47) = specLineScore Stone.black s.board (specAnti c) ∧
      s.whiteScores (c + 47) = specLineScore Stone.white s.board (specAnti c)) ∧
    s.evaluate Stone.black = specEvaluate Stone.black s.board ∧
    s.evaluate Stone.white = specEvaluate Stone.white s.board ∧
    (∀ c : Int, 5 ≤ (specDiag c).length ↔ (-10 ≤ c ∧ c ≤ 10)) ∧
    (∀ c : Int, 5 ≤ (specAnti c).length ↔ (4 ≤ c ∧ c ≤ 24)) := by
  have hi := h.inv
  refine ⟨?_, ?_, ?_, ?_, ?_, ?_, specDiag_five, specAnti_five⟩
  · intro y h0 h1
    rw [hi.blackSlot y (by omega) (by omega), hi.whiteSlot y (by omega) (by omega),
      slotLine_row y h1]
    exact ⟨rfl, rfl⟩
  · intro x h0 h1
    rw [hi.blackSlot _ (by omega) (by omega), hi.whiteSlot _ (by omega) (by omega),
      slotLine_col _ (by omega) (by omega)]
    have e : x + 15 - 15 = x := by omega
    rw [e]
    exact ⟨rfl, rfl⟩
  · intro c h0 h1
    rw [hi.blackSlot _ (by omega) (by omega), hi.whiteSlot _ (by omega) (by omega),
      slotLine_diag _ (by omega) (by omega)]
    have e : c + 40 - 40 = c := by omega
    rw [e]
    exact ⟨rfl, rfl⟩
  · intro c h0 h1
    rw [hi.blackSlot _ (by omega) (by omega), hi.whiteSlot _ (by omega) (by omega),
      slotLine_anti _ (by omega)]
    have e : c + 47 - 47 = c := by omega
    rw [e]
    exact ⟨rfl, rfl⟩
  · have ht : s.evaluate Stone.black = ∑ k ∈ Finset.range 72, s.blackScores (k : Int) :=
      hi.totals.1
    rw [ht]
    exact total_eq_specEvaluate Stone.black s.board s.blackScores hi.blackSlot
  · have ht : s.evaluate Stone.white = ∑ k ∈ Finset.range 72, s.whiteScores (k : Int) :=
      hi.totals.2
    rw [ht]
    exact total_eq_specEvaluate Stone.white s.board s.whiteScores hi.whiteSlot

/-- Witness of C7 on the state with one stone on the centre. -/
theorem incremental_eq_scratch_witness :
    Reachable sampleZobrist sampleState ∧
    sampleState.evaluate Stone.black = specEvaluate Stone.black sampleState.board ∧
    sampleState.evaluate Stone.white = specEvaluate Stone.white sampleState.board :=
  ⟨sampleState_reachable,
    (incremental_eq_scratch sampleZobrist sampleState sampleState_reachable).2.2.2.2.1,
    (incremental_eq_scratch sampleZobrist sampleState sampleState_reachable).2.2.2.2.2.1⟩

/-! ## Round trip of `play` and `back` -/

theorem Gobang.eq_of_fields (a b : Gobang) (h1 : a.vacancies = b.vacancies)
    (h2 : a.record = b.record) (h3 : a.bestPoint = b.bestPoint) (h4 : a.zobrist = b.zobrist)
    (h5 : a.board = b.board) (h6 : a.blackScores = b.blackScores)
    (h7 : a.whiteScores = b.whiteScores) (h8 : a.blackTotalScore = b.blackTotalScore)
    (h9 : a.whiteTotalScore = b.whiteTotalScore) : a = b := by
  cases a
  cases b
  simp only [Gobang.mk.injEq]
  exact ⟨h1, h2, h3, h4, h5, h6, h7, h8, h9⟩

theorem translate_translate (zb : Zobrist) (p : QPoint) (st : Stone) :
    (zb.translate p st).translate p st = zb := by
  cases zb with
  | mk key hashValue table =>
    unfold Zobrist.translate
    simp only [Zobrist.mk.injEq, and_true, true_and]
    rw [Nat.xor_assoc, Nat.xor_self, Nat.xor_zero]

theorem updateScore_untouched (s : Gobang) (p : QPoint) (hp : onBoard p) (k : Int)
    (hk : k < 0 ∨ 72 ≤ k) :
    (s.updateScore p).blackScores k = s.blackScores k ∧
    (s.updateScore p).whiteScores k = s.whiteScores k := by
  obtain ⟨h1, h2, h3, h4⟩ := hp
  obtain ⟨eb, ew⟩ := updateScore_slots s p k
  have c3 : ¬ (k = p.x + p.y + 47 ∧ (p.x + p.y ≥ 4 ∧ p.x + p.y ≤ 24)) := by omega
  have c2 : ¬ (k = p.x - p.y + 40 ∧ |p.x - p.y| ≤ 10) := by
    rw [abs_le]; omega
  have c1 : ¬ (k = p.x + 15) := by omega
  have c0 : ¬ (k = p.y) := by omega
  rw [eb, ew, if_neg c3, if_neg c2, if_neg c1, if_neg c0, if_neg c3, if_neg c2, if_neg c1,
    if_neg c0]
  exact ⟨rfl, rfl⟩

/-- One play on a vacant cell followed by one step of `back` restores the whole
state. -/
theorem play_back1 {z : Zobrist} {s : Gobang} (h : Inv z s) (p : QPoint) (st : Stone)
    (hp : p ∈ s.vacancies) (hst : st ≠ Stone.empty) : (s.play p st).back1 = s := by
  obtain ⟨fv, fr, fbp, fz, fb⟩ := play_frame s p st
  obtain ⟨gv, gr, gbp, gz, gb⟩ := back1_frame (s.play p st) p s.record fr
  obtain ⟨hpb, hpe⟩ := (h.vac p).mp hp
  have h1 : Inv z (s.play p st) := h.play p st hp hst
  have h2 : Inv z (s.play p st).back1 := h1.back1
  have hboard : (s.play p st).back1.board = s.board := by
    rw [gb, fb]
    funext i j
    unfold setCell
    by_cases hc : i = p.x ∧ j = p.y
    · rw [if_pos hc, hc.1, hc.2]
      exact hpe.symm
    · rw [if_neg hc, if_neg hc]
  have hslot : ∀ k : Int,
      (s.play p st).back1.blackScores k = s.blackScores k ∧
      (s.play p st).back1.whiteScores k = s.whiteScores k := by
    intro k
    by_cases hk : 0 ≤ k ∧ k < 72
    · have a := h2.slots k hk.1 hk.2
      have b := h.slots k hk.1 hk.2
      rw [hboard] at a
      exact ⟨a.1.trans b.1.symm, a.2.trans b.2.symm⟩
    · have hk2 : k < 0 ∨ 72 ≤ k := by omega
      have u1 : (s.play p st).blackScores k = s.blackScores k ∧
          (s.play p st).whiteScores k = s.whiteScores k := by
        unfold Gobang.play
        exact updateScore_untouched _ p hpb k hk2
      have u2 : (s.play p st).back1.blackScores k = (s.play p st).blackScores k ∧
          (s.play p st).back1.whiteScores k = (s.play p st).whiteScores k := by
        unfold Gobang.back1
        rw [fr]
        exact updateScore_untouched _ p hpb k hk2
      exact ⟨u2.1.trans u1.1, u2.2.trans u1.2⟩
  have hbs : (s.play p st).back1.blackScores = s.blackScores := funext fun k => (hslot k).1
  have hws : (s.play p st).back1.whiteScores = s.whiteScores := funext fun k => (hslot k).2
  apply Gobang.eq_of_fields
  · rw [gv, fv]
    exact Finset.insert_erase hp
  · exact gr
  · rw [gbp, fbp]
  · rw [gz, fz]
    have hc : (s.play p st).checkStone p = st := by
      rw [checkStone_setCell _ _ _ _ _ fb, if_pos rfl]
    rw [hc]
    exact translate_translate s.zobrist p st
  · exact hboard
  · exact hbs
  · exact hws
  · rw [h2.totals.1, h.totals.1, hbs]
  · rw [h2.totals.2, h.totals.2, hws]

theorem backLoop_succ (n : Nat) : ∀ s : Gobang, s.backLoop (n + 1) = (s.backLoop n).back1 := by
  induction n with
  | zero => intro s; rfl
  | succ n ih =>
    intro s
    show (s.back1).backLoop (n + 1) = _
    rw [ih s.back1]
    rfl

theorem Inv.playAll {z : Zobrist} (ms : List (QPoint × Stone)) :
    ∀ {s : Gobang}, Inv z s → Playable s ms → Inv z (playAll s ms) := by
  induction ms with
  | nil => intro s h _; exact h
  | cons m ms ih =>
    intro s h hp
    obtain ⟨hv, hc, hrest⟩ := hp
    have hne : m.2 ≠ Stone.empty := by
      rcases hc with e | e <;> rw [e] <;> decide
    exact ih (h.play m.1 m.2 hv hne) hrest

theorem playAll_backLoop {z : Zobrist} (ms : List (QPoint × Stone)) :
    ∀ {s : Gobang}, Inv z s → Playable s ms → (playAll s ms).backLoop ms.length = s := by
  induction ms with
  | nil => intro s _ _; rfl
  | cons m ms ih =>
    intro s h hp
    obtain ⟨hv, hc, hrest⟩ := hp
    have hne : m.2 ≠ Stone.empty := by
      rcases hc with e | e <;> rw [e] <;> decide
    show (playAll (s.play m.1 m.2) ms).backLoop (ms.length + 1) = s
    rw [backLoop_succ, ih (h.play m.1 m.2 hv hne) hrest]
    exact play_back1 h m.1 m.2 hv hne

/-- C1: from every state reached by `play` and `back`, any sequence of `n` plays,
each placing a Black or White stone on a cell vacant at that moment, followed by
`back(n)`, restores the grid, the vacancy set, the history stack, the fingerprint,
both colours' score arrays and both score totals. -/
theorem play_back_round_trip (z : Zobrist) (s : Gobang) (h : Reachable z s)
    (ms : List (QPoint × Stone)) (hp : Playable s ms) :
    ((playAll s ms).back ms.length).board = s.board ∧
    ((playAll s ms).back ms.length).vacancies = s.vacancies ∧
    ((playAll s ms).back ms.length).record = s.record ∧
    ((playAll s ms).back ms.length).zobrist.hash = s.zobrist.hash ∧
    ((playAll s ms).back ms.length).blackScores = s.blackScores ∧
    ((playAll s ms).back ms.length).whiteScores = s.whiteScores ∧
    ((playAll s ms).back ms.length).blackTotalScore = s.blackTotalScore ∧
    ((playAll s ms).back ms.length).whiteTotalScore = s.whiteTotalScore := by
  have e : (playAll s ms).back ms.length = s := by
    unfold Gobang.back
    rw [Int.toNat_ofNat]
    exact playAll_backLoop ms h.inv hp
  rw [e]
  exact ⟨rfl, rfl, rfl, rfl, rfl, rfl, rfl, rfl⟩

set_option maxRecDepth 8192 in
theorem sampleMoves_playable : Playable sampleState sampleMoves := by
  unfold sampleMoves sampleState
  refine ⟨?_, Or.inr rfl, ?_, Or.inl rfl, trivial⟩
  · exact mem_play_vacancies (Gobang.init sampleZobrist) ⟨7, 7⟩ ⟨8, 8⟩ Stone.black
      (mem_init_vacancies sampleZobrist ⟨8, 8⟩ (by decide)) (by decide)
  · exact mem_play_vacancies _ ⟨8, 8⟩ ⟨7, 8⟩ Stone.white
      (mem_play_vacancies (Gobang.init sampleZobrist) ⟨7, 7⟩ ⟨7, 8⟩ Stone.black
        (mem_init_vacancies sampleZobrist ⟨7, 8⟩ (by decide)) (by decide)) (by decide)

/-- Witness of C1: two plays from the state with one stone, then `back(2)`. -/
theorem play_back_round_trip_witness :
    Reachable sampleZobrist sampleState ∧ Playable sampleState sampleMoves ∧
    ((playAll sampleState sampleMoves).back 2).board = sampleState.board ∧
    ((playAll sampleState sampleMoves).back 2).vacancies = sampleState.vacancies ∧
    ((playAll sampleState sampleMoves).back 2).record = sampleState.record ∧
    ((playAll sampleState sampleMoves).back 2).zobrist.hash = sampleState.zobrist.hash ∧
    ((playAll sampleState sampleMoves).back 2).blackScores = sampleState.blackScores ∧
    ((playAll sampleState sampleMoves).back 2).whiteScores = sampleState.whiteScores ∧
    ((playAll sampleState sampleMoves).back 2).blackTotalScore = sampleState.blackTotalScore ∧
    ((playAll sampleState sampleMoves).back 2).whiteTotalScore = sampleState.whiteTotalScore :=
  ⟨sampleState_reachable, sampleMoves_playable,
    play_back_round_trip sampleZobrist sampleState sampleState_reachable sampleMoves
      sampleMoves_playable⟩

/-! ## Game state: win, draw, undecided -/

theorem loopCond_iff (s : Gobang) (stone : Stone) (q : QPoint) :
    (isLegal q && s.checkStone q == stone) = true ↔ okCell s stone q := by
  unfold okCell
  rw [Bool.and_eq_true, isLegal_iff, beq_iff_eq]

theorem countLoop_spec (s : Gobang) (stone : Stone) (sx sy : Int) :
    ∀ (fuel : Nat) (x y count r : Int), countLoop s stone sx sy fuel x y count = some r →
      ∃ k : Nat, r = count + k ∧
        (∀ i : Nat, i < k → okCell s stone ⟨x + i * sx, y + i * sy⟩) ∧
        ¬ okCell s stone ⟨x + k * sx, y + k * sy⟩ := by
  intro fuel
  induction fuel with
  | zero => intro x y count r h; cases h
  | succ n ih =>
    intro x y count r h
    unfold countLoop at h
    by_cases hc : (isLegal ⟨x, y⟩ && s.checkStone ⟨x, y⟩ == stone) = true
    · rw [if_pos hc] at h
      obtain ⟨k, hr, hall, hstop⟩ := ih _ _ _ _ h
      refine ⟨k + 1, by rw [hr]; push_cast; ring, ?_, ?_⟩
      · intro i hi
        cases i with
        | zero =>
          have := (loopCond_iff s stone ⟨x, y⟩).mp hc
          simpa using this
        | succ j =>
          have hj := hall j (by omega)
          have e1 : x + ((j + 1 : Nat) : Int) * sx = x + sx + (j : Int) * sx := by
            push_cast; ring
          have e2 : y + ((j + 1 : Nat) : Int) * sy = y + sy + (j : Int) * sy := by
            push_cast; ring
          rw [e1, e2]
          exact hj
      · have e1 : x + ((k + 1 : Nat) : Int) * sx = x + sx + (k : Int) * sx := by
          push_cast; ring
        have e2 : y + ((k + 1 : Nat) : Int) * sy = y + sy + (k : Int) * sy := by
          push_cast; ring
        rw [e1, e2]
        exact hstop
    · rw [if_neg hc] at h
      have hr : count = r := Option.some.inj h
      refine ⟨0, by rw [← hr]; simp, ?_, ?_⟩
      · intro i hi
        omega
      · intro hok
        apply hc
        rw [loopCond_iff]
        simpa using hok

theorem countLoop_terminates (s : Gobang) (stone : Stone) (sx sy : Int)
    (hdir : sx = 1 ∨ sx = -1 ∨ (sx = 0 ∧ (sy = 1 ∨ sy = -1))) :
    ∀ (fuel : Nat) (x y count : Int), exitDist sx sy x y ≤ fuel →
      ∃ r, countLoop s stone sx sy (fuel + 1) x y count = some r := by
  intro fuel
  induction fuel with
  | zero =>
    intro x y count hd
    unfold countLoop
    by_cases hc : (isLegal ⟨x, y⟩ && s.checkStone ⟨x, y⟩ == stone) = true
    · exfalso
      obtain ⟨⟨h1, h2, h3, h4⟩, _⟩ := (loopCond_iff s stone ⟨x, y⟩).mp hc
      simp only at h1 h2 h3 h4
      unfold exitDist at hd
      split_ifs at hd <;> omega
    · rw [if_neg hc]
      exact ⟨count, rfl⟩
  | succ n ih =>
    intro x y count hd
    unfold countLoop
    by_cases hc : (isLegal ⟨x, y⟩ && s.checkStone ⟨x, y⟩ == stone) = true
    · rw [if_pos hc]
      apply ih
      obtain ⟨⟨h1, h2, h3, h4⟩, _⟩ := (loopCond_iff s stone ⟨x, y⟩).mp hc
      simp only at h1 h2 h3 h4
      unfold exitDist at hd ⊢
      split_ifs at hd ⊢ <;> omega
    · rw [if_neg hc]
      exact ⟨count, rfl⟩

theorem mem_directions (dir : Int × Int) (h : dir ∈ directions) :
    (dir.1 = 1 ∧ (dir.2 = 0 ∨ dir.2 = 1 ∨ dir.2 = -1)) ∨ (dir.1 = 0 ∧ dir.2 = 1) := by
  unfold directions at h
  simp only [List.mem_cons, List.mem_singleton, List.not_mem_nil, or_false] at h
  rcases h with h | h | h | h <;> rw [h] <;> simp

/-- The count computed for one direction: one for the point itself plus the lengths
`a` and `b` of the two maximal walks over cells of the colour. -/
theorem countLine_spec (s : Gobang) (p : QPoint) (c : Stone) (dir : Int × Int) (fuel : Nat)
    (hf : 15 ≤ fuel) (hp : onBoard p) (hdir : dir ∈ directions) :
    ∃ a b : Nat, countLine fuel s p c dir = some (1 + (a : Int) + (b : Int)) ∧
      (∀ i : Nat, i < a → okCell s c (stepFrom p dir (-((i : Int) + 1)))) ∧
      ¬ okCell s c (stepFrom p dir (-((a : Int) + 1))) ∧
      (∀ i : Nat, i < b → okCell s c (stepFrom p dir ((i : Int) + 1))) ∧
      ¬ okCell s c (stepFrom p dir ((b : Int) + 1)) := by
  obtain ⟨h1, h2, h3, h4⟩ := hp
  have hd := mem_directions dir hdir
  obtain ⟨n, hn⟩ : ∃ n : Nat, fuel = n + 1 := ⟨fuel - 1, by omega⟩
  subst hn
  unfold countLine
  simp only [neg_mul, one_mul]
  obtain ⟨r1, hr1⟩ := countLoop_terminates s c (-dir.1) (-dir.2) (by omega) n
    (p.x + -dir.1) (p.y + -dir.2) 1 (by unfold exitDist; split_ifs <;> omega)
  obtain ⟨a, ha, hall1, hstop1⟩ := countLoop_spec s c _ _ _ _ _ _ _ hr1
  obtain ⟨r2, hr2⟩ := countLoop_terminates s c dir.1 dir.2 (by omega) n
    (p.x + dir.1) (p.y + dir.2) r1 (by unfold exitDist; split_ifs <;> omega)
  obtain ⟨b, hb, hall2, hstop2⟩ := countLoop_spec s c _ _ _ _ _ _ _ hr2
  refine ⟨a, b, ?_, ?_, ?_, ?_, ?_⟩
  · rw [hr1, Option.some_bind, hr2, hb, ha]
  · intro i hi
    have := hall1 i hi
    unfold stepFrom
    have e1 : p.x + -((i : Int) + 1) * dir.1 = p.x + -dir.1 + (i : Int) * -dir.1 := by ring
    have e2 : p.y + -((i : Int) + 1) * dir.2 = p.y + -dir.2 + (i : Int) * -dir.2 := by ring
    rw [e1, e2]
    exact this
  · unfold stepFrom
    have e1 : p.x + -((a : Int) + 1) * dir.1 = p.x + -dir.1 + (a : Int) * -dir.1 := by ring
    have e2 : p.y + -((a : Int) + 1) * dir.2 = p.y + -dir.2 + (a : Int) * -dir.2 := by ring
    rw [e1, e2]
    exact hstop1
  · intro i hi
    have := hall2 i hi
    unfold stepFrom
    have e1 : p.x + ((i : Int) + 1) * dir.1 = p.x + dir.1 + (i : Int) * dir.1 := by ring
    have e2 : p.y + ((i : Int) + 1) * dir.2 = p.y + dir.2 + (i : Int) * dir.2 := by ring
    rw [e1, e2]
    exact this
  · unfold stepFrom
    have e1 : p.x + ((b : Int) + 1) * dir.1 = p.x + dir.1 + (b : Int) * dir.1 := by ring
    have e2 : p.y + ((b : Int) + 1) * dir.2 = p.y + dir.2 + (b : Int) * dir.2 := by ring
    rw [e1, e2]
    exact hstop2

theorem stepFrom_zero (p : QPoint) (dir : Int × Int) : stepFrom p dir 0 = p := by
  unfold stepFrom
  simp

/-- For a point holding colour `c`, the count of a direction reaches 5 exactly when
a run of at least five `c`-stones in that direction contains the point. -/
theorem countLine_five (s : Gobang) (p : QPoint) (c : Stone) (dir : Int × Int) (fuel : Nat)
    (hf : 15 ≤ fuel) (hp : onBoard p) (hc : s.checkStone p = c) (hdir : dir ∈ directions) :
    ∃ n : Int, countLine fuel s p c dir = some n ∧ (5 ≤ n ↔ runOfFive s p c dir) := by
  obtain ⟨a, b, hcount, hA, hAstop, hB, hBstop⟩ := countLine_spec s p c dir fuel hf hp hdir
  refine ⟨_, hcount, ?_⟩
  constructor
  · intro h5
    refine ⟨a, b, by omega, ?_⟩
    intro t ht1 ht2
    rcases lt_trichotomy t 0 with hneg | hzero | hpos
    · have := hA (-t - 1).toNat (by omega)
      have e : -(((-t - 1).toNat : Int) + 1) = t := by omega
      rw [e] at this
      exact this
    · rw [hzero, stepFrom_zero]
      exact ⟨hp, hc⟩
    · have := hB (t - 1).toNat (by omega)
      have e : (((t - 1).toNat : Int) + 1) = t := by omega
      rw [e] at this
      exact this
  · rintro ⟨a', b', h5, hrun⟩
    have ha : a' ≤ a := by
      by_contra hlt
      exact hAstop (hrun (-((a : Int) + 1)) (by omega) (by omega))
    have hb : b' ≤ b := by
      by_contra hlt
      exact hBstop (hrun ((b : Int) + 1) (by omega) (by omega))
    omega

theorem winLoop_spec (s : Gobang) (p : QPoint) (c : Stone) (fuel : Nat) (hf : 15 ≤ fuel)
    (hp : onBoard p) (hc : s.checkStone p = c) :
    ∀ dirs : List (Int × Int), (∀ d ∈ dirs, d ∈ directions) →
      ∃ w : Bool, winLoop fuel s p c dirs = some w ∧
        (w = true ↔ ∃ d ∈ dirs, runOfFive s p c d) := by
  intro dirs
  induction dirs with
  | nil =>
    intro _
    exact ⟨false, rfl, by simp⟩
  | cons d rest ih =>
    intro hsub
    obtain ⟨n, hn, hiff⟩ := countLine_five s p c d fuel hf hp hc (hsub d (List.mem_cons_self _ _))
    obtain ⟨w, hw, hwiff⟩ := ih (fun e he => hsub e (List.mem_cons_of_mem _ he))
    unfold winLoop
    rw [hn, Option.some_bind]
    by_cases h5 : n ≥ 5
    · rw [if_pos h5]
      exact ⟨true, rfl, by simp only [true_iff]; exact ⟨d, List.mem_cons_self _ _, hiff.mp h5⟩⟩
    · rw [if_neg h5]
      refine ⟨w, hw, ?_⟩
      rw [hwiff]
      constructor
      · rintro ⟨e, he, hrun⟩
        exact ⟨e, List.mem_cons_of_mem _ he, hrun⟩
      · rintro ⟨e, he, hrun⟩
        rcases List.mem_cons.mp he with h | h
        · subst h
          exact absurd (hiff.mpr hrun) h5
        · exact ⟨e, h, hrun⟩

theorem winLoop_total (s : Gobang) (p : QPoint) (c : Stone) (fuel : Nat) (hf : 15 ≤ fuel)
    (hp : onBoard p) :
    ∀ dirs : List (Int × Int), (∀ d ∈ dirs, d ∈ directions) →
      ∃ w : Bool, winLoop fuel s p c dirs = some w := by
  intro dirs
  induction dirs with
  | nil => intro _; exact ⟨false, rfl⟩
  | cons d rest ih =>
    intro hsub
    obtain ⟨a, b, hcount, _⟩ := countLine_spec s p c d fuel hf hp (hsub d (List.mem_cons_self _ _))
    obtain ⟨w, hw⟩ := ih (fun e he => hsub e (List.mem_cons_of_mem _ he))
    unfold winLoop
    rw [hcount, Option.some_bind]
    by_cases h5 : 1 + (a : Int) + (b : Int) ≥ 5
    · rw [if_pos h5]; exact ⟨true, rfl⟩
    · rw [if_neg h5]; exact ⟨w, hw⟩

theorem hasEmpty_iff (s : Gobang) :
    hasEmpty s = true ↔ ∃ q, onBoard q ∧ s.checkStone q = Stone.empty := by
  unfold hasEmpty
  simp only [List.any_eq_true, List.mem_range, beq_iff_eq]
  constructor
  · rintro ⟨i, hi, j, hj, h⟩
    exact ⟨⟨i, j⟩, ⟨by simp, by simp; omega, by simp, by simp; omega⟩, h⟩
  · rintro ⟨q, ⟨h1, h2, h3, h4⟩, h⟩
    refine ⟨q.x.toNat, by omega, q.y.toNat, by omega, ?_⟩
    have ex : ((q.x.toNat : Nat) : Int) = q.x := by omega
    have ey : ((q.y.toNat : Nat) : Int) = q.y := by omega
    rw [ex, ey]
    exact h

/-- C4: for every board, every on-board cell `p` and every colour `c` with
`board[p] = c`, `gameState(p, c)` returns (its loops end within 15 iterations) and the
result is `win` if and only if, in at least one of the four directions, a run of
consecutive `c`-stones containing `p` has length at least 5. -/
theorem win_detection (s : Gobang) (p : QPoint) (c : Stone) (fuel : Nat) (hf : 15 ≤ fuel)
    (hp : onBoard p) (hc : s.checkStone p = c) :
    ∃ r, s.gameState fuel p c = some r ∧
      (r = State.win ↔ ∃ dir ∈ directions, runOfFive s p c dir) := by
  obtain ⟨w, hw, hiff⟩ := winLoop_spec s p c fuel hf hp hc directions (fun d hd => hd)
  unfold Gobang.gameState
  rw [hw, Option.map_some']
  refine ⟨_, rfl, ?_⟩
  rw [← hiff]
  cases w
  · simp only [Bool.false_eq_true, if_false, iff_false]
    split_ifs <;> decide
  · simp

/-- On the board with five Black stones in a row, `gameState` at one of them returns
`win` for Black. -/
theorem gameState_five : fiveState.gameState 15 ⟨5, 3⟩ Stone.black = some State.win := by
  decide

/-- Witness of C4: the centre stone of the sample state. -/
theorem win_detection_witness :
    15 ≤ 15 ∧ onBoard ⟨7, 7⟩ ∧ sampleState.checkStone ⟨7, 7⟩ = Stone.black ∧
    ∃ r, sampleState.gameState 15 ⟨7, 7⟩ Stone.black = some r ∧
      (r = State.win ↔ ∃ dir ∈ directions, runOfFive sampleState ⟨7, 7⟩ Stone.black dir) :=
  ⟨le_refl 15, by decide, by decide,
    win_detection sampleState ⟨7, 7⟩ Stone.black 15 (le_refl 15) (by decide) (by decide)⟩

/-- C5: for every board, on-board cell `p` and colour `c`, `gameState(p, c)` returns,
and when the result is not `win` it is `draw` if and only if no cell of the grid is
Empty and `undecided` if and only if some cell is Empty; in states reached by `play`
and `back`, no cell is Empty exactly when the vacancy set is empty. -/
theorem draw_undecided (s : Gobang) (p : QPoint) (c : Stone) (fuel : Nat) (hf : 15 ≤ fuel)
    (hp : onBoard p) :
    ∃ r, s.gameState fuel p c = some r ∧
      (r ≠ State.win →
        (r = State.draw ↔ ∀ q, onBoard q → s.checkStone q ≠ Stone.empty) ∧
        (r = State.undecided ↔ ∃ q, onBoard q ∧ s.checkStone q = Stone.empty)) ∧
      (∀ z, Reachable z s →
        (s.vacancies = ∅ ↔ ∀ q, onBoard q → s.checkStone q ≠ Stone.empty)) := by
  obtain ⟨w, hw⟩ := winLoop_total s p c fuel hf hp directions (fun d hd => hd)
  unfold Gobang.gameState
  rw [hw, Option.map_some']
  refine ⟨_, rfl, ?_, ?_⟩
  · intro hnot
    cases w
    · simp only [Bool.false_eq_true, if_false]
      by_cases he : hasEmpty s = true
      · rw [if_pos he]
        have hex := (hasEmpty_iff s).mp he
        refine ⟨⟨fun h => (by cases h), fun h => ?_⟩, ⟨fun _ => hex, fun _ => rfl⟩⟩
        obtain ⟨q, hq, hqe⟩ := hex
        exact absurd hqe (h q hq)
      · rw [if_neg he]
        have hno : ¬ ∃ q, onBoard q ∧ s.checkStone q = Stone.empty :=
          fun hex => he ((hasEmpty_iff s).mpr hex)
        refine ⟨⟨fun _ q hq hqe => hno ⟨q, hq, hqe⟩, fun _ => rfl⟩,
          ⟨fun h => (by cases h), fun h => absurd h hno⟩⟩
    · simp at hnot
  · intro z hz
    have hi := hz.inv
    constructor
    · intro hv q hq hqe
      have : q ∈ s.vacancies := (hi.vac q).mpr ⟨hq, hqe⟩
      rw [hv] at this
      exact absurd this (Finset.not_mem_empty q)
    · intro hall
      apply Finset.eq_empty_of_forall_not_mem
      intro q hq
      obtain ⟨hb, he⟩ := (hi.vac q).mp hq
      exact hall q hb he

/-- Witness of C5 on the sample state. -/
theorem draw_undecided_witness :
    15 ≤ 15 ∧ onBoard ⟨7, 7⟩ ∧
    ∃ r, sampleState.gameState 15 ⟨7, 7⟩ Stone.black = some r ∧
      (r ≠ State.win →
        (r = State.draw ↔ ∀ q, onBoard q → sampleState.checkStone q ≠ Stone.empty) ∧
        (r = State.undecided ↔ ∃ q, onBoard q ∧ sampleState.checkStone q = Stone.empty)) ∧
      (∀ z, Reachable z sampleState →
        (sampleState.vacancies = ∅ ↔
          ∀ q, onBoard q → sampleState.checkStone q ≠ Stone.empty)) :=
  ⟨le_refl 15, by decide,
    draw_undecided sampleState ⟨7, 7⟩ Stone.black 15 (le_refl 15) (by decide)⟩

/-! ## Frontier generator: `move` followed by `undo` -/

/-- C2 at the failing input: `(0, 0)` is a candidate before `move((0, 0))`, the move
records `removedPoint = (0, 0)`, which `undo` takes for the null point, and after
`undo((0, 0))` the candidate `(0, 0)` is missing: `generate()` is not restored. -/
theorem move_undo_corner :
    (⟨0, 0⟩ : QPoint) ∈ cornerGenerator.generate ∧
    (⟨0, 0⟩ : QPoint) ∉ cornerRoundTrip.generate ∧
    cornerRoundTrip.generate ≠ cornerGenerator.generate ∧
    cornerRoundTrip.generate = cornerGenerator.generate.erase ⟨0, 0⟩ := by
  decide

/-! ## Leaf of the search -/

/-- C8 (as stated, refuted): on the board with five Black stones in a row, with an
empty transposition table and `maxDepth = 4`, the call at depth 0 for Black returns
the win score `maxScore - 1000 - 4 = 9998996`, not
`evaluate(Black) - evaluate(White) = 52040`. -/
theorem leaf_with_five :
    (alphaBetaPrune 4 0 fiveState Stone.black minScore maxScore).2 = 9998996 ∧
    fiveState.evaluate Stone.black - fiveState.evaluate Stone.black.flip = 52040 := by
  decide

/-- C8 (amended): the call of `alphaBetaPrune` at depth 0 plays no move: grid,
vacancies, history, fingerprint and score totals are unchanged.  When the lookup at
its head returns from the transposition table, the call returns the table's answer.
When it does not, the call returns `Max - 1000 - maxDepth` if the mover's total is at
least `five`; otherwise `Min + 1000 + maxDepth` if the opponent's total is at least
`five`; otherwise exactly `evaluate(mover) - evaluate(opponent)`, which it stores as
an exact entry (nothing is stored in the other cases). -/
theorem leaf_evaluation (maxDepth : Nat) (s : Gobang) (stone : Stone) (alpha beta : Int) :
    (∀ r, s.tableLookup maxDepth 0 alpha beta = some r →
      alphaBetaPrune maxDepth 0 s stone alpha beta = (s, r)) ∧
    (s.tableLookup maxDepth 0 alpha beta = none → s.evaluate stone ≥ five →
      alphaBetaPrune maxDepth 0 s stone alpha beta = (s, maxScore - 1000 - (maxDepth : Int))) ∧
    (s.tableLookup maxDepth 0 alpha beta = none → s.evaluate stone < five →
      s.evaluate stone.flip ≥ five →
      alphaBetaPrune maxDepth 0 s stone alpha beta = (s, minScore + 1000 + (maxDepth : Int))) ∧
    (s.tableLookup maxDepth 0 alpha beta = none → s.evaluate stone < five →
      s.evaluate stone.flip < five →
      alphaBetaPrune maxDepth 0 s stone alpha beta
        = (s.store BoundType.exact 0 (s.evaluate stone - s.evaluate stone.flip),
            s.evaluate stone - s.evaluate stone.flip)) ∧
    (alphaBetaPrune maxDepth 0 s stone alpha beta).1.board = s.board ∧
    (alphaBetaPrune maxDepth 0 s stone alpha beta).1.vacancies = s.vacancies ∧
    (alphaBetaPrune maxDepth 0 s stone alpha beta).1.record = s.record ∧
    (alphaBetaPrune maxDepth 0 s stone alpha beta).1.zobrist.hash = s.zobrist.hash ∧
    (alphaBetaPrune maxDepth 0 s stone alpha beta).1.blackTotalScore = s.blackTotalScore ∧
    (alphaBetaPrune maxDepth 0 s stone alpha beta).1.whiteTotalScore = s.whiteTotalScore := by
  have c1 : ∀ r, s.tableLookup maxDepth 0 alpha beta = some r →
      alphaBetaPrune maxDepth 0 s stone alpha beta = (s, r) := by
    intro r h
    unfold alphaBetaPrune
    rw [h]
  have c2 : s.tableLookup maxDepth 0 alpha beta = none → s.evaluate stone ≥ five →
      alphaBetaPrune maxDepth 0 s stone alpha beta
        = (s, maxScore - 1000 - (maxDepth : Int)) := by
    intro h h1
    unfold alphaBetaPrune
    rw [h]
    simp only []
    rw [if_pos h1]
    simp
  have c3 : s.tableLookup maxDepth 0 alpha beta = none → s.evaluate stone < five →
      s.evaluate stone.flip ≥ five →
      alphaBetaPrune maxDepth 0 s stone alpha beta
        = (s, minScore + 1000 + (maxDepth : Int)) := by
    intro h h1 h2
    unfold alphaBetaPrune
    rw [h]
    simp only []
    rw [if_neg (not_le.mpr h1), if_pos h2]
    simp
  have c4 : s.tableLookup maxDepth 0 alpha beta = none → s.evaluate stone < five →
      s.evaluate stone.flip < five →
      alphaBetaPrune maxDepth 0 s stone alpha beta
        = (s.store BoundType.exact 0 (s.evaluate stone - s.evaluate stone.flip),
            s.evaluate stone - s.evaluate stone.flip) := by
    intro h h1 h2
    unfold alphaBetaPrune
    rw [h]
    simp only []
    rw [if_neg (not_le.mpr h1), if_neg (not_le.mpr h2)]
  refine ⟨c1, c2, c3, c4, ?_⟩
  cases hl : s.tableLookup maxDepth 0 alpha beta with
  | some r =>
    rw [c1 r hl]
    exact ⟨rfl, rfl, rfl, rfl, rfl, rfl⟩
  | none =>
    by_cases h1 : s.evaluate stone ≥ five
    · rw [c2 hl h1]
      exact ⟨rfl, rfl, rfl, rfl, rfl, rfl⟩
    · by_cases h2 : s.evaluate stone.flip ≥ five
      · rw [c3 hl (not_le.mp h1) h2]
        exact ⟨rfl, rfl, rfl, rfl, rfl, rfl⟩
      · rw [c4 hl (not_le.mp h1) (not_le.mp h2)]
        exact ⟨rfl, rfl, rfl, rfl, rfl, rfl⟩

/-- Witness of C8 (amended), `maxDepth = 4`: the leaf value on the sample state; the
win score for Black and the loss score for White on the board with five Black stones
in a row (Black's total is 52040, White's is 0); and on that board with the exact
entry 7 stored at depth 0, the table's answer 7. -/
theorem leaf_evaluation_witness :
    (alphaBetaPrune 4 0 sampleState Stone.black minScore maxScore).2
      = sampleState.evaluate Stone.black - sampleState.evaluate Stone.black.flip ∧
    sampleState.evaluate Stone.black - sampleState.evaluate Stone.black.flip = 160 ∧
    alphaBetaPrune 4 0 fiveState Stone.black minScore maxScore = (fiveState, 9998996) ∧
    alphaBetaPrune 4 0 fiveState Stone.white minScore maxScore = (fiveState, -9998996) ∧
    alphaBetaPrune 4 0 (fiveState.store BoundType.exact 0 7) Stone.black minScore maxScore
      = (fiveState.store BoundType.exact 0 7, 7) :=
  ⟨congrArg Prod.snd
      ((leaf_evaluation 4 sampleState Stone.black minScore maxScore).2.2.2.1
        (by decide) (by decide) (by decide)),
    by decide,
    (leaf_evaluation 4 fiveState Stone.black minScore maxScore).2.1 (by decide) (by decide),
    (leaf_evaluation 4 fiveState Stone.white minScore maxScore).2.2.1 (by decide) (by decide)
      (by decide),
    (leaf_evaluation 4 (fiveState.store BoundType.exact 0 7) Stone.black minScore
      maxScore).1 7 (by decide)⟩

/-! ## Adequacy of the loop bounds and of the table lookup -/

theorem shapeScoreMap_at_key :
    ∀ k ∈ shapeScoreMap.map Prod.fst, (shapeScoreMap_at k).isSome = true := by
  decide

/-- Every keyword reported by `parse_text` is a key of `shapeScoreMap`, so the lookup
`at` in the accumulation loop never fails. -/
theorem parse_text_keys (line : List Char) :
    ∀ k ∈ parse_text line, (shapeScoreMap_at k).isSome = true := by
  induction line with
  | nil => intro k hk; cases hk
  | cons c cs ih =>
    intro k hk
    unfold parse_text at hk
    rcases List.mem_append.mp hk with h | h
    · exact shapeScoreMap_at_key k (List.mem_filter.mp h).1
    · exact ih k h

theorem diagLoop_succ (n : Nat) (i j : Int) :
    diagLoop (n + 1) i j = if i < 15 ∧ j < 15 then ⟨i, j⟩ :: diagLoop n (i + 1) (j + 1) else [] := rfl

/-- More iterations than `15 - i` never change the result of the diagonal loop: the
bound used by `diagPoints` does not cut the loop short. -/
theorem diagLoop_fuel (n : Nat) :
    ∀ i j : Int, (15 - i).toNat ≤ n → diagLoop n i j = diagLoop (15 - i).toNat i j := by
  induction n with
  | zero =>
    intro i j h
    have e : (15 - i).toNat = 0 := by omega
    rw [e]
  | succ n ih =>
    intro i j h
    by_cases hc : i < 15 ∧ j < 15
    · obtain ⟨m, hm⟩ : ∃ m : Nat, (15 - i).toNat = m + 1 := ⟨(15 - i).toNat - 1, by omega⟩
      have hm2 : (15 - (i + 1)).toNat = m := by omega
      rw [hm, diagLoop_succ, diagLoop_succ, if_pos hc, if_pos hc, ih (i + 1) (j + 1) (by omega), hm2]
    · rw [diagLoop_succ, if_neg hc]
      cases hm : (15 - i).toNat with
      | zero => rfl
      | succ m => rw [diagLoop_succ, if_neg hc]

theorem antiLoop_succ (n : Nat) (i j : Int) :
    antiLoop (n + 1) i j = if i < 15 ∧ j ≥ 0 then ⟨i, j⟩ :: antiLoop n (i + 1) (j - 1) else [] := rfl

/-- More iterations than `15 - i` never change the result of the anti-diagonal
loop. -/
theorem antiLoop_fuel (n : Nat) :
    ∀ i j : Int, (15 - i).toNat ≤ n → antiLoop n i j = antiLoop (15 - i).toNat i j := by
  induction n with
  | zero =>
    intro i j h
    have e : (15 - i).toNat = 0 := by omega
    rw [e]
  | succ n ih =>
    intro i j h
    by_cases hc : i < 15 ∧ j ≥ 0
    · obtain ⟨m, hm⟩ : ∃ m : Nat, (15 - i).toNat = m + 1 := ⟨(15 - i).toNat - 1, by omega⟩
      have hm2 : (15 - (i + 1)).toNat = m := by omega
      rw [hm, antiLoop_succ, antiLoop_succ, if_pos hc, if_pos hc, ih (i + 1) (j - 1) (by omega), hm2]
    · rw [antiLoop_succ, if_neg hc]
      cases hm : (15 - i).toNat with
      | zero => rfl
      | succ m => rw [antiLoop_succ, if_neg hc]

/-! ## Frontier generator: when `undo` does restore the candidate set -/

theorem moveOffsets_ne_null : ∀ o ∈ moveOffsets, o ≠ QPoint.null := by
  decide

theorem foldl_moveStep (board : Int → Int → Stone) (point : QPoint) (m0 : Finset QPoint) :
    ∀ (offs : List QPoint) (acc : Finset QPoint × Finset QPoint),
      (∀ o ∈ offs, o ≠ QPoint.null) →
      acc.1 = m0 ∪ acc.2 → (∀ q ∈ acc.2, q ∉ m0 ∧ q ≠ point) →
      (offs.foldl (moveStep board point) acc).1
          = m0 ∪ (offs.foldl (moveStep board point) acc).2 ∧
        ∀ q ∈ (offs.foldl (moveStep board point) acc).2, q ∉ m0 ∧ q ≠ point := by
  intro offs
  induction offs with
  | nil => intro acc _ h1 h2; exact ⟨h1, h2⟩
  | cons o rest ih =>
    intro acc hoffs h1 h2
    rw [List.foldl_cons]
    apply ih
    · exact fun o' ho' => hoffs o' (List.mem_cons_of_mem _ ho')
    · unfold moveStep
      simp only []
      split_ifs with hc hcard
      · simp only []
        rw [h1, Finset.union_insert]
      · simp only []
        have hmem : point.add o ∈ acc.1 := by
          by_contra hn
          rw [Finset.card_insert_of_not_mem hn] at hcard
          omega
        rw [Finset.insert_eq_of_mem hmem]
        exact h1
      · exact h1
    · unfold moveStep
      simp only []
      split_ifs with hc hcard
      · simp only []
        intro q hq
        rcases Finset.mem_insert.mp hq with e | hq2
        · have hn : point.add o ∉ acc.1 := by
            intro hmem
            rw [Finset.insert_eq_of_mem hmem] at hcard
            omega
          rw [e]
          constructor
          · intro hm0
            apply hn
            rw [h1]
            exact Finset.mem_union_left _ hm0
          · intro hadd
            apply hoffs o (List.mem_cons_self _ _)
            unfold QPoint.add at hadd
            cases point; cases o
            simp only [QPoint.mk.injEq] at hadd
            unfold QPoint.null
            simp only [QPoint.mk.injEq]
            omega
        · exact h2 q hq2
      · exact h2
      · exact h2

/-- The round trip of the frontier holds except at the null point: `move(p)` followed
by `undo(p)` restores `generate()` whenever `p` is not a candidate or is not
`(0, 0)`. -/
theorem move_undo_generate (board : Int → Int → Stone) (g : MovesGenerator) (p : QPoint)
    (h : p ∈ g.moves → p.isNull = false) :
    ((g.move board p).undo p).generate = g.generate := by
  obtain ⟨h1, h2⟩ := foldl_moveStep board p g.moves moveOffsets (g.moves, ∅)
    moveOffsets_ne_null (by simp) (by simp)
  unfold MovesGenerator.generate MovesGenerator.undo MovesGenerator.move
  simp only []
  generalize moveOffsets.foldl (moveStep board p) (g.moves, ∅) = r at h1 h2
  have hp2 : p ∉ r.2 := fun hm => (h2 p hm).2 rfl
  have hdiff : r.1.erase p \ r.2 = g.moves.erase p := by
    ext q
    simp only [Finset.mem_sdiff, Finset.mem_erase, h1, Finset.mem_union]
    constructor
    · rintro ⟨⟨hne, hm | hm⟩, hn⟩
      · exact ⟨hne, hm⟩
      · exact absurd hm hn
    · rintro ⟨hne, hm⟩
      exact ⟨⟨hne, Or.inl hm⟩, fun hq => (h2 q hq).1 hm⟩
  rw [hdiff]
  by_cases hpm : p ∈ g.moves
  · have hr : p ∈ r.1 := by rw [h1]; exact Finset.mem_union_left _ hpm
    rw [if_pos hr, h hpm]
    simp only [Bool.not_false, if_true]
    exact Finset.insert_erase hpm
  · have hr : p ∉ r.1 := by
      rw [h1, Finset.mem_union]
      rintro (hm | hm)
      · exact hpm hm
      · exact hp2 hm
    rw [if_neg hr]
    have hnull : QPoint.null.isNull = true := by decide
    rw [hnull]
    simp only [Bool.not_true, Bool.false_eq_true, if_false]
    exact Finset.erase_eq_of_not_mem hpm

/-! ## Bounds on the scores: the machine `int` does not overflow -/

theorem shapeScore_nonneg : ∀ e ∈ shapeScoreMap, 0 ≤ e.2 := by
  decide

theorem shapeScoreMap_at_nonneg (k : List Char) : 0 ≤ (shapeScoreMap_at k).getD 0 := by
  unfold shapeScoreMap_at
  cases h : shapeScoreMap.find? (fun e => e.1 == k) with
  | none => simp
  | some e =>
    simp only [Option.map_some', Option.getD_some]
    exact shapeScore_nonneg e (List.mem_of_find?_eq_some h)

theorem allShapes_sum :
    ((shapeScoreMap.map Prod.fst).map fun k => (shapeScoreMap_at k).getD 0).sum = 61200 := by
  decide

theorem lineScore_cons (c : Char) (cs : List Char) :
    lineScore (c :: cs)
      = (((shapeScoreMap.map Prod.fst).filter fun k => k.isPrefixOf (c :: cs)).map
          fun k => (shapeScoreMap_at k).getD 0).sum + lineScore cs := by
  unfold lineScore
  rw [parse_text, List.map_append, List.sum_append]

/-- A line scores between 0 and 61200 (the sum of the whole table) per character. -/
theorem lineScore_bounds (line : List Char) :
    0 ≤ lineScore line ∧ lineScore line ≤ 61200 * (line.length : Int) := by
  induction line with
  | nil => exact ⟨le_refl 0, le_refl 0⟩
  | cons c cs ih =>
    rw [lineScore_cons]
    have hsub : (((shapeScoreMap.map Prod.fst).filter fun k => k.isPrefixOf (c :: cs)).map
        fun k => (shapeScoreMap_at k).getD 0).Sublist
        ((shapeScoreMap.map Prod.fst).map fun k => (shapeScoreMap_at k).getD 0) :=
      List.Sublist.map _ (List.filter_sublist _)
    have hle := List.Sublist.sum_le_sum hsub (by
      intro a ha
      obtain ⟨k, _, hk⟩ := List.mem_map.mp ha
      rw [← hk]
      exact shapeScoreMap_at_nonneg k)
    rw [allShapes_sum] at hle
    have hnn : 0 ≤ (((shapeScoreMap.map Prod.fst).filter fun k => k.isPrefixOf (c :: cs)).map
        fun k => (shapeScoreMap_at k).getD 0).sum := by
      apply List.sum_nonneg
      intro a ha
      obtain ⟨k, _, hk⟩ := List.mem_map.mp ha
      rw [← hk]
      exact shapeScoreMap_at_nonneg k
    simp only [List.length_cons]
    push_cast
    constructor
    · omega
    · omega

theorem slotLine_length (k : Int) (h0 : 0 ≤ k) (h1 : k < 72) : (slotLine k).length < 16 := by
  have h := slotLine_length_fin ⟨k.toNat, by omega⟩
  have e : ((k.toNat : Nat) : Int) = k := by omega
  simpa only [e] using h

/-- In every reachable state every score slot and both totals are non-negative and
below `2 ^ 31`, so the `int` arithmetic of `updateScore` never overflows. -/
theorem scores_bounded (z : Zobrist) (s : Gobang) (h : Reachable z s) :
    (∀ k : Int, 0 ≤ k → k < 72 →
      (0 ≤ s.blackScores k ∧ s.blackScores k ≤ 918000) ∧
      (0 ≤ s.whiteScores k ∧ s.whiteScores k ≤ 918000)) ∧
    (0 ≤ s.blackTotalScore ∧ s.blackTotalScore ≤ 66096000) ∧
    (0 ≤ s.whiteTotalScore ∧ s.whiteTotalScore ≤ 66096000) ∧
    (66096000 : Int) < 2 ^ 31 := by
  have hi := h.inv
  have hslot : ∀ k : Int, 0 ≤ k → k < 72 →
      (0 ≤ s.blackScores k ∧ s.blackScores k ≤ 918000) ∧
      (0 ≤ s.whiteScores k ∧ s.whiteScores k ≤ 918000) := by
    intro k h0 h1
    obtain ⟨eb, ew⟩ := hi.slots k h0 h1
    have hlen := slotLine_length k h0 h1
    have b1 := lineScore_bounds (blackLine s.board (slotLine k))
    have b2 := lineScore_bounds (whiteLine s.board (slotLine k))
    have l1 : (blackLine s.board (slotLine k)).length = (slotLine k).length := by
      unfold blackLine; exact List.length_map _ _
    have l2 : (whiteLine s.board (slotLine k)).length = (slotLine k).length := by
      unfold whiteLine; exact List.length_map _ _
    rw [l1] at b1
    rw [l2] at b2
    rw [eb, ew]
    refine ⟨⟨b1.1, ?_⟩, ⟨b2.1, ?_⟩⟩ <;> omega
  refine ⟨hslot, ?_, ?_, by norm_num⟩
  · rw [hi.totals.1]
    constructor
    · apply Finset.sum_nonneg
      intro k hk
      have := Finset.mem_range.mp hk
      exact (hslot k (by omega) (by omega)).1.1
    · have hle : ∑ k ∈ Finset.range 72, s.blackScores (k : Int)
          ≤ ∑ _k ∈ Finset.range 72, (918000 : Int) := by
        apply Finset.sum_le_sum
        intro k hk
        have := Finset.mem_range.mp hk
        exact (hslot k (by omega) (by omega)).1.2
      simp only [Finset.sum_const, Finset.card_range, nsmul_eq_mul] at hle
      norm_num at hle
      exact hle
  · rw [hi.totals.2]
    constructor
    · apply Finset.sum_nonneg
      intro k hk
      have := Finset.mem_range.mp hk
      exact (hslot k (by omega) (by omega)).2.1
    · have hle : ∑ k ∈ Finset.range 72, s.whiteScores (k : Int)
          ≤ ∑ _k ∈ Finset.range 72, (918000 : Int) := by
        apply Finset.sum_le_sum
        intro k hk
        have := Finset.mem_range.mp hk
        exact (hslot k (by omega) (by omega)).2.2
      simp only [Finset.sum_const, Finset.card_range, nsmul_eq_mul] at hle
      norm_num at hle
      exact hle


/-! ## Score-slot indexing -/

theorem updateScore_not_written (s : Gobang) (p : QPoint) (k : Int) (hk : ¬ written p k) :
    (s.updateScore p).blackScores k = s.blackScores k ∧
    (s.updateScore p).whiteScores k = s.whiteScores k := by
  unfold written rowSlot colSlot diagSlot antiSlot diagGuard antiGuard at hk
  obtain ⟨eb, ew⟩ := updateScore_slots s p k
  have c3 : ¬ (k = p.x + p.y + 47 ∧ (p.x + p.y ≥ 4 ∧ p.x + p.y ≤ 24)) := fun h =>
    hk (Or.inr (Or.inr (Or.inr h)))
  have c2 : ¬ (k = p.x - p.y + 40 ∧ |p.x - p.y| ≤ 10) := fun h => hk (Or.inr (Or.inr (Or.inl h)))
  have c1 : ¬ (k = p.x + 15) := fun h => hk (Or.inr (Or.inl h))
  have c0 : ¬ (k = p.y) := fun h => hk (Or.inl h)
  rw [eb, ew, if_neg c3, if_neg c2, if_neg c1, if_neg c0, if_neg c3, if_neg c2, if_neg c1,
    if_neg c0]
  exact ⟨rfl, rfl⟩

/-- C19: for legal points `p` and `q`, every index that `updateScore(p)` writes lies in
`[0, 72)`: the row slot in `[0, 15)`, the column slot in `[15, 30)`, the diagonal slot
(under its guard) in `[30, 51)` and the anti-diagonal slot (under its guard) in
`[51, 72)`, four pairwise disjoint ranges; no other slot is changed; two points have
the same slot of a family iff they lie on the same line of that family; and the two
guards hold exactly for the diagonals (`-10 ≤ x - y ≤ 10`, 21 of them) and
anti-diagonals (`4 ≤ x + y ≤ 24`, 21 of them) of length at least 5. -/
theorem slot_indexing (p q : QPoint) (hp : onBoard p) (hq : onBoard q) :
    (∀ k, written p k → 0 ≤ k ∧ k < 72) ∧
    (0 ≤ rowSlot p ∧ rowSlot p < 15) ∧ (15 ≤ colSlot p ∧ colSlot p < 30) ∧
    (diagGuard p → 30 ≤ diagSlot p ∧ diagSlot p < 51) ∧
    (antiGuard p → 51 ≤ antiSlot p ∧ antiSlot p < 72) ∧
    (∀ (s : Gobang) (k : Int), ¬ written p k →
      (s.updateScore p).blackScores k = s.blackScores k ∧
      (s.updateScore p).whiteScores k = s.whiteScores k) ∧
    (rowSlot p = rowSlot q ↔ q ∈ specRow p.y) ∧
    (colSlot p = colSlot q ↔ q ∈ specCol p.x) ∧
    (diagSlot p = diagSlot q ↔ q ∈ specDiag (p.x - p.y)) ∧
    (antiSlot p = antiSlot q ↔ q ∈ specAnti (p.x + p.y)) ∧
    (diagGuard p ↔ 5 ≤ (specDiag (p.x - p.y)).length) ∧
    (antiGuard p ↔ 5 ≤ (specAnti (p.x + p.y)).length) ∧
    ((Finset.Icc (-14 : Int) 14).filter fun c => 5 ≤ (specDiag c).length).card = 21 ∧
    ((Finset.Icc (0 : Int) 28).filter fun c => 5 ≤ (specAnti c).length).card = 21 := by
  obtain ⟨h1, h2, h3, h4⟩ := hp
  obtain ⟨g1, g2, g3, g4⟩ := hq
  have hdg : diagGuard p ↔ (-10 ≤ p.x - p.y ∧ p.x - p.y ≤ 10) := by
    unfold diagGuard
    exact abs_le
  refine ⟨?_, ?_, ?_, ?_, ?_, fun s k hk => updateScore_not_written s p k hk, ?_, ?_, ?_, ?_,
    ?_, ?_, ?_, ?_⟩
  · intro k hk
    unfold written at hk
    rw [hdg] at hk
    unfold rowSlot colSlot diagSlot antiSlot antiGuard at hk
    omega
  · unfold rowSlot; omega
  · unfold colSlot; omega
  · rw [hdg]; unfold diagSlot; omega
  · unfold antiGuard antiSlot; omega
  · unfold rowSlot specRow
    simp only [List.mem_filter, mem_allPoints, decide_eq_true_eq]
    unfold onBoard
    omega
  · unfold colSlot specCol
    simp only [List.mem_filter, mem_allPoints, decide_eq_true_eq]
    unfold onBoard
    omega
  · unfold diagSlot specDiag
    simp only [List.mem_filter, mem_allPoints, decide_eq_true_eq]
    unfold onBoard
    omega
  · unfold antiSlot specAnti
    simp only [List.mem_filter, mem_allPoints, decide_eq_true_eq]
    unfold onBoard
    omega
  · rw [hdg, specDiag_five]
  · unfold antiGuard
    rw [specAnti_five]
  · have e : ((Finset.Icc (-14 : Int) 14).filter fun c => 5 ≤ (specDiag c).length)
        = Finset.Icc (-10 : Int) 10 := by
      ext c
      simp only [Finset.mem_filter, Finset.mem_Icc, specDiag_five]
      omega
    rw [e]
    rfl
  · have e : ((Finset.Icc (0 : Int) 28).filter fun c => 5 ≤ (specAnti c).length)
        = Finset.Icc (4 : Int) 24 := by
      ext c
      simp only [Finset.mem_filter, Finset.mem_Icc, specAnti_five]
      omega
    rw [e]
    rfl

/-- Witness of C19 at the points `(7, 7)` and `(8, 8)`. -/
theorem slot_indexing_witness :
    onBoard ⟨7, 7⟩ ∧ onBoard ⟨8, 8⟩ ∧
    (∀ k, written ⟨7, 7⟩ k → 0 ≤ k ∧ k < 72) ∧
    (diagSlot ⟨7, 7⟩ = diagSlot ⟨8, 8⟩ ↔ (⟨8, 8⟩ : QPoint) ∈ specDiag (7 - 7)) :=
  ⟨by decide, by decide,
    (slot_indexing ⟨7, 7⟩ ⟨8, 8⟩ (by decide) (by decide)).1,
    (slot_indexing ⟨7, 7⟩ ⟨8, 8⟩ (by decide) (by decide)).2.2.2.2.2.2.2.2.1⟩

/-! ## Candidate ordering -/

theorem scoreGreater_iff (a b : QPoint × Int) : scoreGreater a b = true ↔ visitedBefore a b := by
  unfold scoreGreater visitedBefore
  split_ifs with h1 h2 <;> simp only [decide_eq_true_eq] <;> omega

theorem visitedBefore_irrefl (a : QPoint × Int) : ¬ visitedBefore a a := by
  unfold visitedBefore
  omega

theorem visitedBefore_trans (a b c : QPoint × Int) (h1 : visitedBefore a b)
    (h2 : visitedBefore b c) : visitedBefore a c := by
  unfold visitedBefore at *
  omega

theorem visitedBefore_asymm (a b : QPoint × Int) (h1 : visitedBefore a b) :
    ¬ visitedBefore b a := by
  unfold visitedBefore at *
  omega

theorem visitedBefore_total (a b : QPoint × Int) (h : a.1 ≠ b.1) :
    visitedBefore a b ∨ visitedBefore b a := by
  unfold visitedBefore
  have hne : a.1.x ≠ b.1.x ∨ a.1.y ≠ b.1.y := by
    by_contra hc
    apply h
    cases ha : a.1
    cases hb : b.1
    rw [ha, hb] at hc
    simp only [QPoint.mk.injEq] at hc ⊢
    omega
  omega

theorem mem_emplace (e x : QPoint × Int) :
    ∀ l : List (QPoint × Int), (∀ h ∈ l, visitedBefore e h ∨ visitedBefore h e) →
      (x ∈ emplace e l ↔ x = e ∨ x ∈ l) := by
  intro l
  induction l with
  | nil => intro _; simp [emplace]
  | cons h t ih =>
    intro htot
    unfold emplace
    by_cases c1 : scoreGreater e h = true
    · rw [if_pos c1]
      simp only [List.mem_cons]
    · rw [if_neg c1]
      by_cases c2 : scoreGreater h e = true
      · rw [if_pos c2, List.mem_cons, ih (fun y hy => htot y (List.mem_cons_of_mem _ hy)),
          List.mem_cons]
        tauto
      · exfalso
        rcases htot h (List.mem_cons_self _ _) with hh | hh
        · exact c1 ((scoreGreater_iff e h).mpr hh)
        · exact c2 ((scoreGreater_iff h e).mpr hh)

theorem pairwise_emplace (e : QPoint × Int) :
    ∀ l : List (QPoint × Int), l.Pairwise visitedBefore →
      (∀ h ∈ l, visitedBefore e h ∨ visitedBefore h e) →
      (emplace e l).Pairwise visitedBefore := by
  intro l
  induction l with
  | nil => intro _ _; simp [emplace]
  | cons h t ih =>
    intro hp htot
    rw [List.pairwise_cons] at hp
    unfold emplace
    by_cases c1 : scoreGreater e h = true
    · rw [if_pos c1]
      have heh := (scoreGreater_iff e h).mp c1
      rw [List.pairwise_cons]
      refine ⟨?_, List.pairwise_cons.mpr hp⟩
      intro x hx
      rcases List.mem_cons.mp hx with rfl | hx
      · exact heh
      · exact visitedBefore_trans e h x heh (hp.1 x hx)
    · rw [if_neg c1]
      by_cases c2 : scoreGreater h e = true
      · rw [if_pos c2]
        have hhe := (scoreGreater_iff h e).mp c2
        have htot' : ∀ y ∈ t, visitedBefore e y ∨ visitedBefore y e :=
          fun y hy => htot y (List.mem_cons_of_mem _ hy)
        rw [List.pairwise_cons]
        refine ⟨?_, ih hp.2 htot'⟩
        intro x hx
        rcases (mem_emplace e x t htot').mp hx with rfl | hx
        · exact hhe
        · exact hp.1 x hx
      · exfalso
        rcases htot h (List.mem_cons_self _ _) with hh | hh
        · exact c1 ((scoreGreater_iff e h).mpr hh)
        · exact c2 ((scoreGreater_iff h e).mpr hh)

/-- The container after the loop has visited the points of a duplicate-free list:
its elements and their order. -/
theorem foldl_candidateStep (s : Gobang) :
    ∀ (l : List QPoint) (c : List (QPoint × Int)) (done : List QPoint),
      l.Nodup → (∀ p ∈ l, p ∉ done) → c.Pairwise visitedBefore →
      (∀ e, e ∈ c ↔ (e.1 ∈ done ∧ s.isIsolated e.1 = false ∧ e.2 = s.calculateScore e.1)) →
      (l.foldl (candidateStep s) c).Pairwise visitedBefore ∧
      ∀ e, e ∈ l.foldl (candidateStep s) c ↔
        ((e.1 ∈ done ∨ e.1 ∈ l) ∧ s.isIsolated e.1 = false ∧ e.2 = s.calculateScore e.1) := by
  intro l
  induction l with
  | nil =>
    intro c done _ _ hp hm
    refine ⟨hp, fun e => ?_⟩
    rw [List.foldl_nil, hm e]
    simp
  | cons v t ih =>
    intro c done hnd hfresh hp hm
    rw [List.nodup_cons] at hnd
    rw [List.foldl_cons]
    have hvd : v ∉ done := hfresh v (List.mem_cons_self _ _)
    have hfresh' : ∀ p ∈ t, p ∉ v :: done := by
      intro p hpt hmem
      rcases List.mem_cons.mp hmem with rfl | h
      · exact hnd.1 hpt
      · exact hfresh p (List.mem_cons_of_mem _ hpt) h
    have key : (candidateStep s c v).Pairwise visitedBefore ∧
        ∀ e, e ∈ candidateStep s c v ↔
          (e.1 ∈ v :: done ∧ s.isIsolated e.1 = false ∧ e.2 = s.calculateScore e.1) := by
      unfold candidateStep
      by_cases hiso : s.isIsolated v = true
      · rw [if_pos hiso]
        refine ⟨hp, fun e => ?_⟩
        rw [hm e, List.mem_cons]
        constructor
        · rintro ⟨h1, h2, h3⟩
          exact ⟨Or.inr h1, h2, h3⟩
        · rintro ⟨h1 | h1, h2, h3⟩
          · rw [h1, hiso] at h2
            cases h2
          · exact ⟨h1, h2, h3⟩
      · rw [if_neg hiso]
        have htot : ∀ h ∈ c, visitedBefore (v, s.calculateScore v) h ∨
            visitedBefore h (v, s.calculateScore v) := by
          intro h hh
          apply visitedBefore_total
          intro heq
          have := ((hm h).mp hh).1
          rw [← heq] at this
          exact hvd this
        refine ⟨pairwise_emplace _ c hp htot, fun e => ?_⟩
        rw [mem_emplace _ e c htot, hm e, List.mem_cons]
        constructor
        · rintro (rfl | ⟨h1, h2, h3⟩)
          · exact ⟨Or.inl rfl, by simpa using hiso, rfl⟩
          · exact ⟨Or.inr h1, h2, h3⟩
        · rintro ⟨h1 | h1, h2, h3⟩
          · left
            cases e with
            | mk ep es =>
              simp only at h1 h3
              rw [h1] at h3
              rw [h1, h3]
          · exact Or.inr ⟨h1, h2, h3⟩
    obtain ⟨r1, r2⟩ := ih (candidateStep s c v) (v :: done) hnd.2 hfresh' key.1 key.2
    refine ⟨r1, fun e => ?_⟩
    rw [r2 e]
    simp only [List.mem_cons]
    tauto

theorem mem_iterate (set : Finset QPoint) (p : QPoint) : p ∈ iterate set ↔ p ∈ set := by
  obtain ⟨m, nd⟩ := set
  induction m using Quot.inductionOn with
  | h l =>
    show p ∈ l.insertionSort pointLE ↔ p ∈ l
    exact (List.perm_insertionSort pointLE l).mem_iff

theorem iterate_nodup (set : Finset QPoint) : (iterate set).Nodup := by
  obtain ⟨m, nd⟩ := set
  induction m using Quot.inductionOn with
  | h l =>
    show (l.insertionSort pointLE).Nodup
    exact (List.perm_insertionSort pointLE l).nodup_iff.mpr nd

theorem candidates_eq_foldl (s : Gobang) :
    s.candidates = (iterate s.vacancies).foldl (candidateStep s) [] := rfl


theorem sorted_candidates_unique (A B : List (QPoint × Int)) (hA : A.Pairwise visitedBefore)
    (hB : B.Pairwise visitedBefore) (hmem : ∀ e, e ∈ A ↔ e ∈ B) : A = B := by
  have hne : ∀ a b : QPoint × Int, visitedBefore a b → a ≠ b := by
    intro a b h heq
    rw [heq] at h
    exact visitedBefore_irrefl b h
  have ndA : A.Nodup := by
    unfold List.Nodup
    exact hA.imp (fun {a b} h => hne a b h)
  have ndB : B.Nodup := by
    unfold List.Nodup
    exact hB.imp (fun {a b} h => hne a b h)
  have hperm : A.Perm B := (List.perm_ext_iff_of_nodup ndA ndB).mpr hmem
  haveI : IsAntisymm (QPoint × Int) visitedBefore :=
    ⟨fun a b h1 h2 => absurd h2 (visitedBefore_asymm a b h1)⟩
  exact List.eq_of_perm_of_sorted hperm hA hB

/-- C18: the candidate container holds exactly the vacant cells that are not
isolated, each once and paired with its `calculateScore`; it is visited in order of
decreasing score with ties broken by smaller `x`, then smaller `y`; the comparator
`scoreGreater` is that order, which is irreflexive, transitive and total on pairs
with distinct points, so no candidate is dropped as equivalent to another; and the
container does not depend on the order in which the vacancy set is visited. -/
theorem candidate_ordering (s : Gobang) :
    (∀ e, e ∈ s.candidates ↔
      (e.1 ∈ s.vacancies ∧ s.isIsolated e.1 = false ∧ e.2 = s.calculateScore e.1)) ∧
    (s.candidates.map Prod.fst).Nodup ∧
    s.candidates.Pairwise visitedBefore ∧
    (∀ a b, scoreGreater a b = true ↔ visitedBefore a b) ∧
    (∀ a, scoreGreater a a = false) ∧
    (∀ a b c, scoreGreater a b = true → scoreGreater b c = true → scoreGreater a c = true) ∧
    (∀ a b : QPoint × Int, a.1 ≠ b.1 → scoreGreater a b = true ∨ scoreGreater b a = true) ∧
    (∀ l : List QPoint, l.Nodup → (∀ p, p ∈ l ↔ p ∈ s.vacancies) →
      l.foldl (candidateStep s) [] = s.candidates) := by
  have hfold : ∀ l : List QPoint, l.Nodup → (∀ p, p ∈ l ↔ p ∈ s.vacancies) →
      (l.foldl (candidateStep s) []).Pairwise visitedBefore ∧
      ∀ e, e ∈ l.foldl (candidateStep s) [] ↔
        (e.1 ∈ s.vacancies ∧ s.isIsolated e.1 = false ∧ e.2 = s.calculateScore e.1) := by
    intro l hnd hl
    obtain ⟨r1, r2⟩ := foldl_candidateStep s l [] [] hnd (fun p _ h => by cases h)
      List.Pairwise.nil (fun e => by simp)
    refine ⟨r1, fun e => ?_⟩
    rw [r2 e, ← hl e.1]
    simp
  obtain ⟨hsorted, hmem⟩ := hfold (iterate s.vacancies) (iterate_nodup _)
    (fun p => mem_iterate _ p)
  rw [← candidates_eq_foldl] at hsorted hmem
  refine ⟨hmem, ?_, hsorted, scoreGreater_iff, ?_, ?_, ?_, ?_⟩
  · unfold List.Nodup
    rw [List.pairwise_map]
    apply hsorted.imp_of_mem
    intro a b ha hb hab heq
    have e2 : a.2 = b.2 := by
      rw [((hmem a).mp ha).2.2, ((hmem b).mp hb).2.2, heq]
    have : a = b := Prod.ext heq e2
    rw [this] at hab
    exact visitedBefore_irrefl b hab
  · intro a
    cases h : scoreGreater a a
    · rfl
    · exact absurd ((scoreGreater_iff a a).mp h) (visitedBefore_irrefl a)
  · intro a b c h1 h2
    rw [scoreGreater_iff] at *
    exact visitedBefore_trans a b c h1 h2
  · intro a b hne
    rw [scoreGreater_iff, scoreGreater_iff]
    exact visitedBefore_total a b hne
  · intro l hnd hl
    obtain ⟨r1, r2⟩ := hfold l hnd hl
    exact sorted_candidates_unique _ _ r1 hsorted (fun e => by rw [r2 e, hmem e])


/-! ## Edge and opponent block alike -/

theorem keys_clean :
    ∀ k ∈ shapeScoreMap.map Prod.fst, ∀ c ∈ k, c ≠ Char.ofNat 32 := by
  decide

theorem isPrefixOf_blank_cons (k : List Char) (hk : ∀ c ∈ k, c ≠ Char.ofNat 32) (hne : k ≠ [])
    (l : List Char) : k.isPrefixOf (Char.ofNat 32 :: l) = false := by
  cases k with
  | nil => exact absurd rfl hne
  | cons c k' =>
    have hc : c ≠ Char.ofNat 32 := hk c (List.mem_cons_self _ _)
    simp [List.isPrefixOf, hc]

theorem isPrefixOf_append_blanks (b : Nat) :
    ∀ (k : List Char), (∀ c ∈ k, c ≠ Char.ofNat 32) → ∀ t : List Char,
      k.isPrefixOf (t ++ List.replicate b (Char.ofNat 32)) = k.isPrefixOf t := by
  intro k
  induction k with
  | nil => intro _ t; simp [List.isPrefixOf]
  | cons c k' ih =>
    intro hk t
    have hc : c ≠ Char.ofNat 32 := hk c (List.mem_cons_self _ _)
    cases t with
    | nil =>
      cases b with
      | zero => simp [List.isPrefixOf]
      | succ b' => simp [List.isPrefixOf, List.replicate_succ, hc]
    | cons a t' =>
      have h := ih (fun c hc' => hk c (List.mem_cons_of_mem _ hc')) t'
      simp only [List.cons_append, List.isPrefixOf]
      show (c == a && k'.isPrefixOf (t' ++ List.replicate b (Char.ofNat 32))) = _
      rw [h]

theorem keys_nonempty : ∀ k ∈ shapeScoreMap.map Prod.fst, k ≠ [] := by
  decide

theorem parse_text_blanks (b : Nat) : parse_text (List.replicate b (Char.ofNat 32)) = [] := by
  induction b with
  | zero => rfl
  | succ n ih =>
    rw [List.replicate_succ, parse_text, ih, List.append_nil, List.filter_eq_nil_iff]
    intro k hk
    rw [isPrefixOf_blank_cons k (keys_clean k hk) (keys_nonempty k hk)]
    simp

theorem parse_text_append_blanks (b : Nat) (t : List Char) :
    parse_text (t ++ List.replicate b (Char.ofNat 32)) = parse_text t := by
  induction t with
  | nil =>
    rw [List.nil_append, parse_text_blanks]
    rfl
  | cons a t' ih =>
    rw [List.cons_append, parse_text, parse_text, ih]
    congr 1
    apply List.filter_congr
    intro k hk
    have := isPrefixOf_append_blanks b k (keys_clean k hk) (a :: t')
    rw [List.cons_append] at this
    rw [this]

theorem parse_text_blanks_append (a : Nat) (t : List Char) :
    parse_text (List.replicate a (Char.ofNat 32) ++ t) = parse_text t := by
  induction a with
  | zero => rfl
  | succ n ih =>
    rw [List.replicate_succ, List.cons_append, parse_text, ih]
    have : (shapeScoreMap.map Prod.fst).filter
        (fun k => k.isPrefixOf (Char.ofNat 32 :: (List.replicate n (Char.ofNat 32) ++ t))) = [] := by
      rw [List.filter_eq_nil_iff]
      intro k hk
      rw [isPrefixOf_blank_cons k (keys_clean k hk) (keys_nonempty k hk)]
      simp
    rw [this, List.nil_append]

/-- Blocking symbols before and after a line do not change its score. -/
theorem lineScore_padded (a b : Nat) (t : List Char) :
    lineScore (List.replicate a (Char.ofNat 32) ++ t ++ List.replicate b (Char.ofNat 32))
      = lineScore t := by
  unfold lineScore
  rw [parse_text_append_blanks, parse_text_blanks_append]


theorem fullWindow_shape_fin : ∀ i j : Fin 15, directions.all (fun d =>
    (((fullWindow ⟨(i.val : Int), (j.val : Int)⟩ d.1 d.2).dropWhile
        (fun q => !isLegal q)).dropWhile isLegal).all (fun q => !isLegal q)) = true := by
  decide!

theorem split_by_legal (L : List QPoint)
    (h : ((L.dropWhile (fun q => !isLegal q)).dropWhile isLegal).all (fun q => !isLegal q) = true) :
    ∃ A M B, L = A ++ M ++ B ∧ (∀ q ∈ A, isLegal q = false) ∧ (∀ q ∈ M, isLegal q = true) ∧
      (∀ q ∈ B, isLegal q = false) := by
  refine ⟨L.takeWhile (fun q => !isLegal q),
    (L.dropWhile (fun q => !isLegal q)).takeWhile isLegal,
    (L.dropWhile (fun q => !isLegal q)).dropWhile isLegal, ?_, ?_, ?_, ?_⟩
  · rw [List.append_assoc, List.takeWhile_append_dropWhile, List.takeWhile_append_dropWhile]
  · intro q hq
    have := List.mem_takeWhile_imp hq
    simpa using this
  · intro q hq
    exact List.mem_takeWhile_imp hq
  · intro q hq
    have := List.all_eq_true.mp h q hq
    simpa using this

theorem fullWindow_split (p : QPoint) (hp : onBoard p) (d : Int × Int) (hd : d ∈ directions) :
    ∃ A M B, fullWindow p d.1 d.2 = A ++ M ++ B ∧ (∀ q ∈ A, isLegal q = false) ∧
      (∀ q ∈ M, isLegal q = true) ∧ (∀ q ∈ B, isLegal q = false) := by
  obtain ⟨h1, h2, h3, h4⟩ := hp
  have h := fullWindow_shape_fin ⟨p.x.toNat, by omega⟩ ⟨p.y.toNat, by omega⟩
  have ex : ((p.x.toNat : Nat) : Int) = p.x := by omega
  have ey : ((p.y.toNat : Nat) : Int) = p.y := by omega
  simp only [ex, ey] at h
  have hd' := List.all_eq_true.mp h d hd
  exact split_by_legal _ hd'

theorem windowLine_eq (own : Stone) (sym : Stone → Char)
    (hsym : ∀ st, sym st = if st = own then '1' else if st = Stone.empty then '0'
      else Char.ofNat 32)
    (s : Gobang) (p : QPoint) (hp : onBoard p) (d : Int × Int) (hd : d ∈ directions) :
    lineScore ((windowPoints p d.1 d.2).map fun q => if q = p then '1' else sym (s.checkStone q))
      = lineScore ((fullWindow p d.1 d.2).map (windowSymbol own s p)) := by
  obtain ⟨A, M, B, hL, hA, hM, hB⟩ := fullWindow_split p hp d hd
  have hlegal : isLegal p = true := (isLegal_iff p).mpr hp
  have hw : windowPoints p d.1 d.2 = (fullWindow p d.1 d.2).filter isLegal := rfl
  have hfilter : (fullWindow p d.1 d.2).filter isLegal = M := by
    rw [hL, List.filter_append, List.filter_append]
    have e1 : A.filter isLegal = [] := by
      rw [List.filter_eq_nil_iff]
      intro q hq
      rw [hA q hq]
      simp
    have e2 : B.filter isLegal = [] := by
      rw [List.filter_eq_nil_iff]
      intro q hq
      rw [hB q hq]
      simp
    have e3 : M.filter isLegal = M := List.filter_eq_self.mpr hM
    rw [e1, e2, e3, List.nil_append, List.append_nil]
  have hblank : ∀ C : List QPoint, (∀ q ∈ C, isLegal q = false) →
      C.map (windowSymbol own s p) = List.replicate C.length (Char.ofNat 32) := by
    intro C hC
    have : C.map (windowSymbol own s p) = C.map (fun _ => Char.ofNat 32) := by
      apply List.map_congr_left
      intro q hq
      have hne : q ≠ p := by
        rintro rfl
        rw [hC q hq] at hlegal
        cases hlegal
      unfold windowSymbol
      rw [if_neg hne, if_pos (hC q hq)]
    rw [this]
    exact List.map_const' _ _
  have hmid : M.map (windowSymbol own s p)
      = M.map (fun q => if q = p then '1' else sym (s.checkStone q)) := by
    apply List.map_congr_left
    intro q hq
    unfold windowSymbol
    by_cases hqp : q = p
    · rw [if_pos hqp, if_pos hqp]
    · have hl : ¬ (isLegal q = false) := by rw [hM q hq]; simp
      rw [if_neg hqp, if_neg hqp, if_neg hl, hsym]
  rw [hw, hfilter, hL, List.map_append, List.map_append, hblank A hA, hblank B hB, hmid,
    lineScore_padded]

/-- C17: for every board, legal point `p` and line direction, `dScore`, which skips
the off-board cells of the window, equals the score of the full 11-symbol window
(offsets -5 to 5, both colours' renderings added) in which every off-board cell is
rendered with the blocking symbol of an opponent stone and the centre as an own
stone. -/
theorem dScore_full_window (s : Gobang) (p : QPoint) (d : Int × Int) (hp : onBoard p)
    (hd : d ∈ directions) : s.dScore p d.1 d.2 = specWindowScore s p d.1 d.2 := by
  unfold Gobang.dScore specWindowScore
  simp only []
  rw [windowLine_eq Stone.black blackSymbol (by intro st; cases st <;> simp [blackSymbol])
      s p hp d hd,
    windowLine_eq Stone.white whiteSymbol (by intro st; cases st <;> simp [whiteSymbol])
      s p hp d hd]

/-- Witness of C17: the corner point `(0, 0)` of the sample state, along the row. -/
theorem dScore_full_window_witness :
    onBoard ⟨0, 0⟩ ∧ ((1, 0) : Int × Int) ∈ directions ∧
    sampleState.dScore ⟨0, 0⟩ 1 0 = specWindowScore sampleState ⟨0, 0⟩ 1 0 :=
  ⟨by decide, by decide, dScore_full_window sampleState ⟨0, 0⟩ (1, 0) (by decide) (by decide)⟩


/-! ## Frontier characterisation -/

theorem mem_moveOffsets (o : QPoint) :
    o ∈ moveOffsets ↔ (-1 ≤ o.x ∧ o.x ≤ 1 ∧ -1 ≤ o.y ∧ o.y ≤ 1 ∧ (o.x ≠ 0 ∨ o.y ≠ 0)) := by
  cases o with
  | mk a b =>
    have e : moveOffsets = [⟨-1, 0⟩, ⟨1, 0⟩, ⟨0, -1⟩, ⟨0, 1⟩, ⟨-1, -1⟩, ⟨1, 1⟩, ⟨-1, 1⟩, ⟨1, -1⟩] := by
      decide
    rw [e]
    simp only [List.mem_cons, List.mem_singleton, QPoint.mk.injEq, List.not_mem_nil, or_false]
    omega

theorem mem_neighbourOffsets (o : QPoint) :
    o ∈ neighbourOffsets ↔ (-1 ≤ o.x ∧ o.x ≤ 1 ∧ -1 ≤ o.y ∧ o.y ≤ 1) := by
  cases o with
  | mk a b =>
    unfold neighbourOffsets
    simp only [List.mem_cons, List.mem_singleton, QPoint.mk.injEq, List.not_mem_nil, or_false]
    omega

theorem moveStep_fst (board : Int → Int → Stone) (point : QPoint)
    (acc : Finset QPoint × Finset QPoint) (o : QPoint) :
    (moveStep board point acc o).1 =
      if isLegal (point.add o) ∧ board (point.add o).x (point.add o).y = Stone.empty then
        insert (point.add o) acc.1
      else acc.1 := by
  unfold moveStep
  simp only []
  split_ifs <;> rfl

theorem foldl_moveStep_mem (board : Int → Int → Stone) (point : QPoint) (q : QPoint) :
    ∀ (offs : List QPoint) (acc : Finset QPoint × Finset QPoint),
      q ∈ (offs.foldl (moveStep board point) acc).1 ↔
        (q ∈ acc.1 ∨ ∃ o ∈ offs, q = point.add o ∧ isLegal (point.add o) = true ∧
          board (point.add o).x (point.add o).y = Stone.empty) := by
  intro offs
  induction offs with
  | nil => intro acc; simp
  | cons o rest ih =>
    intro acc
    rw [List.foldl_cons, ih, moveStep_fst]
    by_cases hc : isLegal (point.add o) = true ∧
        board (point.add o).x (point.add o).y = Stone.empty
    · rw [if_pos hc, Finset.mem_insert]
      constructor
      · rintro ((h | h) | ⟨o', ho', h⟩)
        · exact Or.inr ⟨o, List.mem_cons_self _ _, h, hc.1, hc.2⟩
        · exact Or.inl h
        · exact Or.inr ⟨o', List.mem_cons_of_mem _ ho', h⟩
      · rintro (h | ⟨o', ho', h⟩)
        · exact Or.inl (Or.inr h)
        · rcases List.mem_cons.mp ho' with rfl | ho''
          · exact Or.inl (Or.inl h.1)
          · exact Or.inr ⟨o', ho'', h⟩
    · rw [if_neg hc]
      constructor
      · rintro (h | ⟨o', ho', h⟩)
        · exact Or.inl h
        · exact Or.inr ⟨o', List.mem_cons_of_mem _ ho', h⟩
      · rintro (h | ⟨o', ho', h⟩)
        · exact Or.inl h
        · rcases List.mem_cons.mp ho' with rfl | ho''
          · exact absurd ⟨h.2.1, h.2.2⟩ hc
          · exact Or.inr ⟨o', ho'', h⟩

/-- The candidate set after `move(point)` on a grid. -/
theorem mem_move (board : Int → Int → Stone) (g : MovesGenerator) (point q : QPoint) :
    q ∈ (g.move board point).moves ↔
      (q ≠ point ∧ (q ∈ g.moves ∨ ∃ o ∈ moveOffsets, q = point.add o ∧ onBoard q ∧
        board q.x q.y = Stone.empty)) := by
  unfold MovesGenerator.move
  simp only []
  rw [Finset.mem_erase, foldl_moveStep_mem]
  constructor
  · rintro ⟨hne, h | ⟨o, ho, h1, h2, h3⟩⟩
    · exact ⟨hne, Or.inl h⟩
    · refine ⟨hne, Or.inr ⟨o, ho, h1, ?_, ?_⟩⟩
      · rw [h1]; exact (isLegal_iff _).mp h2
      · rw [h1]; exact h3
  · rintro ⟨hne, h | ⟨o, ho, h1, h2, h3⟩⟩
    · exact ⟨hne, Or.inl h⟩
    · refine ⟨hne, Or.inr ⟨o, ho, h1, ?_, ?_⟩⟩
      · rw [← h1]; exact (isLegal_iff _).mpr h2
      · rw [← h1]; exact h3

theorem add_neg_offset (p q o : QPoint) (h : q = p.add o) : p = q.add ⟨-o.x, -o.y⟩ := by
  cases p; cases q; cases o
  unfold QPoint.add at *
  simp only [QPoint.mk.injEq] at *
  omega

theorem neg_mem_moveOffsets (o : QPoint) (h : o ∈ moveOffsets) :
    (⟨-o.x, -o.y⟩ : QPoint) ∈ moveOffsets := by
  rw [mem_moveOffsets] at *
  simp only
  omega

theorem add_offset_ne (p o : QPoint) (h : o ∈ moveOffsets) : p.add o ≠ p := by
  rw [mem_moveOffsets] at h
  intro heq
  cases p with
  | mk px py =>
    cases o with
    | mk ox oy =>
      unfold QPoint.add at heq
      simp only [QPoint.mk.injEq] at heq h
      omega

theorem lockPlay_fst (sg : Gobang × MovesGenerator) (p : QPoint) (st : Stone) :
    (lockPlay sg p st).1 = sg.1.play p st := rfl

theorem LockPlayed.reachable {z : Zobrist} {k : Nat} {sg : Gobang × MovesGenerator}
    (h : LockPlayed z k sg) : Reachable z sg.1 := by
  induction h with
  | init => exact Reachable.init
  | play k sg p st _ hp hst ih => exact Reachable.play sg.1 p st ih hp hst

theorem LockPlayed.record_length {z : Zobrist} {k : Nat} {sg : Gobang × MovesGenerator}
    (h : LockPlayed z k sg) : sg.1.record.length = k := by
  induction h with
  | init => rfl
  | play k sg p st _ hp hst ih =>
    rw [lockPlay_fst, (play_frame sg.1 p st).2.1, List.length_cons, ih]

/-- After plays in lockstep the frontier is the set of vacant cells with an occupied
neighbour. -/
theorem LockPlayed.frontier {z : Zobrist} {k : Nat} {sg : Gobang × MovesGenerator}
    (h : LockPlayed z k sg) :
    ∀ q, q ∈ sg.2.moves ↔
      (onBoard q ∧ sg.1.checkStone q = Stone.empty ∧ hasOccupiedNeighbour sg.1 q) := by
  induction h with
  | init =>
    intro q
    unfold hasOccupiedNeighbour
    simp [MovesGenerator.init, init_checkStone]
  | play k sg p st hprev hp hst ih =>
    intro q
    have hinv := hprev.reachable.inv
    obtain ⟨hpb, hpe⟩ := (hinv.vac p).mp hp
    have hne : st ≠ Stone.empty := by
      rcases hst with e | e <;> rw [e] <;> decide
    have hb := (play_frame sg.1 p st).2.2.2.2
    have hcs : ∀ x, (sg.1.play p st).checkStone x = if x = p then st else sg.1.checkStone x :=
      fun x => checkStone_setCell _ _ _ _ _ hb
    show q ∈ (sg.2.move (sg.1.play p st).board p).moves ↔
      (onBoard q ∧ (sg.1.play p st).checkStone q = Stone.empty ∧
        hasOccupiedNeighbour (sg.1.play p st) q)
    rw [mem_move, ih q]
    unfold hasOccupiedNeighbour
    constructor
    · rintro ⟨hqp, ⟨hq1, hq2, o, ho, ho1, ho2⟩ | ⟨o, ho, hq, hqb, hqe⟩⟩
      · refine ⟨hq1, by rw [hcs, if_neg hqp]; exact hq2, o, ho, ho1, ?_⟩
        rw [hcs]
        by_cases hx : q.add o = p
        · rw [if_pos hx]; exact hne
        · rw [if_neg hx]; exact ho2
      · refine ⟨hqb, hqe, ⟨-o.x, -o.y⟩, neg_mem_moveOffsets o ho, ?_, ?_⟩
        · rw [← add_neg_offset p q o hq]; exact hpb
        · rw [← add_neg_offset p q o hq, hcs, if_pos rfl]; exact hne
    · rintro ⟨hq1, hq2, o, ho, ho1, ho2⟩
      have hqp : q ≠ p := by
        rintro rfl
        rw [hcs, if_pos rfl] at hq2
        exact hne hq2
      refine ⟨hqp, ?_⟩
      rw [hcs, if_neg hqp] at hq2
      by_cases hx : q.add o = p
      · right
        refine ⟨⟨-o.x, -o.y⟩, neg_mem_moveOffsets o ho, ?_, hq1, ?_⟩
        · have := add_neg_offset q p o hx.symm
          exact this
        · show (sg.1.play p st).checkStone q = Stone.empty
          rw [hcs, if_neg hqp]; exact hq2
      · left
        rw [hcs, if_neg hx] at ho2
        exact ⟨hq1, hq2, o, ho, ho1, ho2⟩


theorem isIsolated_eq_false (s : Gobang) (q : QPoint) :
    s.isIsolated q = false ↔
      ∃ o ∈ neighbourOffsets, onBoard (q.add o) ∧ s.checkStone (q.add o) ≠ Stone.empty := by
  unfold Gobang.isIsolated
  rw [Bool.not_eq_false', List.any_eq_true]
  constructor
  · rintro ⟨o, ho, h⟩
    rw [Bool.and_eq_true, isLegal_iff, bne_iff_ne] at h
    exact ⟨o, ho, h⟩
  · rintro ⟨o, ho, h⟩
    refine ⟨o, ho, ?_⟩
    rw [Bool.and_eq_true, isLegal_iff, bne_iff_ne]
    exact h

theorem add_zero_offset (q o : QPoint) (hx : o.x = 0) (hy : o.y = 0) : q.add o = q := by
  cases q; cases o
  unfold QPoint.add
  simp only at hx hy
  simp only [QPoint.mk.injEq]
  omega

/-- For an empty cell, not being isolated means having an occupied cell among the 8
neighbours. -/
theorem isIsolated_vacant (s : Gobang) (q : QPoint) (hq : s.checkStone q = Stone.empty) :
    s.isIsolated q = false ↔ hasOccupiedNeighbour s q := by
  rw [isIsolated_eq_false]
  unfold hasOccupiedNeighbour
  constructor
  · rintro ⟨o, ho, h1, h2⟩
    refine ⟨o, ?_, h1, h2⟩
    rw [mem_neighbourOffsets] at ho
    rw [mem_moveOffsets]
    refine ⟨ho.1, ho.2.1, ho.2.2.1, ho.2.2.2, ?_⟩
    by_contra hc
    have hx : o.x = 0 := by omega
    have hy : o.y = 0 := by omega
    rw [add_zero_offset q o hx hy] at h2
    exact h2 hq
  · rintro ⟨o, ho, h1, h2⟩
    refine ⟨o, ?_, h1, h2⟩
    rw [mem_moveOffsets] at ho
    rw [mem_neighbourOffsets]
    exact ⟨ho.1, ho.2.1, ho.2.2.1, ho.2.2.2.1⟩

/-- C11: after `k ≥ 0` plays on vacant cells with board and generator in lockstep and
no undo, `generate()` is exactly the set of vacant cells with at least one occupied
cell among their 8 neighbours, which is exactly the set of vacant cells for which
`isIsolated` is false; for `k = 0` it is empty and for `k = 1` it is exactly the set of
legal 8-neighbours of the played point. -/
theorem frontier_characterisation (z : Zobrist) (k : Nat) (sg : Gobang × MovesGenerator)
    (h : LockPlayed z k sg) :
    (∀ q, q ∈ sg.2.generate ↔ (q ∈ sg.1.vacancies ∧ hasOccupiedNeighbour sg.1 q)) ∧
    (∀ q, q ∈ sg.2.generate ↔ (q ∈ sg.1.vacancies ∧ sg.1.isIsolated q = false)) ∧
    (k = 0 → sg.2.generate = ∅) ∧
    (k = 1 → ∃ p, sg.1.record = [p] ∧
      ∀ q, q ∈ sg.2.generate ↔ (onBoard q ∧ isNeighbourOf q p)) := by
  have hinv := h.reachable.inv
  have hfront := h.frontier
  have hlen := h.record_length
  have h1 : ∀ q, q ∈ sg.2.generate ↔ (q ∈ sg.1.vacancies ∧ hasOccupiedNeighbour sg.1 q) := by
    intro q
    show q ∈ sg.2.moves ↔ _
    rw [hfront q, hinv.vac q]
    tauto
  refine ⟨h1, ?_, ?_, ?_⟩
  · intro q
    rw [h1 q]
    constructor
    · rintro ⟨hv, hn⟩
      exact ⟨hv, (isIsolated_vacant sg.1 q ((hinv.vac q).mp hv).2).mpr hn⟩
    · rintro ⟨hv, hn⟩
      exact ⟨hv, (isIsolated_vacant sg.1 q ((hinv.vac q).mp hv).2).mp hn⟩
  · intro hk
    apply Finset.eq_empty_of_forall_not_mem
    intro q hq
    obtain ⟨_, o, _, hob, hoc⟩ := (h1 q).mp hq
    have hmem : q.add o ∈ sg.1.record := (hinv.occ _).mpr ⟨hob, hoc⟩
    rw [hk] at hlen
    rw [List.length_eq_zero.mp hlen] at hmem
    cases hmem
  · intro hk
    rw [hk] at hlen
    obtain ⟨p, hp⟩ := List.length_eq_one.mp hlen
    refine ⟨p, hp, ?_⟩
    intro q
    have hocc : ∀ x, (onBoard x ∧ sg.1.checkStone x ≠ Stone.empty) ↔ x = p := by
      intro x
      rw [← hinv.occ x, hp, List.mem_singleton]
    show q ∈ sg.2.moves ↔ _
    rw [hfront q]
    unfold hasOccupiedNeighbour isNeighbourOf
    constructor
    · rintro ⟨hq1, hq2, o, ho, hob, hoc⟩
      have hx : q.add o = p := (hocc _).mp ⟨hob, hoc⟩
      exact ⟨hq1, ⟨-o.x, -o.y⟩, neg_mem_moveOffsets o ho, add_neg_offset q p o hx.symm⟩
    · rintro ⟨hq1, o, ho, hq⟩
      have hpocc := (hocc p).mpr rfl
      have hqp : q ≠ p := by rw [hq]; exact add_offset_ne p o ho
      have hqe : sg.1.checkStone q = Stone.empty := by
        by_contra hne
        exact hqp ((hocc q).mp ⟨hq1, hne⟩)
      refine ⟨hq1, hqe, ⟨-o.x, -o.y⟩, neg_mem_moveOffsets o ho, ?_, ?_⟩
      · rw [← add_neg_offset p q o hq]; exact hpocc.1
      · rw [← add_neg_offset p q o hq]; exact hpocc.2

set_option maxRecDepth 8192 in
theorem sampleLock_played : LockPlayed sampleZobrist 1 sampleLock := by
  unfold sampleLock
  apply LockPlayed.play
  · exact LockPlayed.init
  · exact mem_init_vacancies sampleZobrist ⟨7, 7⟩ (by decide)
  · exact Or.inl rfl

/-- Witness of C11 on the state after one play on the centre. -/
theorem frontier_characterisation_witness :
    LockPlayed sampleZobrist 1 sampleLock ∧
    (∀ q, q ∈ sampleLock.2.generate ↔
      (q ∈ sampleLock.1.vacancies ∧ sampleLock.1.isIsolated q = false)) :=
  ⟨sampleLock_played,
    (frontier_characterisation sampleZobrist 1 sampleLock sampleLock_played).2.1⟩


/-! ## The frontier is a subset of the vacancies -/

theorem back_one (s : Gobang) : s.back 1 = s.back1 := rfl

theorem lockUndo_cons (sg : Gobang × MovesGenerator) (p : QPoint) (rest : List QPoint)
    (h : sg.1.record = p :: rest) : lockUndo sg = (sg.1.back1, sg.2.undo p) := by
  unfold lockUndo
  rw [h]
  rfl

theorem LockReachable.boardReachable {z : Zobrist} {sg : Gobang × MovesGenerator}
    (h : LockReachable z sg) : Reachable z sg.1 := by
  induction h with
  | init => exact Reachable.init
  | play sg p st _ hp hst ih => exact Reachable.play sg.1 p st ih hp hst
  | undo sg _ hne ih =>
    cases hrec : sg.1.record with
    | nil => exact absurd hrec hne
    | cons p rest =>
      rw [lockUndo_cons sg p rest hrec]
      have : Reachable z (sg.1.back ((1 : Nat) : Int)) :=
        Reachable.back sg.1 1 ih (by rw [hrec]; simp)
      exact this

/-- In lockstep, every candidate is an on-board empty cell, and the generator's
history matches the board's. -/
theorem LockReachable.frontier_vacant {z : Zobrist} {sg : Gobang × MovesGenerator}
    (h : LockReachable z sg) :
    (∀ q ∈ sg.2.moves, onBoard q ∧ sg.1.checkStone q = Stone.empty) ∧
    HistoryMatches sg.2.history sg.1.record := by
  induction h with
  | init =>
    refine ⟨fun q hq => ?_, List.Forall₂.nil⟩
    simp [MovesGenerator.init] at hq
  | play sg p st hprev hp hst ih =>
    obtain ⟨ihm, ihh⟩ := ih
    have hb := (play_frame sg.1 p st).2.2.2.2
    have hr := (play_frame sg.1 p st).2.1
    have hcs : ∀ x, (sg.1.play p st).checkStone x = if x = p then st else sg.1.checkStone x :=
      fun x => checkStone_setCell _ _ _ _ _ hb
    constructor
    · intro q hq
      have hq' : q ∈ (sg.2.move (sg.1.play p st).board p).moves := hq
      rw [mem_move] at hq'
      obtain ⟨hqp, hm | ⟨o, _, _, hqb, hqe⟩⟩ := hq'
      · obtain ⟨h1, h2⟩ := ihm q hm
        refine ⟨h1, ?_⟩
        show (sg.1.play p st).checkStone q = Stone.empty
        rw [hcs, if_neg hqp]
        exact h2
      · exact ⟨hqb, hqe⟩
    · show HistoryMatches (sg.2.move (sg.1.play p st).board p).history (sg.1.play p st).record
      rw [hr]
      unfold MovesGenerator.move
      simp only []
      apply List.Forall₂.cons _ ihh
      simp only []
      split_ifs
      · exact Or.inl rfl
      · exact Or.inr rfl
  | undo sg hprev hne ih =>
    obtain ⟨ihm, ihh⟩ := ih
    have hinv := hprev.boardReachable.inv
    cases hrec : sg.1.record with
    | nil => exact absurd hrec hne
    | cons p rest =>
      rw [lockUndo_cons sg p rest hrec]
      rw [hrec] at ihh
      cases hhist : sg.2.history with
      | nil => rw [hhist] at ihh; cases ihh
      | cons hist hrest =>
        rw [hhist] at ihh
        obtain ⟨hhead, htail⟩ := List.forall₂_cons.mp ihh
        obtain ⟨_, fr, _, _, fb⟩ := back1_frame sg.1 p rest hrec
        have hcs : ∀ x, sg.1.back1.checkStone x
            = if x = p then Stone.empty else sg.1.checkStone x :=
          fun x => checkStone_setCell _ _ _ _ _ fb
        have hpb : onBoard p := ((hinv.occ p).mp (by rw [hrec]; exact List.mem_cons_self _ _)).1
        have hold : ∀ q ∈ sg.2.moves \ hist.1,
            onBoard q ∧ sg.1.back1.checkStone q = Stone.empty := by
          intro q hq
          obtain ⟨h1, h2⟩ := ihm q (Finset.mem_sdiff.mp hq).1
          refine ⟨h1, ?_⟩
          rw [hcs]
          split_ifs
          · rfl
          · exact h2
        constructor
        · intro q hq
          have hq' : q ∈ (sg.2.undo p).moves := hq
          unfold MovesGenerator.undo at hq'
          rw [hhist] at hq'
          simp only [] at hq'
          by_cases hnull : hist.2.isNull = true
          · rw [hnull] at hq'
            simp only [Bool.not_true, Bool.false_eq_true, if_false] at hq'
            exact hold q hq'
          · have hnf : hist.2.isNull = false := by
              cases hh : hist.2.isNull
              · rfl
              · exact absurd hh hnull
            rw [hnf] at hq'
            simp only [Bool.not_false, if_true] at hq'
            rcases Finset.mem_insert.mp hq' with heq | hq''
            · have hp2 : hist.2 = p := by
                rcases hhead with h | h
                · exact h
                · rw [h] at hnf
                  exact absurd hnf (by decide)
              rw [heq, hp2]
              refine ⟨hpb, ?_⟩
              show sg.1.back1.checkStone p = Stone.empty
              rw [hcs, if_pos rfl]
            · exact hold q hq''
        · show HistoryMatches (sg.2.undo p).history sg.1.back1.record
          rw [fr]
          unfold MovesGenerator.undo
          rw [hhist]
          exact htail

/-- C12: in every state reached by plays on vacant cells and undos of the last play,
applied to the board and the generator in lockstep, every point returned by
`generate()` is a legal coordinate whose grid cell is Empty (a member of the vacancy
set). -/
theorem frontier_subset_vacancies (z : Zobrist) (sg : Gobang × MovesGenerator)
    (h : LockReachable z sg) :
    ∀ q, q ∈ sg.2.generate →
      onBoard q ∧ sg.1.checkStone q = Stone.empty ∧ q ∈ sg.1.vacancies := by
  intro q hq
  obtain ⟨h1, h2⟩ := h.frontier_vacant.1 q hq
  exact ⟨h1, h2, (h.boardReachable.inv.vac q).mpr ⟨h1, h2⟩⟩

theorem LockPlayed.lockReachable {z : Zobrist} {k : Nat} {sg : Gobang × MovesGenerator}
    (h : LockPlayed z k sg) : LockReachable z sg := by
  induction h with
  | init => exact LockReachable.init
  | play k sg p st _ hp hst ih => exact LockReachable.play sg p st ih hp hst

set_option maxRecDepth 8192 in
theorem sampleLockUndone_reachable : LockReachable sampleZobrist sampleLockUndone := by
  unfold sampleLockUndone
  apply LockReachable.undo
  · apply LockReachable.play
    · exact sampleLock_played.lockReachable
    · unfold sampleLock lockPlay
      exact mem_play_vacancies (Gobang.init sampleZobrist) ⟨7, 7⟩ ⟨8, 8⟩ Stone.black
        (mem_init_vacancies sampleZobrist ⟨8, 8⟩ (by decide)) (by decide)
    · exact Or.inr rfl
  · unfold lockPlay
    rw [(play_frame _ _ _).2.1]
    exact List.cons_ne_nil _ _

theorem sampleLockUndone_frontier :
    (⟨8, 8⟩ : QPoint) ∈ sampleLockUndone.2.generate ∧
    (⟨6, 6⟩ : QPoint) ∈ sampleLockUndone.2.generate ∧
    sampleLockUndone.2.generate.card = 8 := by
  decide!

/-- Witness of C12: a Black play, a White play next to it, then the undo of the White
play, in lockstep.  `generate()` then holds 8 points, among them the undone point
(8, 8), which is on the grid, Empty and in the vacancy set. -/
theorem frontier_subset_vacancies_witness :
    LockReachable sampleZobrist sampleLockUndone ∧
    (⟨8, 8⟩ : QPoint) ∈ sampleLockUndone.2.generate ∧
    sampleLockUndone.2.generate.card = 8 ∧
    (onBoard ⟨8, 8⟩ ∧ sampleLockUndone.1.checkStone ⟨8, 8⟩ = Stone.empty ∧
      (⟨8, 8⟩ : QPoint) ∈ sampleLockUndone.1.vacancies) ∧
    (∀ q, q ∈ sampleLockUndone.2.generate →
      onBoard q ∧ sampleLockUndone.1.checkStone q = Stone.empty ∧
        q ∈ sampleLockUndone.1.vacancies) :=
  ⟨sampleLockUndone_reachable, sampleLockUndone_frontier.1, sampleLockUndone_frontier.2.2,
    frontier_subset_vacancies sampleZobrist sampleLockUndone sampleLockUndone_reachable ⟨8, 8⟩
      sampleLockUndone_frontier.1,
    frontier_subset_vacancies sampleZobrist sampleLockUndone sampleLockUndone_reachable⟩

/-! ## The search leaves the position unchanged -/

theorem withAux_self (s : Gobang) : s.withAux s.bestPoint s.zobrist.table = s := rfl

theorem withAux_withAux (s : Gobang) (bp1 bp2 : QPoint) (t1 t2 : Nat → Option Entry) :
    (s.withAux bp1 t1).withAux bp2 t2 = s.withAux bp2 t2 := rfl

theorem store_eq_withAux (s : Gobang) (type : BoundType) (depth : Nat) (score : Int) :
    s.store type depth score = s.withAux s.bestPoint (s.store type depth score).zobrist.table :=
  rfl

theorem setBest_eq_withAux (s : Gobang) (c : QPoint) :
    { s with bestPoint := c } = s.withAux c s.zobrist.table := rfl

theorem update_withAux (s : Gobang) (bp : QPoint) (t : Nat → Option Entry) (k b w : Int) :
    (s.withAux bp t).update k b w = (s.update k b w).withAux bp t := rfl

theorem updateScore_withAux (s : Gobang) (bp : QPoint) (t : Nat → Option Entry) (p : QPoint) :
    (s.withAux bp t).updateScore p = (s.updateScore p).withAux bp t := by
  unfold Gobang.updateScore
  simp only []
  split_ifs <;> rfl

theorem play_withAux (s : Gobang) (bp : QPoint) (t : Nat → Option Entry) (p : QPoint)
    (st : Stone) : (s.withAux bp t).play p st = (s.play p st).withAux bp t := by
  unfold Gobang.play
  simp only []
  rw [← updateScore_withAux]
  rfl

theorem back1_withAux (s : Gobang) (bp : QPoint) (t : Nat → Option Entry) :
    (s.withAux bp t).back1 = s.back1.withAux bp t := by
  unfold Gobang.back1
  cases hrec : s.record with
  | nil =>
    have : (s.withAux bp t).record = [] := hrec
    rw [this]
  | cons p rest =>
    have : (s.withAux bp t).record = p :: rest := hrec
    rw [this]
    simp only []
    rw [← updateScore_withAux]
    rfl

theorem Inv.withAux {z : Zobrist} {s : Gobang} (h : Inv z s) (bp : QPoint)
    (t : Nat → Option Entry) : Inv z (s.withAux bp t) :=
  ⟨h.vac, h.occ, h.nodup, h.slots, h.totals, h.key, h.hash⟩

/-- The candidate loop returns the position it was given, when every recursive call
does and every candidate is vacant. -/
theorem candidateLoop_frame {z : Zobrist}
    (child : Gobang → Int → Int → Gobang × Int) (maxDepth depth : Nat) (stone : Stone)
    (beta : Int) (hst : stone ≠ Stone.empty)
    (hchild : ∀ (s : Gobang) (a b : Int), Inv z s → ∃ bp t, (child s a b).1 = s.withAux bp t) :
    ∀ (cands : List (QPoint × Int)) (s : Gobang) (alpha limit : Int) (vt : BoundType),
      Inv z s → (∀ c ∈ cands, c.1 ∈ s.vacancies) →
      ∃ bp t, (candidateLoop child maxDepth depth stone beta cands s alpha limit vt).1
        = s.withAux bp t := by
  intro cands
  induction cands with
  | nil =>
    intro s alpha limit vt _ _
    exact ⟨_, _, store_eq_withAux s vt depth alpha⟩
  | cons c rest ih =>
    intro s alpha limit vt hinv hv
    obtain ⟨candidate, sc⟩ := c
    have hcv : candidate ∈ s.vacancies := hv (candidate, sc) (List.mem_cons_self _ _)
    obtain ⟨bp, t, hr⟩ := hchild (s.play candidate stone) (-beta) (-alpha)
      (hinv.play candidate stone hcv hst)
    have hback : (child (s.play candidate stone) (-beta) (-alpha)).1.back 1 = s.withAux bp t := by
      rw [hr, back_one, back1_withAux, play_back1 hinv candidate stone hcv hst]
    unfold candidateLoop
    simp only []
    rw [hback]
    generalize child (s.play candidate stone) (-beta) (-alpha) = r
    by_cases h1 : -r.2 ≥ beta
    · rw [if_pos h1]
      exact ⟨_, _, store_eq_withAux _ _ _ _⟩
    · rw [if_neg h1]
      have hs3 : ∃ bp3,
          (if decide (-r.2 > alpha) = true ∧ depth = maxDepth then
            { s.withAux bp t with bestPoint := candidate } else s.withAux bp t)
            = s.withAux bp3 t := by
        split_ifs
        · exact ⟨candidate, rfl⟩
        · exact ⟨bp, rfl⟩
      obtain ⟨bp3, hs3⟩ := hs3
      rw [hs3]
      by_cases h2 : limit - 1 < 0
      · rw [if_pos h2]
        exact ⟨_, _, store_eq_withAux _ _ _ _⟩
      · rw [if_neg h2]
        exact ih (s.withAux bp3 t) _ (limit - 1) _ (hinv.withAux bp3 t)
          (fun c hc => hv c (List.mem_cons_of_mem _ hc))


theorem flip_ne_empty (stone : Stone) : stone.flip ≠ Stone.empty := by
  cases stone <;> decide

theorem mem_candidates_iff (s : Gobang) (e : QPoint × Int) :
    e ∈ s.candidates ↔
      (e.1 ∈ s.vacancies ∧ s.isIsolated e.1 = false ∧ e.2 = s.calculateScore e.1) := by
  obtain ⟨_, r2⟩ := foldl_candidateStep s (iterate s.vacancies) [] [] (iterate_nodup _)
    (fun p _ h => by cases h) List.Pairwise.nil (fun e => by simp)
  rw [candidates_eq_foldl, r2 e, mem_iterate]
  simp

theorem mem_candidates_vacant (s : Gobang) (c : QPoint × Int) (h : c ∈ s.candidates) :
    c.1 ∈ s.vacancies :=
  ((mem_candidates_iff s c).mp h).1

/-- The state after `alphaBetaPrune` is the state at entry up to `bestPoint` and the
transposition table, at every depth. -/
theorem alphaBetaPrune_frame {z : Zobrist} (maxDepth : Nat) :
    ∀ (depth : Nat) (s : Gobang) (stone : Stone) (alpha beta : Int),
      Inv z s → stone ≠ Stone.empty →
      ∃ bp t, (alphaBetaPrune maxDepth depth s stone alpha beta).1 = s.withAux bp t := by
  intro depth
  induction depth with
  | zero =>
    intro s stone alpha beta _ _
    unfold alphaBetaPrune
    cases s.tableLookup maxDepth 0 alpha beta with
    | some r => exact ⟨_, _, (withAux_self s).symm⟩
    | none =>
      simp only []
      split_ifs
      · exact ⟨_, _, (withAux_self s).symm⟩
      · exact ⟨_, _, (withAux_self s).symm⟩
      · exact ⟨_, _, store_eq_withAux _ _ _ _⟩
  | succ d ih =>
    intro s stone alpha beta hinv hst
    unfold alphaBetaPrune
    cases s.tableLookup maxDepth (d + 1) alpha beta with
    | some r => exact ⟨_, _, (withAux_self s).symm⟩
    | none =>
      simp only []
      split_ifs
      · exact ⟨_, _, (withAux_self s).symm⟩
      · exact ⟨_, _, (withAux_self s).symm⟩
      · exact candidateLoop_frame _ maxDepth (d + 1) stone beta hst
          (fun s1 a b h1 => ih s1 stone.flip a b h1 (flip_ne_empty stone))
          s.candidates s alpha _ _ hinv (fun c hc => mem_candidates_vacant s c hc)

/-- C14: for every board reached by `play` and `back`, whatever `bestPoint` and the
transposition table hold, every mover colour, depth and window, `alphaBetaPrune`
returns (the embedding is a total function: it recurses on the depth and on the
candidate list) and, on every exit path, the grid, the vacancy set, the history
stack, the fingerprint, both score arrays and both score totals are those at entry:
each `play` of the loop has been undone by its `back(1)`. -/
theorem search_leaves_position (z : Zobrist) (maxDepth depth : Nat) (s : Gobang)
    (bestPoint : QPoint) (table : Nat → Option Entry) (stone : Stone) (alpha beta : Int)
    (h : Reachable z s) (hst : stone = Stone.black ∨ stone = Stone.white) :
    (alphaBetaPrune maxDepth depth (s.withAux bestPoint table) stone alpha beta).1.board
      = s.board ∧
    (alphaBetaPrune maxDepth depth (s.withAux bestPoint table) stone alpha beta).1.vacancies
      = s.vacancies ∧
    (alphaBetaPrune maxDepth depth (s.withAux bestPoint table) stone alpha beta).1.record
      = s.record ∧
    (alphaBetaPrune maxDepth depth (s.withAux bestPoint table) stone alpha beta).1.zobrist.hash
      = s.zobrist.hash ∧
    (alphaBetaPrune maxDepth depth (s.withAux bestPoint table) stone alpha beta).1.blackScores
      = s.blackScores ∧
    (alphaBetaPrune maxDepth depth (s.withAux bestPoint table) stone alpha beta).1.whiteScores
      = s.whiteScores ∧
    (alphaBetaPrune maxDepth depth (s.withAux bestPoint table) stone alpha beta).1.blackTotalScore
      = s.blackTotalScore ∧
    (alphaBetaPrune maxDepth depth (s.withAux bestPoint table) stone alpha beta).1.whiteTotalScore
      = s.whiteTotalScore := by
  have hne : stone ≠ Stone.empty := by
    rcases hst with e | e <;> rw [e] <;> decide
  obtain ⟨bp, t, hr⟩ := alphaBetaPrune_frame maxDepth depth (s.withAux bestPoint table) stone
    alpha beta (h.inv.withAux bestPoint table) hne
  rw [hr]
  exact ⟨rfl, rfl, rfl, rfl, rfl, rfl, rfl, rfl⟩

/-- Witness of C14: a search of depth 2 from the sample state, White to move. -/
theorem search_leaves_position_witness :
    Reachable sampleZobrist sampleState ∧
    (alphaBetaPrune 2 2 (sampleState.withAux QPoint.null (fun _ => none)) Stone.white
        minScore maxScore).1.board = sampleState.board ∧
    (alphaBetaPrune 2 2 (sampleState.withAux QPoint.null (fun _ => none)) Stone.white
        minScore maxScore).1.record = sampleState.record :=
  ⟨sampleState_reachable,
    (search_leaves_position sampleZobrist 2 2 sampleState QPoint.null (fun _ => none)
      Stone.white minScore maxScore sampleState_reachable (Or.inr rfl)).1,
    (search_leaves_position sampleZobrist 2 2 sampleState QPoint.null (fun _ => none)
      Stone.white minScore maxScore sampleState_reachable (Or.inr rfl)).2.2.1⟩


/-! ## Sequences of plays on distinct cells -/

theorem play_checkStone (s : Gobang) (p q : QPoint) (st : Stone) :
    (s.play p st).checkStone q = if q = p then st else s.checkStone q :=
  checkStone_setCell _ _ _ _ _ (play_frame s p st).2.2.2.2

theorem playAll_checkStone_not_mem (ms : List (QPoint × Stone)) :
    ∀ (s : Gobang) (q : QPoint), q ∉ ms.map Prod.fst →
      (playAll s ms).checkStone q = s.checkStone q := by
  induction ms with
  | nil => intro s q _; rfl
  | cons m ms ih =>
    intro s q hq
    simp only [List.map_cons, List.mem_cons, not_or] at hq
    show (playAll (s.play m.1 m.2) ms).checkStone q = s.checkStone q
    rw [ih _ q hq.2, play_checkStone, if_neg hq.1]

theorem playAll_checkStone_mem (ms : List (QPoint × Stone)) :
    ∀ (s : Gobang), (ms.map Prod.fst).Nodup → ∀ m ∈ ms,
      (playAll s ms).checkStone m.1 = m.2 := by
  induction ms with
  | nil => intro s _ m hm; cases hm
  | cons a ms ih =>
    intro s hnd m hm
    simp only [List.map_cons, List.nodup_cons] at hnd
    show (playAll (s.play a.1 a.2) ms).checkStone m.1 = m.2
    rcases List.mem_cons.mp hm with rfl | hm1
    · rw [playAll_checkStone_not_mem ms _ _ hnd.1, play_checkStone, if_pos rfl]
    · exact ih _ hnd.2 m hm1

/-- Plays of Black or White stones on distinct vacant cells are playable in order. -/
theorem playable_of_nodup (ms : List (QPoint × Stone)) :
    ∀ (s : Gobang), (ms.map Prod.fst).Nodup →
      (∀ m ∈ ms, m.1 ∈ s.vacancies ∧ (m.2 = Stone.black ∨ m.2 = Stone.white)) →
      Playable s ms := by
  induction ms with
  | nil => intro s _ _; trivial
  | cons a ms ih =>
    intro s hnd h
    simp only [List.map_cons, List.nodup_cons] at hnd
    obtain ⟨hv, hc⟩ := h a (List.mem_cons_self _ _)
    refine ⟨hv, hc, ih _ hnd.2 ?_⟩
    intro m hm
    obtain ⟨hv1, hc1⟩ := h m (List.mem_cons_of_mem _ hm)
    refine ⟨mem_play_vacancies s a.1 m.1 a.2 hv1 ?_, hc1⟩
    intro heq
    exact hnd.1 (heq ▸ List.mem_map_of_mem Prod.fst hm)

set_option maxRecDepth 8192 in
/-- Plays of Black or White stones on distinct cells of the grid are playable from
the constructed engine. -/
theorem init_playable (z : Zobrist) (ms : List (QPoint × Stone))
    (hnd : (ms.map Prod.fst).Nodup)
    (h : ∀ m ∈ ms, onBoard m.1 ∧ (m.2 = Stone.black ∨ m.2 = Stone.white)) :
    Playable (Gobang.init z) ms := by
  apply playable_of_nodup ms (Gobang.init z) hnd
  intro m hm
  refine ⟨?_, (h m hm).2⟩
  exact mem_init_vacancies z m.1 (h m hm).1

theorem Reachable.afterPlays {z : Zobrist} (ms : List (QPoint × Stone)) :
    ∀ {s : Gobang}, Reachable z s → Playable s ms → Reachable z (playAll s ms) := by
  induction ms with
  | nil => intro s h _; exact h
  | cons m ms ih =>
    intro s h hp
    obtain ⟨hv, hc, hrest⟩ := hp
    exact ih (Reachable.play s m.1 m.2 h hv hc) hrest

theorem playAll_aux (ms : List (QPoint × Stone)) :
    ∀ (s : Gobang), (playAll s ms).bestPoint = s.bestPoint ∧
      (playAll s ms).zobrist.table = s.zobrist.table := by
  induction ms with
  | nil => intro s; exact ⟨rfl, rfl⟩
  | cons m ms ih =>
    intro s
    obtain ⟨h1, h2⟩ := ih (s.play m.1 m.2)
    obtain ⟨_, _, f3, f4, _⟩ := play_frame s m.1 m.2
    show (playAll (s.play m.1 m.2) ms).bestPoint = s.bestPoint ∧
      (playAll (s.play m.1 m.2) ms).zobrist.table = s.zobrist.table
    rw [h1, h2, f3, f4]
    exact ⟨rfl, rfl⟩

theorem Inv.evaluate_eq {z : Zobrist} {s : Gobang} (h : Inv z s) (c : Stone)
    (hc : c = Stone.black ∨ c = Stone.white) : s.evaluate c = specEvaluate c s.board := by
  rcases hc with rfl | rfl
  · have ht : s.evaluate Stone.black = ∑ k ∈ Finset.range 72, s.blackScores (k : Int) :=
      h.totals.1
    rw [ht]
    exact total_eq_specEvaluate Stone.black s.board s.blackScores h.blackSlot
  · have ht : s.evaluate Stone.white = ∑ k ∈ Finset.range 72, s.whiteScores (k : Int) :=
      h.totals.2
    rw [ht]
    exact total_eq_specEvaluate Stone.white s.board s.whiteScores h.whiteSlot

theorem Inv.evaluate_black {z : Zobrist} {s : Gobang} (h : Inv z s) :
    s.evaluate Stone.black = ∑ k ∈ Finset.range 72, s.blackScores (k : Int) :=
  h.totals.1

theorem Inv.evaluate_white {z : Zobrist} {s : Gobang} (h : Inv z s) :
    s.evaluate Stone.white = ∑ k ∈ Finset.range 72, s.whiteScores (k : Int) :=
  h.totals.2

/-! ## The branching cap of the candidate loop -/

theorem candidateLoopPlayed_fst (child : Gobang → Int → Int → Gobang × Int)
    (maxDepth depth : Nat) (stone : Stone) (beta : Int) :
    ∀ (cands : List (QPoint × Int)) (s : Gobang) (alpha limit : Int) (vt : BoundType),
      (candidateLoopPlayed child maxDepth depth stone beta cands s alpha limit vt).1
        = candidateLoop child maxDepth depth stone beta cands s alpha limit vt := by
  intro cands
  induction cands with
  | nil => intro s alpha limit vt; rfl
  | cons c rest ih =>
    intro s alpha limit vt
    obtain ⟨candidate, sc⟩ := c
    unfold candidateLoopPlayed candidateLoop
    simp only []
    by_cases h1 : -(child (s.play candidate stone) (-beta) (-alpha)).2 ≥ beta
    · rw [if_pos h1, if_pos h1]
    · rw [if_neg h1, if_neg h1]
      by_cases h2 : limit - 1 < 0
      · rw [if_pos h2, if_pos h2]
      · rw [if_neg h2, if_neg h2]
        exact ih _ _ _ _

/-- The loop plays at most `limit + 1` candidates, and at most one when `limit` is
negative. -/
theorem candidateLoopPlayed_length_le (child : Gobang → Int → Int → Gobang × Int)
    (maxDepth depth : Nat) (stone : Stone) (beta : Int) :
    ∀ (cands : List (QPoint × Int)) (s : Gobang) (alpha limit : Int) (vt : BoundType),
      ((candidateLoopPlayed child maxDepth depth stone beta cands s alpha limit vt).2.length
        : Int) ≤ max 1 (limit + 1) := by
  intro cands
  induction cands with
  | nil =>
    intro s alpha limit vt
    unfold candidateLoopPlayed
    simp
  | cons c rest ih =>
    intro s alpha limit vt
    obtain ⟨candidate, sc⟩ := c
    unfold candidateLoopPlayed
    simp only []
    by_cases h1 : -(child (s.play candidate stone) (-beta) (-alpha)).2 ≥ beta
    · rw [if_pos h1]
      simp
    · rw [if_neg h1]
      by_cases h2 : limit - 1 < 0
      · rw [if_pos h2]
        simp
      · rw [if_neg h2]
        simp only [List.length_cons, Nat.cast_add, Nat.cast_one]
        refine le_trans (add_le_add_right (ih _ _ (limit - 1) _) 1) ?_
        simp only [max_def]
        split_ifs <;> omega

theorem Inv.evaluate_nonneg {z : Zobrist} {s : Gobang} (h : Inv z s) (stone : Stone) :
    0 ≤ s.evaluate stone := by
  unfold Gobang.evaluate
  split_ifs
  · rw [h.totals.1]
    apply Finset.sum_nonneg
    intro k hk
    have hk1 := Finset.mem_range.mp hk
    rw [(h.slots k (by omega) (by omega)).1]
    exact (lineScore_bounds _).1
  · rw [h.totals.2]
    apply Finset.sum_nonneg
    intro k hk
    have hk1 := Finset.mem_range.mp hk
    rw [(h.slots k (by omega) (by omega)).2]
    exact (lineScore_bounds _).1

theorem tableOK_empty : TableOK (fun _ => none) := by
  intro h e he
  cases he

theorem tableOK_insert (t : Nat → Option Entry) (ht : TableOK t) (k : Nat) (depth : Int)
    (score : Int) (h1 : minScore < score) (h2 : score < maxScore) :
    TableOK (fun j => if j = k then some ⟨BoundType.exact, depth, score⟩ else t j) := by
  intro h e he
  simp only [] at he
  by_cases hk : h = k
  · rw [if_pos hk] at he
    cases he
    exact ⟨rfl, h1, h2⟩
  · rw [if_neg hk] at he
    exact ht h e he

/-- A lookup in a table of exact entries returns the score of an entry. -/
theorem tableLookup_ok (s : Gobang) (maxDepth depth : Nat) (alpha beta r : Int)
    (ht : TableOK s.zobrist.table) (h : s.tableLookup maxDepth depth alpha beta = some r) :
    minScore < r ∧ r < maxScore := by
  unfold Gobang.tableLookup at h
  split_ifs at h with hc
  obtain ⟨_, hcont⟩ := hc
  unfold Zobrist.contains at hcont
  cases he : s.zobrist.table s.zobrist.hash with
  | none => rw [he] at hcont; cases hcont
  | some e =>
    have hat : s.zobrist.at s.zobrist.hash = e := by
      unfold Zobrist.at
      rw [he]
      rfl
    rw [hat] at h
    obtain ⟨h1, h2, h3⟩ := ht _ e he
    simp only [h1, Option.some.injEq] at h
    rw [← h]
    exact ⟨h2, h3⟩

/-- A call at depth 0 on a state whose table holds exact entries only: the position
is unchanged, the table still holds exact entries only, and the returned score is
strictly between `Min` and `Max`. -/
theorem leaf_call {z : Zobrist} (maxDepth : Nat) (hD : maxDepth ≤ 1000) (s : Gobang)
    (stone : Stone) (alpha beta : Int) (hinv : Inv z s) (ht : TableOK s.zobrist.table) :
    ∃ t, (alphaBetaPrune maxDepth 0 s stone alpha beta).1 = s.withAux s.bestPoint t ∧
      TableOK t ∧ minScore < (alphaBetaPrune maxDepth 0 s stone alpha beta).2 ∧
      (alphaBetaPrune maxDepth 0 s stone alpha beta).2 < maxScore := by
  have n1 := hinv.evaluate_nonneg stone
  have n2 := hinv.evaluate_nonneg stone.flip
  unfold alphaBetaPrune
  cases hl : s.tableLookup maxDepth 0 alpha beta with
  | some r =>
    obtain ⟨b1, b2⟩ := tableLookup_ok s maxDepth 0 alpha beta r ht hl
    exact ⟨_, (withAux_self s).symm, ht, b1, b2⟩
  | none =>
    simp only []
    split_ifs with c1 c2
    · refine ⟨_, (withAux_self s).symm, ht, ?_, ?_⟩ <;>
        simp only [minScore, maxScore] <;> norm_num <;> omega
    · refine ⟨_, (withAux_self s).symm, ht, ?_, ?_⟩ <;>
        simp only [minScore, maxScore] <;> norm_num <;> omega
    · have e1 : s.evaluate stone < 50000 := by
        have : five = 50000 := rfl
        rw [this] at c1
        omega
      have e2 : s.evaluate stone.flip < 50000 := by
        have : five = 50000 := rfl
        rw [this] at c2
        omega
      have b1 : minScore < s.evaluate stone - s.evaluate stone.flip := by
        simp only [minScore, maxScore]; omega
      have b2 : s.evaluate stone - s.evaluate stone.flip < maxScore := by
        simp only [maxScore]; omega
      exact ⟨_, store_eq_withAux _ _ _ _, tableOK_insert _ ht _ _ _ b1 b2, b1, b2⟩

/-- With the upper bound `Max` and recursive calls that return scores strictly between
`Min` and `Max`, no candidate cuts the loop off: started with `limit = n` on more
than `n` candidates it plays exactly `n + 1` of them. -/
theorem candidateLoopPlayed_length {z : Zobrist}
    (child : Gobang → Int → Int → Gobang × Int) (maxDepth depth : Nat) (stone : Stone)
    (hst : stone ≠ Stone.empty)
    (hchild : ∀ (s : Gobang) (a b : Int), Inv z s → TableOK s.zobrist.table →
      ∃ bp t, (child s a b).1 = s.withAux bp t ∧ TableOK t ∧ minScore < (child s a b).2) :
    ∀ (cands : List (QPoint × Int)) (s : Gobang) (alpha : Int) (n : Nat) (vt : BoundType),
      Inv z s → TableOK s.zobrist.table → (∀ c ∈ cands, c.1 ∈ s.vacancies) →
      n < cands.length →
      (candidateLoopPlayed child maxDepth depth stone maxScore cands s alpha (n : Int)
        vt).2.length = n + 1 := by
  intro cands
  induction cands with
  | nil =>
    intro s alpha n vt _ _ _ hn
    simp at hn
  | cons c rest ih =>
    intro s alpha n vt hinv ht hv hn
    obtain ⟨candidate, sc⟩ := c
    have hcv : candidate ∈ s.vacancies := hv (candidate, sc) (List.mem_cons_self _ _)
    obtain ⟨bp, t, hr, htt, hlo⟩ := hchild (s.play candidate stone) (-maxScore) (-alpha)
      (hinv.play candidate stone hcv hst)
      (by rw [(play_frame s candidate stone).2.2.2.1]; exact ht)
    have hback : (child (s.play candidate stone) (-maxScore) (-alpha)).1.back 1
        = s.withAux bp t := by
      rw [hr, back_one, back1_withAux, play_back1 hinv candidate stone hcv hst]
    unfold candidateLoopPlayed
    simp only []
    rw [hback]
    generalize child (s.play candidate stone) (-maxScore) (-alpha) = r at hlo
    have h1 : ¬ (-r.2 ≥ maxScore) := by
      simp only [minScore] at hlo
      omega
    rw [if_neg h1]
    have hs3 : ∃ bp3,
        (if decide (-r.2 > alpha) = true ∧ depth = maxDepth then
          { s.withAux bp t with bestPoint := candidate } else s.withAux bp t)
          = s.withAux bp3 t := by
      split_ifs
      · exact ⟨candidate, rfl⟩
      · exact ⟨bp, rfl⟩
    obtain ⟨bp3, hs3⟩ := hs3
    rw [hs3]
    cases n with
    | zero =>
      have h2 : ((0 : Nat) : Int) - 1 < 0 := by decide
      rw [if_pos h2]
      rfl
    | succ m =>
      have h2 : ¬ (((m + 1 : Nat) : Int) - 1 < 0) := by push_cast; omega
      rw [if_neg h2]
      have hm : ((m + 1 : Nat) : Int) - 1 = (m : Int) := by push_cast; ring
      rw [hm]
      simp only [List.length_cons]
      rw [ih (s.withAux bp3 t) _ m _ (hinv.withAux bp3 t) htt
        (fun c hc => hv c (List.mem_cons_of_mem _ hc))
        (by simp only [List.length_cons] at hn; omega)]

/-- Distinct vacant cells with an occupied neighbour are that many candidates. -/
theorem candidates_length_ge {z : Zobrist} (s : Gobang) (hinv : Inv z s) (pts : List QPoint)
    (hnd : pts.Nodup)
    (h : ∀ p ∈ pts, onBoard p ∧ s.checkStone p = Stone.empty ∧ s.isIsolated p = false) :
    pts.length ≤ s.candidates.length := by
  have hsub : (pts.map fun p => (p, s.calculateScore p)) ⊆ s.candidates := by
    intro e he
    obtain ⟨p, hp, rfl⟩ := List.mem_map.mp he
    obtain ⟨h1, h2, h3⟩ := h p hp
    exact (mem_candidates_iff s _).mpr ⟨(hinv.vac p).mpr ⟨h1, h2⟩, h3, rfl⟩
  have hnd2 : (pts.map fun p => (p, s.calculateScore p)).Nodup := by
    apply List.Nodup.map
    · intro a b hab
      exact congrArg Prod.fst hab
    · exact hnd
  have := (List.subperm_of_subset hnd2 hsub).length_le
  rw [List.length_map] at this
  exact this

/-- A node of remaining depth 1 that reaches its candidate loop with the window
`(Min, Max)`, a table of exact entries and more than `9 - maxDepth` candidates plays
`10 - maxDepth` of them: one more than `limit = 8 - (maxDepth - 1)`. -/
theorem node_depth_one_played {z : Zobrist} (m : Nat) (hm : m ≤ 8) (s : Gobang)
    (stone : Stone) (hst : stone ≠ Stone.empty) (hinv : Inv z s)
    (ht : TableOK s.zobrist.table)
    (hl : s.tableLookup (m + 1) 1 minScore maxScore = none)
    (h1 : ¬ (s.evaluate stone ≥ five)) (h2 : ¬ (s.evaluate stone.flip ≥ five))
    (hn : 8 - m < s.candidates.length) :
    (nodePlayed (m + 1) 1 s stone minScore maxScore).length = 8 - m + 1 := by
  unfold nodePlayed
  rw [hl]
  simp only []
  rw [if_neg h1, if_neg h2]
  have hlim : (8 : Int) - (((m + 1 : Nat) : Int) - ((0 + 1 : Nat) : Int))
      = ((8 - m : Nat) : Int) := by
    push_cast
    omega
  rw [hlim]
  exact candidateLoopPlayed_length (fun s1 a b => alphaBetaPrune (m + 1) 0 s1 stone.flip a b)
    (m + 1) 1 stone hst
    (fun s a b hinv ht => by
      obtain ⟨t, h1, h2, h3, _⟩ := leaf_call (m + 1) (by omega) s stone.flip a b hinv ht
      exact ⟨_, t, h1, h2, h3⟩)
    s.candidates s minScore (8 - m) BoundType.upperBound hinv ht
    (fun c hc => mem_candidates_vacant s c hc) hn

set_option maxRecDepth 8192 in
theorem twoStoneState_reachable : Reachable sampleZobrist twoStoneState := by
  unfold twoStoneState
  show Reachable sampleZobrist
    (((Gobang.init sampleZobrist).play ⟨7, 7⟩ Stone.black).play ⟨7, 9⟩ Stone.white)
  apply Reachable.play
  · exact sampleState_reachable
  · exact mem_play_vacancies (Gobang.init sampleZobrist) ⟨7, 7⟩ ⟨7, 9⟩ Stone.black
      (mem_init_vacancies sampleZobrist ⟨7, 9⟩ (by unfold onBoard; decide)) (by decide)
  · exact Or.inr rfl

theorem ninePoints_candidates :
    ∀ p ∈ ninePoints, onBoard p ∧ twoStoneState.checkStone p = Stone.empty ∧
      twoStoneState.isIsolated p = false := by
  decide

theorem twoStoneState_scores :
    ¬ (twoStoneState.evaluate Stone.black ≥ five) ∧
    ¬ (twoStoneState.evaluate Stone.black.flip ≥ five) := by
  decide

/-- C15 fails at the root of a search of depth 1 (`maxDepth = 1`, remaining depth
`d = 1`, so the cap of the claim is `8 - (1 - 1) = 8`): on the board with Black on
(7, 7) and White on (7, 9), Black to move and the window `(Min, Max)`, the candidate
loop plays nine candidates before the test `--limit < 0` stops it. -/
theorem branching_cap_exceeded :
    (nodePlayed 1 1 twoStoneState Stone.black minScore maxScore).length = 9 ∧
    ¬ (((nodePlayed 1 1 twoStoneState Stone.black minScore maxScore).length : Int)
        ≤ 8 - (((1 : Nat) : Int) - ((1 : Nat) : Int))) := by
  have hlen : (nodePlayed 1 1 twoStoneState Stone.black minScore maxScore).length = 9 :=
    node_depth_one_played 0 (by norm_num) twoStoneState Stone.black (by decide)
      (Reachable.inv twoStoneState_reachable) (fun _ _ he => by cases he)
      (by unfold Gobang.tableLookup; rw [if_neg]; intro h; exact h.1 rfl)
      twoStoneState_scores.1 twoStoneState_scores.2
      (candidates_length_ge twoStoneState (Reachable.inv twoStoneState_reachable) ninePoints
        (by decide) ninePoints_candidates)
  rw [hlen]
  exact ⟨rfl, by norm_num⟩

/-! ## Exact transposition entries and the search without the table -/

/-- Why the calls must be in turn: the table is keyed by fingerprint and depth only.
On the board with one Black stone on the centre (White to move), a direct call at
depth 0 for Black stores the exact entry 160 (Black's total 160 minus White's total
0).  A call at depth 0 on the same board for White then finds that entry for the
current fingerprint and depth and returns its score 160, while with the table
disabled the call returns `evaluate(White) - evaluate(Black) = -160`. -/
theorem exact_entry_other_mover :
    sampleStored.board = sampleState.board ∧
    sampleStored.zobrist.contains sampleStored.zobrist.hash 0 = true ∧
    sampleStored.zobrist.at sampleStored.zobrist.hash = ⟨BoundType.exact, 0, 160⟩ ∧
    sampleStored.tableLookup 1 0 minScore maxScore = some 160 ∧
    (alphaBetaPrune 1 0 sampleStored Stone.white minScore maxScore).2 = 160 ∧
    (alphaBetaNoTable 1 0 sampleStored Stone.white minScore maxScore).2 = -160 :=
  ⟨rfl, by decide⟩

theorem range_window_fin : ∀ n : Fin 16, ∀ a : Fin 11, a.val + 5 ≤ n.val →
    ((List.range n.val).drop a.val).take 5
      = [a.val, a.val + 1, a.val + 2, a.val + 3, a.val + 4] := by
  decide

theorem range_window (n a : Nat) (hn : n ≤ 15) (h : a + 5 ≤ n) :
    ((List.range n).drop a).take 5 = [a, a + 1, a + 2, a + 3, a + 4] :=
  range_window_fin ⟨n, by omega⟩ ⟨a, by omega⟩ h

/-- Five consecutive cells of a line listed by `g`, from position `a`. -/
theorem map_range_window (g : Nat → QPoint) (n a : Nat) (hn : n ≤ 15) (h : a + 5 ≤ n)
    (p : QPoint) (dir : Int × Int)
    (hstep : ∀ t : Nat, t < 5 → g (a + t) = stepFrom p dir (t : Int)) :
    (((List.range n).map g).drop a).take 5 = fivePoints p dir := by
  rw [← List.map_drop, ← List.map_take, range_window n a hn h]
  unfold fivePoints
  simp only [List.map_cons, List.map_nil]
  have e0 := hstep 0 (by norm_num)
  have e1 := hstep 1 (by norm_num)
  have e2 := hstep 2 (by norm_num)
  have e3 := hstep 3 (by norm_num)
  have e4 := hstep 4 (by norm_num)
  simp only [Nat.add_zero] at e0
  rw [e0, e1, e2, e3, e4]
  rfl

/-- Five cells in a row on the grid are five consecutive cells of the line of one
score slot. -/
theorem fivePoints_in_slot (p : QPoint) (dir : Int × Int) (hd : dir ∈ directions)
    (h0 : onBoard p) (h4 : onBoard (stepFrom p dir 4)) :
    0 ≤ runSlot p dir ∧ runSlot p dir < 72 ∧
    ((slotLine (runSlot p dir)).drop (runIndex p dir)).take 5 = fivePoints p dir := by
  obtain ⟨px, py⟩ := p
  unfold onBoard at h0 h4
  unfold stepFrom at h4
  simp only [] at h0 h4
  obtain ⟨a1, a2, a3, a4⟩ := h0
  obtain ⟨b1, b2, b3, b4⟩ := h4
  unfold directions at hd
  simp only [List.mem_cons, List.mem_singleton, List.not_mem_nil, or_false] at hd
  rcases hd with rfl | rfl | rfl | rfl
  · simp only [mul_one, mul_zero, add_zero] at b1 b2 b3 b4
    have hk : runSlot ⟨px, py⟩ (1, 0) = py := rfl
    have hn : runIndex ⟨px, py⟩ (1, 0) = px.toNat := rfl
    rw [hk, hn]
    refine ⟨a3, by omega, ?_⟩
    rw [slotLine_row py a4, ← rowPoints_eq py a3 a4]
    unfold rowPoints
    apply map_range_window _ 15 px.toNat (le_refl 15) (by omega)
    intro t ht
    unfold stepFrom
    simp only [QPoint.mk.injEq]
    push_cast
    constructor <;> omega
  · simp only [mul_one, mul_zero, add_zero] at b1 b2 b3 b4
    have hk : runSlot ⟨px, py⟩ (0, 1) = px + 15 := rfl
    have hn : runIndex ⟨px, py⟩ (0, 1) = py.toNat := rfl
    rw [hk, hn]
    refine ⟨by omega, by omega, ?_⟩
    rw [slotLine_col (px + 15) (by omega) (by omega), ← colPoints_eq _ (by omega) (by omega)]
    unfold colPoints
    apply map_range_window _ 15 py.toNat (le_refl 15) (by omega)
    intro t ht
    unfold stepFrom
    simp only [QPoint.mk.injEq]
    push_cast
    constructor <;> omega
  · simp only [mul_one] at b1 b2 b3 b4
    have hk : runSlot ⟨px, py⟩ (1, 1) = px - py + 40 := rfl
    have hn : runIndex ⟨px, py⟩ (1, 1) = (min px py).toNat := rfl
    rw [hk, hn]
    refine ⟨by omega, by omega, ?_⟩
    rw [slotLine_diag (px - py + 40) (by omega) (by omega),
      specDiag_closed _ (by omega) (by omega)]
    have e : px - py + 40 - 40 = px - py := by ring
    rw [e]
    unfold diagClosed
    rcases le_total px py with h | h
    · rw [min_eq_left h]
      apply map_range_window _ _ px.toNat
      · have := abs_nonneg (px - py); omega
      · rw [abs_of_nonpos (by omega)]; omega
      · intro t ht
        unfold stepFrom
        simp only [QPoint.mk.injEq]
        rw [max_eq_left (by omega), max_eq_right (by omega)]
        push_cast
        constructor <;> omega
    · rw [min_eq_right h]
      apply map_range_window _ _ py.toNat
      · have := abs_nonneg (px - py); omega
      · rw [abs_of_nonneg (by omega)]; omega
      · intro t ht
        unfold stepFrom
        simp only [QPoint.mk.injEq]
        rw [max_eq_right (by omega), max_eq_left (by omega)]
        push_cast
        constructor <;> omega
  · simp only [mul_one] at b1 b2 b3 b4
    have hk : runSlot ⟨px, py⟩ (1, -1) = px + py + 47 := rfl
    have hn : runIndex ⟨px, py⟩ (1, -1) = (min px (14 - py)).toNat := rfl
    rw [hk, hn]
    refine ⟨by omega, by omega, ?_⟩
    rw [slotLine_anti (px + py + 47) (by omega), specAnti_closed _ (by omega) (by omega)]
    have e : px + py + 47 - 47 = px + py := by ring
    rw [e]
    unfold antiClosed
    rcases le_total px (14 - py) with h | h
    · rw [min_eq_left h]
      apply map_range_window _ _ px.toNat
      · have := abs_nonneg (px + py - 14); omega
      · rw [abs_of_nonpos (by omega)]; omega
      · intro t ht
        unfold stepFrom
        simp only [QPoint.mk.injEq]
        rw [max_eq_left (by omega), min_eq_left (by omega)]
        push_cast
        constructor <;> omega
    · rw [min_eq_right h]
      apply map_range_window _ _ (14 - py).toNat
      · have := abs_nonneg (px + py - 14); omega
      · rw [abs_of_nonneg (by omega)]; omega
      · intro t ht
        unfold stepFrom
        simp only [QPoint.mk.injEq]
        rw [max_eq_right (by omega), min_eq_right (by omega)]
        push_cast
        constructor <;> omega

theorem key_score_nonneg :
    ∀ k ∈ shapeScoreMap.map Prod.fst, 0 ≤ (shapeScoreMap_at k).getD 0 := by
  decide

theorem prefix_scores_nonneg (line : List Char) :
    ∀ x ∈ ((shapeScoreMap.map Prod.fst).filter fun k => k.isPrefixOf line).map
      (fun k => (shapeScoreMap_at k).getD 0), 0 ≤ x := by
  intro x hx
  obtain ⟨k, hk, rfl⟩ := List.mem_map.mp hx
  exact key_score_nonneg k (List.mem_filter.mp hk).1

theorem lineScore_cons_ge (c : Char) (cs : List Char) : lineScore cs ≤ lineScore (c :: cs) := by
  rw [lineScore_cons]
  have := List.sum_nonneg (prefix_scores_nonneg (c :: cs))
  omega

theorem lineScore_append_ge (pre l : List Char) : lineScore l ≤ lineScore (pre ++ l) := by
  induction pre with
  | nil => exact le_refl _
  | cons c cs ih => exact le_trans ih (lineScore_cons_ge c (cs ++ l))

/-- A line that starts with five own stones scores at least `five`. -/
theorem lineScore_five (post : List Char) :
    five ≤ lineScore (['1', '1', '1', '1', '1'] ++ post) := by
  show five ≤ lineScore ('1' :: (['1', '1', '1', '1'] ++ post))
  rw [lineScore_cons]
  have hmem : (shapeScoreMap_at ['1', '1', '1', '1', '1']).getD 0 ∈
      ((shapeScoreMap.map Prod.fst).filter fun k =>
        k.isPrefixOf ('1' :: (['1', '1', '1', '1'] ++ post))).map
        (fun k => (shapeScoreMap_at k).getD 0) := by
    apply List.mem_map_of_mem
    rw [List.mem_filter]
    refine ⟨by decide, ?_⟩
    simp [List.isPrefixOf]
  have h1 := List.single_le_sum (prefix_scores_nonneg _) _ hmem
  have h2 : (shapeScoreMap_at ['1', '1', '1', '1', '1']).getD 0 = five := by decide
  have h3 := (lineScore_bounds (['1', '1', '1', '1'] ++ post)).1
  rw [h2] at h1
  omega

theorem render_own (own : Stone) (board : Int → Int → Stone) (pts : List QPoint)
    (h : ∀ q ∈ pts, board q.x q.y = own) :
    render own board pts = List.replicate pts.length '1' := by
  induction pts with
  | nil => rfl
  | cons q qs ih =>
    have hq := h q (List.mem_cons_self _ _)
    have := ih (fun r hr => h r (List.mem_cons_of_mem _ hr))
    unfold render at this ⊢
    simp only [List.map_cons, List.length_cons, List.replicate_succ, hq, if_true]
    rw [this]

theorem render_append (own : Stone) (board : Int → Int → Stone) (a b : List QPoint) :
    render own board (a ++ b) = render own board a ++ render own board b := by
  unfold render
  exact List.map_append _ _ _

/-- A line of the grid with five consecutive own stones scores at least `five`. -/
theorem specLineScore_five (own : Stone) (board : Int → Int → Stone) (line : List QPoint)
    (n : Nat) (hlen : ((line.drop n).take 5).length = 5)
    (h : ∀ q ∈ (line.drop n).take 5, board q.x q.y = own) :
    five ≤ specLineScore own board line := by
  have hsplit : line = line.take n ++ ((line.drop n).take 5 ++ (line.drop n).drop 5) := by
    rw [List.take_append_drop, List.take_append_drop]
  unfold specLineScore
  rw [hsplit, render_append, render_append, render_own own board _ h, hlen]
  exact le_trans (lineScore_five _) (lineScore_append_ge _ _)

theorem total_ge_slot (own : Stone) (board : Int → Int → Stone) (g : Int → Int)
    (hg : ∀ k : Int, 0 ≤ k → k < 72 → g k = specLineScore own board (slotLine k))
    (k : Int) (h0 : 0 ≤ k) (h1 : k < 72) :
    g k ≤ ∑ j ∈ Finset.range 72, g (j : Int) := by
  have hmem : k.toNat ∈ Finset.range 72 := Finset.mem_range.mpr (by omega)
  have hnn : ∀ j ∈ Finset.range 72, 0 ≤ g (j : Int) := by
    intro j hj
    have hj1 := Finset.mem_range.mp hj
    rw [hg j (by omega) (by omega)]
    exact (lineScore_bounds _).1
  have := Finset.single_le_sum hnn hmem
  have e : ((k.toNat : Nat) : Int) = k := by omega
  rw [e] at this
  exact this

/-- Five consecutive stones of a colour make that colour's total at least `five`. -/
theorem five_scores {z : Zobrist} (s : Gobang) (hinv : Inv z s) (c : Stone)
    (hc : c = Stone.black ∨ c = Stone.white) (h : fiveInRow s c) : five ≤ s.evaluate c := by
  obtain ⟨p, dir, hd, hall⟩ := h
  have h0 := (hall 0 (by norm_num)).1
  have h4 := (hall 4 (by norm_num)).1
  have hp0 : stepFrom p dir ((0 : Nat) : Int) = p := by
    unfold stepFrom
    simp
  rw [hp0] at h0
  obtain ⟨k0, k1, htake⟩ := fivePoints_in_slot p dir hd h0 h4
  have hline : five ≤ specLineScore c s.board (slotLine (runSlot p dir)) := by
    apply specLineScore_five c s.board _ (runIndex p dir)
    · rw [htake]
      rfl
    · intro q hq
      rw [htake] at hq
      unfold fivePoints at hq
      obtain ⟨t, ht, rfl⟩ := List.mem_map.mp hq
      exact (hall t (List.mem_range.mp ht)).2
  rcases hc with rfl | rfl
  · have ht : s.evaluate Stone.black = ∑ k ∈ Finset.range 72, s.blackScores (k : Int) :=
      hinv.totals.1
    rw [ht]
    refine le_trans ?_ (total_ge_slot Stone.black s.board s.blackScores hinv.blackSlot _ k0 k1)
    rw [hinv.blackSlot _ k0 k1]
    exact hline
  · have ht : s.evaluate Stone.white = ∑ k ∈ Finset.range 72, s.whiteScores (k : Int) :=
      hinv.totals.2
    rw [ht]
    refine le_trans ?_ (total_ge_slot Stone.white s.board s.whiteScores hinv.whiteSlot _ k0 k1)
    rw [hinv.whiteSlot _ k0 k1]
    exact hline

theorem gridMoves_fst (P : QPoint → Bool) (f : QPoint → Stone) :
    ((allPoints.filter P).map fun p => (p, f p)).map Prod.fst = allPoints.filter P := by
  rw [List.map_map]
  exact List.map_id _

/-- Filling the cells selected by `P` from the constructed engine, in the order of
`allPoints`, is a playable sequence. -/
theorem gridMoves_playable (z : Zobrist) (P : QPoint → Bool) (f : QPoint → Stone)
    (hf : ∀ p, f p = Stone.black ∨ f p = Stone.white) :
    Playable (Gobang.init z) ((allPoints.filter P).map fun p => (p, f p)) := by
  apply init_playable
  · rw [gridMoves_fst]
    exact allPoints_nodup.filter _
  · intro m hm
    obtain ⟨p, hp, rfl⟩ := List.mem_map.mp hm
    exact ⟨(mem_allPoints p).mp (List.mem_filter.mp hp).1, hf p⟩

theorem blockState_reachable : Reachable sampleZobrist blockState := by
  unfold blockState blockMoves
  exact Reachable.afterPlays _ Reachable.init
    (gridMoves_playable sampleZobrist (fun p => decide (5 ≤ p.x ∧ p.x ≤ 8 ∧ 5 ≤ p.y ∧ p.y ≤ 8))
      (fun _ => Stone.black) (fun _ => Or.inl rfl))

theorem blockState_black (q : QPoint) (h : blockState.checkStone q = Stone.black) :
    5 ≤ q.x ∧ q.x ≤ 8 ∧ 5 ≤ q.y ∧ q.y ≤ 8 := by
  by_cases hq : q ∈ blockMoves.map Prod.fst
  · unfold blockMoves at hq
    rw [gridMoves_fst] at hq
    simpa using (List.mem_filter.mp hq).2
  · unfold blockState at h
    rw [playAll_checkStone_not_mem _ _ _ hq, init_checkStone] at h
    cases h

theorem specLineScore_congr (own : Stone) (b1 b2 : Int → Int → Stone) (pts : List QPoint)
    (h : ∀ q ∈ pts, b1 q.x q.y = b2 q.x q.y) :
    specLineScore own b1 pts = specLineScore own b2 pts := by
  unfold specLineScore
  rw [render_congr own b1 b2 pts h]

/-- The from-scratch evaluation reads the cells of the grid only. -/
theorem specEvaluate_congr (own : Stone) (b1 b2 : Int → Int → Stone)
    (h : ∀ q, onBoard q → b1 q.x q.y = b2 q.x q.y) :
    specEvaluate own b1 = specEvaluate own b2 := by
  have hf : ∀ (P : QPoint → Bool), specLineScore own b1 (allPoints.filter P)
      = specLineScore own b2 (allPoints.filter P) := fun P =>
    specLineScore_congr own b1 b2 _
      (fun q hq => h q ((mem_allPoints q).mp (List.mem_filter.mp hq).1))
  unfold specEvaluate specRow specCol specDiag specAnti
  simp only [hf]

theorem blockState_grid (q : QPoint) (hq : onBoard q) :
    blockState.checkStone q = blockGrid q.x q.y := by
  unfold blockGrid
  by_cases hb : 5 ≤ q.x ∧ q.x ≤ 8 ∧ 5 ≤ q.y ∧ q.y ≤ 8
  · rw [if_pos hb]
    have hm : (q, Stone.black) ∈ blockMoves := by
      unfold blockMoves
      exact List.mem_map.mpr ⟨q, List.mem_filter.mpr ⟨(mem_allPoints q).mpr hq, by simpa using hb⟩,
        rfl⟩
    have hnd : (blockMoves.map Prod.fst).Nodup := by
      unfold blockMoves
      rw [gridMoves_fst]
      exact allPoints_nodup.filter _
    unfold blockState
    exact playAll_checkStone_mem blockMoves _ hnd (q, Stone.black) hm
  · rw [if_neg hb]
    have hq2 : q ∉ blockMoves.map Prod.fst := by
      unfold blockMoves
      rw [gridMoves_fst]
      intro hmem
      exact hb (by simpa using (List.mem_filter.mp hmem).2)
    unfold blockState
    rw [playAll_checkStone_not_mem _ _ _ hq2, init_checkStone]

/-- The four rows, the four columns and the two long diagonals of the square score
5760 each: the open four and the two fours inside it. -/
theorem blockGrid_lines : ∀ k ∈ ([5, 6, 7, 8, 20, 21, 22, 23, 40, 60] : List Nat),
    specLineScore Stone.black blockGrid (paramLine (k : Int)) = 5760 := by
  decide!

theorem blockState_lines (k : Nat) (hk : k ∈ ([5, 6, 7, 8, 20, 21, 22, 23, 40, 60] : List Nat)) :
    blockState.blackScores (k : Int) = 5760 := by
  have hlt : k < 72 := by
    simp only [List.mem_cons, List.mem_singleton, List.not_mem_nil, or_false] at hk
    omega
  rw [(Reachable.inv blockState_reachable).blackSlot (k : Int) (by omega) (by omega),
    slotLine_param (k : Int) (by omega) (by omega), ← blockGrid_lines k hk]
  apply specLineScore_congr
  intro q hq
  rw [← slotLine_param (k : Int) (by omega) (by omega)] at hq
  exact blockState_grid q ((mem_slotLine _ q).mp hq).1

theorem tenLines_sum :
    ∑ k ∈ Finset.range 72,
      (if k ∈ ([5, 6, 7, 8, 20, 21, 22, 23, 40, 60] : List Nat) then (5760 : Int) else 0)
      = 57600 := by
  simp only [Finset.sum_range_succ, Finset.sum_range_zero]
  decide

theorem blockState_score : 57600 ≤ blockState.evaluate Stone.black := by
  have hinv := Reachable.inv blockState_reachable
  rw [hinv.evaluate_black, ← tenLines_sum]
  apply Finset.sum_le_sum
  intro k hk
  have hk1 := Finset.mem_range.mp hk
  by_cases hm : k ∈ ([5, 6, 7, 8, 20, 21, 22, 23, 40, 60] : List Nat)
  · rw [if_pos hm, blockState_lines k hm]
  · rw [if_neg hm, hinv.blackSlot (k : Int) (by omega) (by omega)]
    exact (lineScore_bounds _).1

/-- C16 (as stated, refuted): sixteen Black stones filling the square `5 ≤ x, y ≤ 8`
are reached by plays on vacant cells; no row, column, diagonal or anti-diagonal holds
five of them, yet `evaluate(Black) ≥ Five`: the four rows and four columns of the
square and its two long diagonals score 5760 each (an open four, 4320, with the two
fours inside it, 720 each), which is 57600 already. -/
theorem score_without_five :
    Reachable sampleZobrist blockState ∧
    57600 ≤ blockState.evaluate Stone.black ∧
    blockState.evaluate Stone.black ≥ five ∧
    ¬ fiveInRow blockState Stone.black := by
  refine ⟨blockState_reachable, blockState_score, ?_, ?_⟩
  · have h := blockState_score
    have e : five = 50000 := rfl
    rw [e]
    omega
  · rintro ⟨p, dir, hd, hall⟩
    have b0 := blockState_black _ (hall 0 (by norm_num)).2
    have b4 := blockState_black _ (hall 4 (by norm_num)).2
    unfold stepFrom at b0 b4
    simp only [Nat.cast_zero, Nat.cast_ofNat, zero_mul, add_zero] at b0 b4
    unfold directions at hd
    simp only [List.mem_cons, List.mem_singleton, List.not_mem_nil, or_false] at hd
    rcases hd with rfl | rfl | rfl | rfl <;> simp only [] at b4 <;> omega

/-- C16 (amended): for every board reached by `play` and `back` and each colour `c`,
if `c` has five consecutive stones in some row, column, diagonal or anti-diagonal then
`evaluate(c) ≥ Five`, the condition on which `alphaBetaPrune` returns a win or loss
score.  (The converse fails: lesser shapes can add up to `Five`.) -/
theorem five_in_row_scores (z : Zobrist) (s : Gobang) (c : Stone) (h : Reachable z s)
    (hc : c = Stone.black ∨ c = Stone.white) (h5 : fiveInRow s c) :
    s.evaluate c ≥ five :=
  five_scores s h.inv c hc h5

theorem fiveState_reachable : Reachable sampleZobrist fiveState := by
  unfold fiveState
  apply Reachable.afterPlays _ Reachable.init
  apply init_playable
  · decide
  · decide

theorem fiveState_five : fiveInRow fiveState Stone.black :=
  ⟨⟨3, 3⟩, (1, 0), by decide, by decide⟩

/-- Witness of C16 (amended): five Black stones on row 3. -/
theorem five_in_row_scores_witness :
    Reachable sampleZobrist fiveState ∧ fiveInRow fiveState Stone.black ∧
    fiveState.evaluate Stone.black ≥ five :=
  ⟨fiveState_reachable, fiveState_five,
    five_in_row_scores sampleZobrist fiveState Stone.black fiveState_reachable (Or.inl rfl)
      fiveState_five⟩

/-! ## The move returned by `ai` -/

theorem flip_flip (stone : Stone) (h : stone ≠ Stone.empty) : stone.flip.flip = stone := by
  cases stone
  · rfl
  · exact absurd rfl h
  · rfl

theorem candidates_nil_of_no_vacancy (s : Gobang) (h : s.vacancies = ∅) : s.candidates = [] := by
  apply List.eq_nil_iff_forall_not_mem.mpr
  intro c hc
  have := mem_candidates_vacant s c hc
  rw [h] at this
  exact absurd this (Finset.not_mem_empty _)

theorem tableLookup_empty (s : Gobang) (maxDepth depth : Nat) (alpha beta : Int)
    (h : ∀ k, s.zobrist.table k = none) : s.tableLookup maxDepth depth alpha beta = none := by
  unfold Gobang.tableLookup
  rw [if_neg]
  rintro ⟨_, hc⟩
  unfold Zobrist.contains at hc
  rw [h] at hc
  cases hc

/-- With a single vacant cell and a search depth of at least 2, the root search ends
without writing `bestPoint`: after the only candidate is played the child has no
candidate, returns its lower bound `-Max`, and the root returns on `vacancyScore ≥
beta` before the assignment to `bestPoint`. -/
theorem ai_stale {z : Zobrist} (m : Nat) (s : Gobang) (stone : Stone)
    (hst : stone ≠ Stone.empty) (hinv : Inv z s) (v : QPoint) (hv : s.vacancies = {v})
    (htab : ∀ k, s.zobrist.table k = none)
    (h1 : s.evaluate stone < five) (h2 : s.evaluate stone.flip < five)
    (h3 : (s.play v stone).evaluate stone < five)
    (h4 : (s.play v stone).evaluate stone.flip < five) :
    (s.ai (m + 2) stone).2 = s.bestPoint := by
  have hvm : v ∈ s.vacancies := by rw [hv]; exact Finset.mem_singleton_self v
  unfold Gobang.ai
  simp only []
  unfold alphaBetaPrune
  rw [tableLookup_empty s _ _ _ _ htab]
  simp only []
  rw [if_neg (not_le.mpr h1), if_neg (not_le.mpr h2)]
  cases hc : s.candidates with
  | nil => rfl
  | cons c rest =>
    obtain ⟨cand, sc⟩ := c
    have hcand : cand = v := by
      have := mem_candidates_vacant s (cand, sc) (by rw [hc]; exact List.mem_cons_self _ _)
      rw [hv] at this
      exact Finset.mem_singleton.mp this
    subst hcand
    have hchild : alphaBetaPrune (m + 2) (m + 1) (s.play cand stone) stone.flip
        (-maxScore) (-minScore)
        = ((s.play cand stone).store BoundType.upperBound (m + 1) (-maxScore), -maxScore) := by
      unfold alphaBetaPrune
      have ht1 : ∀ k, (s.play cand stone).zobrist.table k = none := by
        intro k
        rw [(play_frame s cand stone).2.2.2.1]
        exact htab k
      rw [tableLookup_empty _ _ _ _ _ ht1]
      simp only []
      rw [flip_flip stone hst, if_neg (not_le.mpr h4), if_neg (not_le.mpr h3)]
      have hvac : (s.play cand stone).vacancies = ∅ := by
        rw [(play_frame s cand stone).1, hv]
        exact Finset.erase_singleton cand
      rw [candidates_nil_of_no_vacancy _ hvac]
      rfl
    unfold candidateLoop
    simp only []
    rw [hchild]
    simp only [neg_neg]
    rw [if_pos (le_refl maxScore)]
    show (((s.play cand stone).store BoundType.upperBound (m + 1) (-maxScore)).back 1).bestPoint
      = s.bestPoint
    rw [store_eq_withAux, back_one, back1_withAux, play_back1 hinv cand stone hvm hst]
    exact (play_frame s cand stone).2.2.1

theorem key_has_zero :
    ∀ k ∈ shapeScoreMap.map Prod.fst, k = ['1', '1', '1', '1', '1'] ∨ '0' ∈ k := by
  decide

/-- A line without an empty cell and without five own stones in a row scores 0. -/
theorem lineScore_quiet (line : List Char) (h : quietLine line = true) : lineScore line = 0 := by
  induction line with
  | nil => rfl
  | cons c cs ih =>
    unfold quietLine at h
    simp only [Bool.and_eq_true, Bool.not_eq_true', List.all_eq_true] at h
    obtain ⟨hz, hf⟩ := h
    unfold fiveOnes at hf
    simp only [Bool.or_eq_false_iff] at hf
    have hcs : quietLine cs = true := by
      unfold quietLine
      simp only [Bool.and_eq_true, Bool.not_eq_true', List.all_eq_true]
      exact ⟨fun x hx => hz x (List.mem_cons_of_mem _ hx), hf.2⟩
    rw [lineScore_cons, ih hcs, add_zero]
    have hempty : ((shapeScoreMap.map Prod.fst).filter fun k => k.isPrefixOf (c :: cs)) = [] := by
      apply List.filter_eq_nil_iff.mpr
      intro k hk hpre
      rcases key_has_zero k hk with rfl | h0
      · rw [hf.1] at hpre
        cases hpre
      · have hsub := (List.isPrefixOf_iff_prefix.mp hpre).subset h0
        have := hz '0' hsub
        simp at this
    rw [hempty]
    rfl

theorem specEvaluate_zero (own : Stone) (board : Int → Int → Stone)
    (h : ∀ k : Fin 72, quietLine (render own board (paramLine (k.val : Int))) = true ∨
      lineScore (render own board (paramLine (k.val : Int))) = 0) :
    specEvaluate own board = 0 := by
  rw [← total_eq_specEvaluate own board (fun k => specLineScore own board (slotLine k))
    (fun _ _ _ => rfl)]
  apply Finset.sum_eq_zero
  intro k hk
  have hk1 := Finset.mem_range.mp hk
  show lineScore (render own board (slotLine (k : Int))) = 0
  rw [slotLine_param (k : Int) (by omega) (by omega)]
  rcases h ⟨k, hk1⟩ with hq | hz
  · exact lineScore_quiet _ hq
  · exact hz

theorem holeGrid_lines : ∀ k : Fin 72,
    (quietLine (render Stone.black holeGrid (paramLine (k.val : Int))) = true ∨
      lineScore (render Stone.black holeGrid (paramLine (k.val : Int))) = 0) ∧
    (quietLine (render Stone.white holeGrid (paramLine (k.val : Int))) = true ∨
      lineScore (render Stone.white holeGrid (paramLine (k.val : Int))) = 0) := by
  decide!

theorem fullGrid_lines : ∀ k : Fin 72,
    quietLine (render Stone.black fullGrid (paramLine (k.val : Int))) = true ∧
    quietLine (render Stone.white fullGrid (paramLine (k.val : Int))) = true := by
  decide!

theorem holeGrid_scores (own : Stone) (h : own = Stone.black ∨ own = Stone.white) :
    specEvaluate own holeGrid = 0 := by
  rcases h with rfl | rfl
  · exact specEvaluate_zero _ _ (fun k => (holeGrid_lines k).1)
  · exact specEvaluate_zero _ _ (fun k => (holeGrid_lines k).2)

theorem fullGrid_scores (own : Stone) (h : own = Stone.black ∨ own = Stone.white) :
    specEvaluate own fullGrid = 0 := by
  rcases h with rfl | rfl
  · exact specEvaluate_zero _ _ (fun k => Or.inl (fullGrid_lines k).1)
  · exact specEvaluate_zero _ _ (fun k => Or.inl (fullGrid_lines k).2)

theorem drawColour_cases (p : QPoint) : drawColour p = Stone.black ∨ drawColour p = Stone.white := by
  unfold drawColour
  split_ifs
  · exact Or.inl rfl
  · exact Or.inr rfl

theorem lastMoves_nodup : (lastMoves.map Prod.fst).Nodup := by
  unfold lastMoves
  rw [gridMoves_fst]
  exact allPoints_nodup.filter _

theorem lastVacancyState_reachable : Reachable sampleZobrist lastVacancyState := by
  unfold lastVacancyState lastMoves
  exact Reachable.afterPlays _ Reachable.init
    (gridMoves_playable sampleZobrist (fun p => decide (p ≠ ⟨7, 7⟩)) drawColour drawColour_cases)

/-- The grid of `lastVacancyState`: every cell but the centre holds its stone. -/
theorem lastVacancyState_grid (q : QPoint) (hq : onBoard q) :
    lastVacancyState.checkStone q = holeGrid q.x q.y := by
  unfold holeGrid
  by_cases hc : q = ⟨7, 7⟩
  · have hnm : q ∉ lastMoves.map Prod.fst := by
      unfold lastMoves
      rw [gridMoves_fst]
      intro hmem
      have := (List.mem_filter.mp hmem).2
      simp only [decide_eq_true_eq] at this
      exact this hc
    unfold lastVacancyState
    rw [playAll_checkStone_not_mem _ _ _ hnm, init_checkStone, hc]
    rfl
  · have hm : (q, drawColour q) ∈ lastMoves := by
      unfold lastMoves
      exact List.mem_map.mpr ⟨q, List.mem_filter.mpr ⟨(mem_allPoints q).mpr hq,
        by simpa using hc⟩, rfl⟩
    have h1 := playAll_checkStone_mem lastMoves (Gobang.init sampleZobrist) lastMoves_nodup
      (q, drawColour q) hm
    have hne : ¬ (q.x = 7 ∧ q.y = 7) := by
      intro h
      apply hc
      cases q
      simp only [QPoint.mk.injEq]
      exact h
    rw [if_neg hne]
    exact h1

theorem lastVacancyState_vacancies : lastVacancyState.vacancies = {⟨7, 7⟩} := by
  ext q
  rw [(Reachable.inv lastVacancyState_reachable).vac q, Finset.mem_singleton]
  constructor
  · rintro ⟨hq, he⟩
    rw [lastVacancyState_grid q hq] at he
    unfold holeGrid at he
    by_cases hc : q.x = 7 ∧ q.y = 7
    · cases q
      simp only [QPoint.mk.injEq]
      exact hc
    · rw [if_neg hc] at he
      rcases drawColour_cases ⟨q.x, q.y⟩ with h | h <;> rw [h] at he <;> cases he
  · rintro rfl
    refine ⟨by decide, ?_⟩
    rw [lastVacancyState_grid _ (by decide)]
    rfl

theorem lastVacancyState_scores (own : Stone) (h : own = Stone.black ∨ own = Stone.white) :
    lastVacancyState.evaluate own = 0 := by
  rw [Inv.evaluate_eq (Reachable.inv lastVacancyState_reachable) own h,
    ← holeGrid_scores own h]
  exact specEvaluate_congr own _ _ (fun q hq => lastVacancyState_grid q hq)

set_option maxRecDepth 8192 in
theorem lastVacancyState_played (own : Stone) (h : own = Stone.black ∨ own = Stone.white) :
    (lastVacancyState.play ⟨7, 7⟩ Stone.black).evaluate own = 0 := by
  have hmem : (⟨7, 7⟩ : QPoint) ∈ lastVacancyState.vacancies := by
    rw [lastVacancyState_vacancies]
    exact Finset.mem_singleton_self _
  have hinv := (Reachable.inv lastVacancyState_reachable).play ⟨7, 7⟩ Stone.black hmem
    (by decide)
  rw [Inv.evaluate_eq hinv own h, ← fullGrid_scores own h]
  apply specEvaluate_congr
  intro q hq
  show (lastVacancyState.play ⟨7, 7⟩ Stone.black).checkStone q = fullGrid q.x q.y
  rw [play_checkStone, lastVacancyState_grid q hq]
  unfold holeGrid fullGrid
  by_cases hc : q = ⟨7, 7⟩
  · rw [if_pos hc, hc]
    decide
  · have hne : ¬ (q.x = 7 ∧ q.y = 7) := by
      intro h
      apply hc
      cases q
      simp only [QPoint.mk.injEq]
      exact h
    rw [if_neg hc, if_neg hne]

/-- Whatever `bestPoint` held before, `ai` returns it unchanged when a single cell is
vacant, the table is empty and the search depth is at least 2. -/
theorem ai_stale_any {z : Zobrist} (m : Nat) (s : Gobang) (stone : Stone)
    (hst : stone ≠ Stone.empty) (hinv : Inv z s) (v : QPoint) (hv : s.vacancies = {v})
    (h1 : s.evaluate stone < five) (h2 : s.evaluate stone.flip < five)
    (h3 : (s.play v stone).evaluate stone < five)
    (h4 : (s.play v stone).evaluate stone.flip < five) (bp : QPoint) :
    ((s.withAux bp (fun _ => none)).ai (m + 2) stone).2 = bp :=
  ai_stale m (s.withAux bp (fun _ => none)) stone hst (hinv.withAux _ _) v hv
    (fun _ => rfl) h1 h2
    (by rw [play_withAux]; exact h3) (by rw [play_withAux]; exact h4)

theorem lastVacancyState_aux :
    lastVacancyState.bestPoint = ⟨0, 0⟩ ∧ lastVacancyState.zobrist.table = fun _ => none := by
  unfold lastVacancyState
  obtain ⟨h1, h2⟩ := playAll_aux lastMoves (Gobang.init sampleZobrist)
  rw [h1, h2]
  exact ⟨rfl, rfl⟩

theorem lastVacancyState_self :
    lastVacancyState = lastVacancyState.withAux ⟨0, 0⟩ (fun _ => none) := by
  have h := withAux_self lastVacancyState
  rw [lastVacancyState_aux.1, lastVacancyState_aux.2] at h
  exact h.symm

/-- C20 fails on the board with 224 stones whose only vacant cell is the centre
(7, 7): the board is reached by plays on vacant cells, both totals are 0, the table
is empty, and for every `maxDepth ≥ 2` the call `ai(Black)` returns the prior value
of `bestPoint`, whatever it is.  With the value `QPoint()` = (0, 0) left by the
constructor it returns (0, 0), a cell that holds a Black stone. -/
theorem ai_returns_occupied :
    Reachable sampleZobrist lastVacancyState ∧
    lastVacancyState.vacancies = {⟨7, 7⟩} ∧
    lastVacancyState.checkStone ⟨0, 0⟩ = Stone.black ∧
    lastVacancyState.evaluate Stone.black = 0 ∧
    lastVacancyState.evaluate Stone.white = 0 ∧
    (∀ k, lastVacancyState.zobrist.table k = none) ∧
    (∀ (m : Nat) (bp : QPoint),
      ((lastVacancyState.withAux bp (fun _ => none)).ai (m + 2) Stone.black).2 = bp) ∧
    (∀ m : Nat, (lastVacancyState.ai (m + 2) Stone.black).2 = ⟨0, 0⟩) ∧
    (⟨0, 0⟩ : QPoint) ∉ lastVacancyState.vacancies := by
  have hany : ∀ (m : Nat) (bp : QPoint),
      ((lastVacancyState.withAux bp (fun _ => none)).ai (m + 2) Stone.black).2 = bp := by
    intro m bp
    have e5 : (0 : Int) < five := by decide
    exact ai_stale_any m lastVacancyState Stone.black (by decide)
      (Reachable.inv lastVacancyState_reachable) ⟨7, 7⟩ lastVacancyState_vacancies
      (by rw [lastVacancyState_scores _ (Or.inl rfl)]; exact e5)
      (by
        show lastVacancyState.evaluate Stone.white < five
        rw [lastVacancyState_scores _ (Or.inr rfl)]; exact e5)
      (by rw [lastVacancyState_played _ (Or.inl rfl)]; exact e5)
      (by
        show (lastVacancyState.play ⟨7, 7⟩ Stone.black).evaluate Stone.white < five
        rw [lastVacancyState_played _ (Or.inr rfl)]; exact e5) bp
  refine ⟨lastVacancyState_reachable, lastVacancyState_vacancies, ?_,
    lastVacancyState_scores _ (Or.inl rfl), lastVacancyState_scores _ (Or.inr rfl), ?_,
    hany, ?_, ?_⟩
  · rw [lastVacancyState_grid _ (by decide)]
    decide
  · intro k
    rw [lastVacancyState_aux.2]
  · intro m
    have h := hany m ⟨0, 0⟩
    rw [← lastVacancyState_self] at h
    exact h
  · rw [lastVacancyState_vacancies]
    decide

/-! ## Soundness of the transposition table for searches in turn -/

/-! ## The value of the capped game tree -/

end QtGobang
